import Mathlib

/-!
# Console terminal driver (`term.go`): tokenizer, history ring, input parser, dispatcher

A shallow embedding of `src/term.go`.  Go strings are byte sequences and are
modelled as `List Nat` (one entry per byte); Go `int` values that are only
compared, incremented and decremented are `Int` or `Nat`.  A Go run-time panic
(slice or index out of range) is the value `none`.
-/

namespace Console

/-- A Go string: its bytes in order. -/
abbrev GoString := List Nat

/-! ## Constants of `term.go` -/

def bspace : Nat := 32
def bcomma : Nat := 34
def CR : Nat := 13
def LF : Nat := 10
def TELCODE_BACKSPACE : Nat := 8
def TELCODE_TAB : Nat := 9
def TELANSI_ESC : Nat := 27
def TELKEY_UP : Nat := 65
def TELKEY_DOWN : Nat := 66
def TELKEY_RIGHT : Nat := 67
def TELKEY_LEFT : Nat := 68
def TELKEYBOARD : Nat := 91
def TELCODE_IAC : Nat := 255
def MaxHistroyCmds : Nat := 200

/-! ## The Go standard library functions used by `term.go`

`unicode/utf8` and `strings`, at the byte level.  Bit masks and shifts of the
decoder are written as `%` and `*` on naturals. -/

/-- The replacement rune `utf8.RuneError` (U+FFFD). -/
def RuneError : Nat := 0xFFFD

/-- The size entry of `utf8.first` for a leading byte `0xC2 ≤ s0 ≤ 0xF4`. -/
def firstSize (s0 : Nat) : Nat :=
  if s0 < 0xE0 then 2 else if s0 < 0xF0 then 3 else 4

/-- Lower bound of `utf8.acceptRanges` for the second byte. -/
def acceptLo (s0 : Nat) : Nat :=
  if s0 = 0xE0 then 0xA0 else if s0 = 0xF0 then 0x90 else 0x80

/-- Upper bound of `utf8.acceptRanges` for the second byte. -/
def acceptHi (s0 : Nat) : Nat :=
  if s0 = 0xED then 0x9F else if s0 = 0xF4 then 0x8F else 0xBF

/-- Go `utf8.DecodeRuneInString`: the first rune of `s` and its width in bytes;
`(RuneError, 0)` on the empty string and `(RuneError, 1)` on an invalid
encoding. -/
def DecodeRuneInString (s : GoString) : Nat × Nat :=
  match s with
  | [] => (RuneError, 0)
  | s0 :: t =>
    if s0 < 0x80 then (s0, 1)
    else if s0 < 0xC2 ∨ 0xF5 ≤ s0 then (RuneError, 1)
    else if s.length < firstSize s0 then (RuneError, 1)
    else
      match t with
      | [] => (RuneError, 1)
      | s1 :: t1 =>
        if s1 < acceptLo s0 ∨ acceptHi s0 < s1 then (RuneError, 1)
        else if firstSize s0 ≤ 2 then ((s0 % 32) * 64 + s1 % 64, 2)
        else
          match t1 with
          | [] => (RuneError, 1)
          | s2 :: t2 =>
            if s2 < 0x80 ∨ 0xBF < s2 then (RuneError, 1)
            else if firstSize s0 ≤ 3 then
              ((s0 % 16) * 4096 + (s1 % 64) * 64 + s2 % 64, 3)
            else
              match t2 with
              | [] => (RuneError, 1)
              | s3 :: _ =>
                if s3 < 0x80 ∨ 0xBF < s3 then (RuneError, 1)
                else ((s0 % 8) * 262144 + (s1 % 64) * 4096 + (s2 % 64) * 64 + s3 % 64, 4)

/-- Go `utf8.RuneStart`: the byte is not a continuation byte `10xxxxxx`. -/
def RuneStart (b : Nat) : Bool := !(decide (0x80 ≤ b) && decide (b < 0xC0))

/-- The backward scan of `utf8.DecodeLastRuneInString`:
`for start--; start >= lim; start-- { if RuneStart(s[start]) { break } }`,
entered after the first `start--`. -/
def lastRuneStart (s : GoString) (lim : Int) : Nat → Int → Int
  | 0, start => start
  | fuel + 1, start =>
    if lim ≤ start then
      if RuneStart (s.getD start.toNat 0) then start
      else lastRuneStart s lim fuel (start - 1)
    else start

/-- Go `utf8.DecodeLastRuneInString`: the last rune of `s` and its width. -/
def DecodeLastRuneInString (s : GoString) : Nat × Nat :=
  let e := s.length
  if e = 0 then (RuneError, 0)
  else
    let r := s.getD (e - 1) 0
    if r < 0x80 then (r, 1)
    else
      let lim : Int := if (e : Int) - 4 < 0 then 0 else (e : Int) - 4
      let start0 := lastRuneStart s lim 4 ((e : Int) - 2)
      let start := if start0 < 0 then 0 else start0.toNat
      let d := DecodeRuneInString ((s.take e).drop start)
      if start + d.2 ≠ e then (RuneError, 1) else d

/-- Go `unicode.IsSpace`: the Latin-1 spaces and the `White_Space` table. -/
def IsSpace (r : Nat) : Bool :=
  if r ≤ 0xFF then
    r = 9 ∨ r = 10 ∨ r = 11 ∨ r = 12 ∨ r = 13 ∨ r = 32 ∨ r = 0x85 ∨ r = 0xA0
  else
    r = 0x1680 ∨ (0x2000 ≤ r ∧ r ≤ 0x200A) ∨ r = 0x2028 ∨ r = 0x2029 ∨
      r = 0x202F ∨ r = 0x205F ∨ r = 0x3000

/-- The UTF-8 encodings of the runes for which `unicode.IsSpace` holds. -/
def spaceEncodings : List GoString :=
  [[9], [10], [11], [12], [13], [32], [0xC2, 0x85], [0xC2, 0xA0], [0xE1, 0x9A, 0x80],
   [0xE2, 0x80, 0x80], [0xE2, 0x80, 0x81], [0xE2, 0x80, 0x82], [0xE2, 0x80, 0x83],
   [0xE2, 0x80, 0x84], [0xE2, 0x80, 0x85], [0xE2, 0x80, 0x86], [0xE2, 0x80, 0x87],
   [0xE2, 0x80, 0x88], [0xE2, 0x80, 0x89], [0xE2, 0x80, 0x8A], [0xE2, 0x80, 0xA8],
   [0xE2, 0x80, 0xA9], [0xE2, 0x80, 0xAF], [0xE2, 0x81, 0x9F], [0xE3, 0x80, 0x80]]

/-- The ASCII white space bytes: tab, LF, VT, FF, CR and space. -/
def asciiSpace (b : Nat) : Prop := b = 9 ∨ b = 10 ∨ b = 11 ∨ b = 12 ∨ b = 13 ∨ b = 32

/-- The string contains no white space: none of the encodings of a white space
rune occurs in it. -/
def noWhitespace (s : GoString) : Prop := ∀ w ∈ spaceEncodings, ¬ w <:+: s

/-- The shape of a decoded rune: what `DecodeRuneInString` returns on `s0 :: t`. -/
inductive DecodeShape : Nat → List Nat → Nat × Nat → Prop where
  | ascii (s0 t) : s0 < 0x80 → DecodeShape s0 t (s0, 1)
  | invalid (s0 t) : 0x80 ≤ s0 → DecodeShape s0 t (RuneError, 1)
  | two (s0 s1 t) : 0xC2 ≤ s0 → s0 < 0xE0 → 0x80 ≤ s1 → s1 ≤ 0xBF →
      DecodeShape s0 (s1 :: t) ((s0 % 32) * 64 + s1 % 64, 2)
  | three (s0 s1 s2 t) : 0xE0 ≤ s0 → s0 < 0xF0 → acceptLo s0 ≤ s1 → s1 ≤ acceptHi s0 →
      0x80 ≤ s2 → s2 ≤ 0xBF →
      DecodeShape s0 (s1 :: s2 :: t) ((s0 % 16) * 4096 + (s1 % 64) * 64 + s2 % 64, 3)
  | four (s0 s1 s2 s3 t) : 0xF0 ≤ s0 → s0 < 0xF5 → acceptLo s0 ≤ s1 → s1 ≤ acceptHi s0 →
      0x80 ≤ s2 → s2 ≤ 0xBF → 0x80 ≤ s3 → s3 ≤ 0xBF →
      DecodeShape s0 (s1 :: s2 :: s3 :: t)
        ((s0 % 8) * 262144 + (s1 % 64) * 4096 + (s2 % 64) * 64 + s3 % 64, 4)

/-- Go `strings.TrimLeftFunc(s, f)`: `s` without its leading runes satisfying
`f` (the empty string when every rune satisfies `f`).  The fuel is the number
of runes that may be skipped; `len(s)` is always enough. -/
def TrimLeftFuncAux (f : Nat → Bool) : Nat → GoString → GoString
  | 0, _ => []
  | fuel + 1, s =>
    if s = [] then []
    else if f (DecodeRuneInString s).1 then
      TrimLeftFuncAux f fuel (s.drop (DecodeRuneInString s).2)
    else s

def TrimLeftFunc (s : GoString) (f : Nat → Bool) : GoString :=
  TrimLeftFuncAux f s.length s

/-- Go `strings.lastIndexFunc(s, f, false)` entered with the loop variable `i`:
the start of the last rune of `s[0:i]` that does not satisfy `f`, or `-1`. -/
def lastIndexFunc (f : Nat → Bool) (s : GoString) : Nat → Nat → Int
  | 0, _ => -1
  | fuel + 1, i =>
    if 0 < i then
      let d := DecodeLastRuneInString (s.take i)
      if f d.1 = false then ((i - d.2 : Nat) : Int)
      else lastIndexFunc f s fuel (i - d.2)
    else -1

/-- Go `strings.TrimRightFunc(s, f)`. -/
def TrimRightFunc (s : GoString) (f : Nat → Bool) : GoString :=
  let i := lastIndexFunc f s s.length s.length
  if 0 ≤ i ∧ 0x80 ≤ s.getD i.toNat 0 then
    s.take (i.toNat + (DecodeRuneInString (s.drop i.toNat)).2)
  else s.take (i + 1).toNat

/-- Go `strings.TrimSpace(s)`, which is `TrimFunc(s, unicode.IsSpace)`. -/
def TrimSpace (s : GoString) : GoString :=
  TrimRightFunc (TrimLeftFunc s IsSpace) IsSpace

/-- Go `strings.Trim(s, cutset)` for a cutset of the single ASCII byte `c`:
leading and trailing bytes equal to `c` are removed. -/
def TrimByte (s : GoString) (c : Nat) : GoString :=
  (s.rdropWhile (fun b => b = c)).dropWhile (fun b => b = c)

/-- A Go slice expression `s[lo:hi]` on a string; `none` is the run-time panic
for `lo > hi` or `hi > len(s)`. -/
def slice (s : GoString) (lo hi : Nat) : Option GoString :=
  if lo ≤ hi ∧ hi ≤ s.length then some ((s.take hi).drop lo) else none

/-! ## `splitBuff` -/

/-- The inner loop of `splitBuff`:
`for ; i < len(cmd); i++ { if cmd[i] == bcomma { break } }`; the result is the
final value of `i`. -/
def scanComma (cmd : GoString) : Nat → Nat → Nat
  | 0, i => i
  | fuel + 1, i =>
    if i < cmd.length then
      if cmd.getD i 0 = bcomma then i else scanComma cmd fuel (i + 1)
    else i

/-- The outer loop of `splitBuff` together with the code after it, on the
variables `i`, `start`, `end`, `inspace`, `argv`.  Every iteration advances
`i`, so `len(cmd) + 1` units of fuel reach the loop exit; `none` is a panic of
a slice expression (or exhausted fuel). -/
def splitLoop (cmd : GoString) :
    Nat → Nat → Nat → Nat → Bool → List GoString → Option (List GoString)
  | 0, _, _, _, _, _ => none
  | fuel + 1, i, start, end_, inspace, argv =>
    if i < cmd.length then
      if cmd.getD i 0 = bspace then
        if inspace then
          if start ≠ i then
            match slice cmd start i with
            | none => none
            | some tok => splitLoop cmd fuel (i + 1) (i + 1) i true (argv ++ [tok])
          else splitLoop cmd fuel (i + 1) (i + 1) i true argv
        else splitLoop cmd fuel (i + 1) (i + 1) end_ true argv
      else if cmd.getD i 0 = bcomma then
        let j := scanComma cmd cmd.length (i + 1)
        if j > i + 1 then
          match slice cmd (i + 1) j with
          | none => none
          | some tok => splitLoop cmd fuel (j + 1) (i + 1) j false (argv ++ [tok])
        else splitLoop cmd fuel (j + 1) (i + 1) j false argv
      else splitLoop cmd fuel (i + 1) start end_ inspace argv
    else if inspace then
      match slice cmd start cmd.length with
      | none => none
      | some tok => some (argv ++ [tok])
    else some argv

/-- The line of `splitBuff` after
`strings.Trim(strings.Trim(strings.TrimSpace(cmd), "\r"), "\n")`. -/
def trimLine (cmd : GoString) : GoString :=
  TrimByte (TrimByte (TrimSpace cmd) CR) LF

/-- Go `splitBuff`: the token list of a line, `none` if it panics. -/
def splitBuff (cmd : GoString) : Option (List GoString) :=
  splitLoop (trimLine cmd) ((trimLine cmd).length + 1) 0 0 0 true []

/-- The maximal runs of non-space bytes of a line, in order of appearance. -/
def nonSpaceRuns (l : GoString) : List GoString :=
  (l.splitOn bspace).filter (fun t => t ≠ [])

/-- Bytes of a Lean string literal, used to write the string constants. -/
def bytes (s : String) : GoString := s.toList.map Char.toNat

/-- Go `fmt.Sprintf("%d", n)` for a non-negative `n`: the decimal digits. -/
def decimalNat (n : Nat) : GoString := (Nat.toDigits 10 n).map Char.toNat

/-- Go `fmt.Sprintf("%d", n)` for an `int`. -/
def decimal (n : Int) : GoString :=
  if n < 0 then 45 :: decimalNat (-n).toNat else decimalNat n.toNat

/-- Go `string(ch)` for a byte `ch`: the conversion of an integer to a string
yields the UTF-8 encoding of the code point `ch`, which is one byte below 128
and the two bytes `110000xx 10xxxxxx` from 128 to 255. -/
def stringOfByte (ch : Nat) : GoString :=
  if ch < 0x80 then [ch] else [0xC0 + ch / 64, 0x80 + ch % 64]

/-! ## The history ring -/

/-- Go `cmdHistory`: the array `cmds [MaxHistroyCmds]string`, the write index
and the browse cursor. -/
structure cmdHistory where
  cmds : Fin 200 → GoString
  index : Int
  cusor : Int

/-- The zero value `cmdHistory{}` of the global `history`. -/
def cmdHistory.init : cmdHistory := { cmds := fun _ => [], index := 0, cusor := 0 }

/-- The array read `history.cmds[i]`; `none` is the index-out-of-range panic. -/
def cmdHistory.read (h : cmdHistory) (i : Int) : Option GoString :=
  if hb : 0 ≤ i ∧ i < 200 then some (h.cmds ⟨i.toNat, by omega⟩) else none

/-- The statements `history.cmds[history.index] = cmd`, `history.index++` and
`history.cusor = history.index` of `setHistoryCmd`, with `history.index` equal
to `index`; `none` is the index-out-of-range panic. -/
def cmdHistory.store (h : cmdHistory) (index : Int) (cmd : GoString) : Option cmdHistory :=
  if hb : 0 ≤ index ∧ index < 200 then
    some { cmds := Function.update h.cmds ⟨index.toNat, by omega⟩ cmd
           index := index + 1
           cusor := index + 1 }
  else none

/-- Go `setHistoryCmd`. -/
def setHistoryCmd (h : cmdHistory) (cmd : GoString) : Option cmdHistory :=
  if TrimSpace cmd = [] then some h
  else h.store (if h.index ≥ (MaxHistroyCmds : Int) then 0 else h.index) cmd

/-- Go `getHistoryCmd`: the string returned and the history afterwards. -/
def getHistoryCmd (h : cmdHistory) (key : Nat) : Option (GoString × cmdHistory) :=
  if key = TELKEY_UP then
    let c := h.cusor - 1
    let c := if c < 0 then (if h.index > 0 then h.index - 1 else 0) else c
    (h.read c).map fun s => (s, { h with cusor := c })
  else if key = TELKEY_DOWN then
    let c := h.cusor + 1
    let c := if h.index > 0 then (if c ≥ h.index then 0 else c) else 0
    (h.read c).map fun s => (s, { h with cusor := c })
  else some ([], h)

/-- The statement `history.cusor = history.index` at the end of `parseInput`. -/
def resetCusor (h : cmdHistory) : cmdHistory := { h with cusor := h.index }

/-- An operation on the global history. -/
inductive HistOp where
  | set (cmd : GoString)
  | get (key : Nat)
  | reset

/-- The effect of one operation on the history. -/
def HistOp.apply (h : cmdHistory) : HistOp → Option cmdHistory
  | .set cmd => setHistoryCmd h cmd
  | .get key => (getHistoryCmd h key).map Prod.snd
  | .reset => some (resetCusor h)

/-- The history after a sequence of operations, `none` if one of them panics. -/
def runOps (h : cmdHistory) : List HistOp → Option cmdHistory
  | [] => some h
  | op :: ops => (op.apply h).bind fun h1 => runOps h1 ops

/-- The history states reachable from the initial state. -/
def Reachable (h : cmdHistory) : Prop := ∃ ops, runOps cmdHistory.init ops = some h

/-- The history after pushing the lines in order with `setHistoryCmd`. -/
def pushAll (h : cmdHistory) : List GoString → Option cmdHistory
  | [] => some h
  | l :: ls => (setHistoryCmd h l).bind fun h1 => pushAll h1 ls

/-- The string returned by the last of `m + 1` consecutive
`getHistoryCmd(TELKEY_UP)` calls. -/
def recallUp (h : cmdHistory) : Nat → Option GoString
  | 0 => (getHistoryCmd h TELKEY_UP).map Prod.fst
  | m + 1 => (getHistoryCmd h TELKEY_UP).bind fun p => recallUp p.2 m

/-! ## `parseInput`

The connection is the list of bytes still to be received, the list of bytes
written so far, and the pattern of short reads.  A `Read` into a slice of one
byte takes the next byte of the stream and fails on an exhausted stream,
leaving the buffer unchanged.  A `Read` into a slice of two bytes may return
after the first of them (`Read` returns what has arrived, `n ≤ len(b)`): the
list `short` tells, for each such `Read` still to come, whether it returns
early; once the list is exhausted every `Read` fills its slice (or takes what
is left of the stream). -/

/-- The variables of `parseInput`, the global history and the connection. -/
structure ParseState where
  cmd : GoString
  repeatFlag : Bool
  buflen : Nat
  buf : Nat → Nat
  history : cmdHistory
  out : List Nat
  input : List Nat
  short : List Bool

/-- Go `backspace(conn, n)`: the bytes it writes. -/
def backspace (n : Nat) : List Nat :=
  let bck := [TELANSI_ESC, 91] ++ decimalNat n ++ [TELKEY_LEFT]
  bck ++ List.replicate n 32 ++ bck

/-- `conn.Read(buf[lo:lo+1])` with its result ignored: one byte is stored at
`buf[lo]` unless the stream is exhausted. -/
def readInto (st : ParseState) (lo : Nat) : ParseState :=
  match st.input with
  | [] => st
  | b :: rest => { st with buf := Function.update st.buf lo b, input := rest }

/-- `conn.Read(buf[lo:lo+2])` with its results ignored: the first byte is read
as by `readInto`; the second one is read as well unless this `Read` is a short
one. -/
def readTwo (st : ParseState) (lo : Nat) : ParseState :=
  let st1 := { readInto st lo with short := st.short.tail }
  if st.short.headD false = true then st1 else readInto st1 (lo + 1)

/-- What one iteration of the read loop of `parseInput` leads to. -/
inductive Step where
  | next (st : ParseState)
  | out (st : ParseState)
  | readErr (st : ParseState)
  | panic

/-- The body of `case TELANSI_ESC:` in `parseInput`, entered after the escape
byte has been read, for a scratch buffer of `cap` bytes. -/
def escCaseCap (cap : Nat) (st : ParseState) : Step :=
  let st := { st with buflen := st.buflen + 1 }
  if st.buflen + 1 > cap then .panic else
  let st := readInto st st.buflen
  let ch2 := st.buf st.buflen
  let st := { st with buflen := st.buflen + 1 }
  if ch2 ≠ TELKEYBOARD then .next st else
  if st.buflen + 1 > cap then .panic else
  let st := readInto st st.buflen
  let ch2 := st.buf st.buflen
  let st := { st with buflen := st.buflen + 1 }
  if ch2 = TELKEY_UP ∨ ch2 = TELKEY_DOWN then
    match getHistoryCmd st.history ch2 with
    | none => .panic
    | some (ccmd, h) =>
      let o := if st.cmd.length > 0 then backspace st.cmd.length else []
      .next { st with history := h, repeatFlag := true, cmd := ccmd,
                      out := st.out ++ o ++ ccmd, buflen := st.buflen + 1 }
  else .next st

/-- One iteration of `for buflen < 1000 { ... }`, entered with the loop
condition true, for a scratch buffer of `cap` bytes: every slice of `buf` is
checked against `cap`. -/
def parseStepCap (cap : Nat) (st : ParseState) : Step :=
  match st.input with
  | [] => .readErr st
  | _ :: _ =>
    if st.buflen + 1 > cap then .panic else
    let st := readInto st st.buflen
    let ch := st.buf st.buflen
    if ch = TELCODE_IAC then
      if st.buflen + 3 > cap then .panic else
      let st := readTwo st (st.buflen + 1)
      .next { st with buflen := 0, cmd := [] }
    else if ch = 0 then .next { st with buflen := st.buflen + 1 }
    else if ch = TELANSI_ESC then escCaseCap cap st
    else if ch = CR ∨ ch = LF then .out { st with out := st.out ++ [13, 10] }
    else if ch = TELCODE_BACKSPACE then
      if st.cmd.length > 0 then
        .next { st with out := st.out ++ backspace 1, cmd := st.cmd.take (st.cmd.length - 1),
                        buflen := if st.buflen > 0 then st.buflen - 1 else st.buflen,
                        repeatFlag := false }
      else .next { st with repeatFlag := false }
    else if ch = TELCODE_TAB then .next { st with buflen := st.buflen + 1 }
    else
      .next { st with cmd := st.cmd ++ stringOfByte ch, repeatFlag := false,
                      out := st.out ++ [ch], buflen := st.buflen + 1 }

/-- The escape case with the buffer of `parseInput`, `make([]byte, 1024)`. -/
def escCase (st : ParseState) : Step := escCaseCap 1024 st

/-- One iteration of the read loop of `parseInput`, with its buffer of 1024
bytes. -/
def parseStep (st : ParseState) : Step := parseStepCap 1024 st

/-- What `parseInput` returns and leaves behind: the line, whether `err` is
non-nil, the history, the bytes written and the bytes not yet read. -/
structure ParseResult where
  cmd : GoString
  err : Bool
  history : cmdHistory
  out : List Nat
  input : List Nat

/-- The code of `parseInput` from the label `out`. -/
def parseOut (st : ParseState) : Option ParseResult :=
  if st.repeatFlag = false then
    (setHistoryCmd st.history st.cmd).map fun h =>
      { cmd := st.cmd, err := false, history := h, out := st.out, input := st.input }
  else
    some { cmd := st.cmd, err := false, history := resetCusor st.history,
           out := st.out, input := st.input }

/-- The read loop of `parseInput` followed by the code at `out`.  Every
iteration that does not return consumes a byte, so `len(input) + 1` units of
fuel are enough; `none` is a panic (or exhausted fuel). -/
def parseLoop : Nat → ParseState → Option ParseResult
  | 0, _ => none
  | fuel + 1, st =>
    if st.buflen < 1000 then
      match parseStep st with
      | .next st1 => parseLoop fuel st1
      | .out st1 => parseOut st1
      | .readErr st1 =>
        some { cmd := st1.cmd, err := true, history := st1.history,
               out := st1.out, input := st1.input }
      | .panic => none
    else parseOut st

/-- The state of `parseInput` at its first loop test. -/
def parseInit (h : cmdHistory) (input : List Nat) (short : List Bool) : ParseState :=
  { cmd := [], repeatFlag := false, buflen := 0, buf := fun _ => 0,
    history := h, out := [], input := input, short := short }

/-- Go `parseInput` on a connection that will deliver `input` with the short
reads `short`, with the global history `h`. -/
def parseInput (h : cmdHistory) (input : List Nat) (short : List Bool) :
    Option ParseResult :=
  parseLoop (input.length + 1) (parseInit h input short)

/-- The states at the head of the read loop of `parseInput`. -/
inductive LoopState (h : cmdHistory) (input : List Nat) (short : List Bool) :
    ParseState → Prop where
  | init : LoopState h input short (parseInit h input short)
  | step (st st1 : ParseState) : LoopState h input short st → st.buflen < 1000 →
      parseStep st = .next st1 → LoopState h input short st1

/-! ## The dispatcher -/

/-- Go `TermFunc`: a handler maps the argument list to its text and its error
(`none` for `nil`).  Handlers are taken to be functions of their arguments that
do not touch the console state. -/
abbrev TermFunc := List GoString → GoString × Option GoString

/-- Go `ConsoleCmd`. -/
structure ConsoleCmd where
  maxParams : Int
  minParams : Int
  repeatable : Bool
  fn : TermFunc

/-- The globals `termHandler`, `lastCmd` and `lastArgv`. -/
structure TermState where
  termHandler : GoString → Option ConsoleCmd
  lastCmd : Option ConsoleCmd
  lastArgv : List GoString

/-- Go `RegisterTermCmd`. -/
def RegisterTermCmd (st : TermState) (cmd : GoString) (maxParams minParams : Int)
    (rpt : Bool) (fn : TermFunc) : TermState :=
  { st with
    termHandler := Function.update st.termHandler cmd
      (some { maxParams := maxParams, minParams := minParams, repeatable := rpt, fn := fn }) }

/-- The connection seen by `handleTermCmd`: the bytes written to it and
whether it has been closed. -/
structure Conn where
  written : List Nat
  closed : Bool

/-- `c.Write(b)` with its result ignored; nothing is written once closed. -/
def Conn.Write (c : Conn) (b : List Nat) : Conn :=
  if c.closed then c else { c with written := c.written ++ b }

/-- `c.Close()`. -/
def Conn.Close (c : Conn) : Conn := { c with closed := true }

def strExit : GoString := [101, 120, 105, 116]
def strQuit : GoString := [113, 117, 105, 116]
def strBye : GoString := [98, 121, 101]

/-- The text `"Not found term command %s\r\n"`. -/
def notFoundMsg (name : GoString) : GoString :=
  bytes "Not found term command " ++ name ++ [13, 10]

/-- The text `"Params of command %s should be %d - %d\r\n"`. -/
def paramsMsg (name : GoString) (minParams maxParams : Int) : GoString :=
  bytes "Params of command " ++ name ++ bytes " should be " ++ decimal minParams ++
    bytes " - " ++ decimal maxParams ++ [13, 10]

/-- What a call of `handleTermCmd` leaves behind: the globals, the connection,
the handler invocations it made (handler and argument list, in order) and the
error it returns. -/
structure HandleResult where
  st : TermState
  conn : Conn
  calls : List (TermFunc × List GoString)
  err : Option GoString

/-- Go `handleTermCmd`; `none` if `splitBuff` panics. -/
def handleTermCmd (st : TermState) (c : Conn) (cmd : GoString) : Option HandleResult :=
  match splitBuff cmd with
  | none => none
  | some [] => some { st := st, conn := c, calls := [], err := none }
  | some (a0 :: rest) =>
    let argv := a0 :: rest
    if a0 = [] then
      match st.lastCmd with
      | some lc =>
        let r := lc.fn st.lastArgv
        some { st := st, conn := (c.Write r.1).Write [13, 10],
               calls := [(lc.fn, st.lastArgv)], err := r.2 }
      | none => some { st := st, conn := c, calls := [], err := none }
    else if a0 = strExit ∨ a0 = strQuit ∨ a0 = strBye then
      some { st := st, conn := c.Close, calls := [], err := none }
    else
      match st.termHandler a0 with
      | none => some { st := st, conn := c.Write (notFoundMsg a0), calls := [], err := none }
      | some console =>
        if (argv.length : Int) < console.minParams ∨ (argv.length : Int) > console.maxParams then
          some { st := st, conn := c.Write (paramsMsg a0 console.minParams console.maxParams),
                 calls := [], err := none }
        else
          let st1 : TermState :=
            if console.repeatable then { st with lastCmd := some console, lastArgv := argv }
            else { st with lastCmd := none }
          let r := console.fn argv
          some { st := st1, conn := (c.Write r.1).Write [13, 10],
                 calls := [(console.fn, argv)], err := r.2 }

/-! ## Auxiliary definitions

Predicates, sample data and an automaton view of `splitBuff` used to state and
prove the theorems below. -/

/-- The three situations of the scan of `splitBuff`: collecting an unquoted
token (`inspace` true, with the bytes `cmd[start:i]` read since `start`),
skipping after a quoted span (`inspace` false), and inside a quoted span (with
the bytes read since the opening quote). -/
inductive Mode where
  | word (cur : GoString)
  | skip
  | quoted (q : GoString)

/-- The scan of `splitBuff` as an automaton reading one byte at a time: the
tokens appended from the given situation on the remaining bytes. -/
def lex : Mode → GoString → List GoString
  | .word cur, [] => [cur]
  | .skip, [] => []
  | .quoted q, [] => if q ≠ [] then [q] else []
  | .word cur, b :: rest =>
    if b = bspace then
      if cur ≠ [] then cur :: lex (.word []) rest else lex (.word []) rest
    else if b = bcomma then lex (.quoted []) rest
    else lex (.word (cur ++ [b])) rest
  | .skip, b :: rest =>
    if b = bspace then lex (.word []) rest
    else if b = bcomma then lex (.quoted []) rest
    else lex .skip rest
  | .quoted q, b :: rest =>
    if b = bcomma then
      if q ≠ [] then q :: lex .skip rest else lex .skip rest
    else lex (.quoted (q ++ [b])) rest

/-- The situation of the outer loop of `splitBuff` at index `i`. -/
def modeAt (cmd : GoString) (i start : Nat) (inspace : Bool) : Mode :=
  if inspace then .word ((cmd.take i).drop start) else .skip

/-- A handler that answers `ok`. -/
def okHandler : TermFunc := fun _ => ([111, 107], none)

/-- The globals before any registration. -/
def emptyState : TermState := { termHandler := fun _ => none, lastCmd := none, lastArgv := [] }

/-- The globals after `RegisterTermCmd("foo", 3, 1, true, okHandler)`. -/
def fooState : TermState := RegisterTermCmd emptyState [102, 111, 111] 3 1 true okHandler

/-- The globals after `foo 1` has been dispatched in `fooState`. -/
def fooReplayState : TermState :=
  { fooState with
    lastCmd := some { maxParams := 3, minParams := 1, repeatable := true, fn := okHandler }
    lastArgv := [[102, 111, 111], [49]] }

/-- An open connection to which nothing has been written. -/
def freshConn : Conn := { written := [], closed := false }

/-- The invariant of the history: `0 ≤ cusor ≤ index ≤ MaxHistroyCmds`. -/
def HistInv (h : cmdHistory) : Prop := 0 ≤ h.cusor ∧ h.cusor ≤ h.index ∧ h.index ≤ 200

/-- The write index after `k` accepted lines: `((k - 1) mod 200) + 1`, and 0
before the first one. -/
def ringIndex (k : Nat) : Nat := if k = 0 then 0 else (k - 1) % 200 + 1

/-- The lines `1`, `2`, ..., `205` in decimal. -/
def sampleLines : List GoString := (List.range 205).map fun i => decimalNat (i + 1)

/-- An ordinary byte: none of 0, 8, 9, 10, 13, 27, 255. -/
def ordinary (b : Nat) : Prop := b ≠ 0 ∧ b ≠ 8 ∧ b ≠ 9 ∧ b ≠ 10 ∧ b ≠ 13 ∧ b ≠ 27 ∧ b ≠ 255

/-- The bytes appended to the line when the bytes `p` are typed. -/
def typed : List Nat → GoString
  | [] => []
  | b :: t => stringOfByte b ++ typed t

/-- The invariant of the read loop while no byte of 128 or more is appended:
the line is at most `buflen` bytes (capped at 1000) longer than the longest
history entry. -/
def lineInv (H : Nat) (hc : Fin 200 → GoString) (st : ParseState) : Prop :=
  st.cmd.length ≤ H + min st.buflen 1000 ∧ HistInv st.history ∧ st.history.cmds = hc

/-- What the invariant gives after one iteration of the read loop. -/
def stepOk (H : Nat) (hc : Fin 200 → GoString) (st : ParseState) : Step → Prop
  | .next st1 => lineInv H hc st1 ∧ st1.input.length < st.input.length
  | .out st1 => st1.cmd = st.cmd ∧ st1.history = st.history
  | .readErr st1 => st1.cmd = st.cmd
  | .panic => False

/-- The input of `n` times the byte 200 followed by a backspace. -/
def highBackspace : Nat → List Nat
  | 0 => []
  | n + 1 => 200 :: 8 :: highBackspace n

/-- What one iteration of the read loop entered at `st` guarantees: it does not
panic, it leaves the slots and the write index of the history alone, it
consumes input unless it returns, and it advances `buflen` by at most 4. -/
def stepSafe (st : ParseState) : Step → Prop
  | .next st1 => HistInv st1.history ∧ st1.history.cmds = st.history.cmds ∧
      st1.history.index = st.history.index ∧ st1.input.length < st.input.length ∧
      st1.buflen ≤ st.buflen + 4
  | .out st1 => st1.history = st.history ∧ st1.cmd = st.cmd ∧
      st1.repeatFlag = st.repeatFlag ∧ st1.input.length < st.input.length
  | .readErr st1 => st1 = st
  | .panic => False

/-- The bytes written by `n` backspaces on a non-empty line: `n` times
ESC `[` `1` `D`, a space, ESC `[` `1` `D`. -/
def erased : Nat → List Nat
  | 0 => []
  | n + 1 => [27, 91, 49, 68, 32, 27, 91, 49, 68] ++ erased n

/-- The history after the line `a` has been stored in the initial history. -/
def historyA : cmdHistory :=
  { cmds := Function.update cmdHistory.init.cmds ⟨0, by decide⟩ [97], index := 1, cusor := 1 }

/-- The string does not end in white space: no encoding of a white space rune
is a suffix of it. -/
def noTrailingSpace (s : GoString) : Prop := ∀ w ∈ spaceEncodings, ¬ w <:+ s

/-- The globals after `RegisterTermCmd("exit", 3, 1, true, okHandler)`. -/
def exitState : TermState := RegisterTermCmd emptyState strExit 3 1 true okHandler

/-! ## Theorems -/

theorem isSpace_iff (r : Nat) : IsSpace r = true ↔
    (r = 9 ∨ r = 10 ∨ r = 11 ∨ r = 12 ∨ r = 13 ∨ r = 32 ∨ r = 0x85 ∨ r = 0xA0 ∨
      r = 0x1680 ∨ (0x2000 ≤ r ∧ r ≤ 0x200A) ∨ r = 0x2028 ∨ r = 0x2029 ∨
      r = 0x202F ∨ r = 0x205F ∨ r = 0x3000) := by
  unfold IsSpace
  split_ifs with h
  · simp only [decide_eq_true_eq]; omega
  · simp only [decide_eq_true_eq]; omega

theorem decode_shape (s0 : Nat) (t : List Nat) :
    DecodeShape s0 t (DecodeRuneInString (s0 :: t)) := by
  unfold DecodeRuneInString
  simp only []
  by_cases h1 : s0 < 0x80
  · rw [if_pos h1]; exact .ascii s0 t h1
  rw [if_neg h1]
  by_cases h2 : s0 < 0xC2 ∨ 0xF5 ≤ s0
  · rw [if_pos h2]; exact .invalid s0 t (by omega)
  rw [if_neg h2]
  by_cases h3 : (s0 :: t).length < firstSize s0
  · rw [if_pos h3]; exact .invalid s0 t (by omega)
  rw [if_neg h3]
  match t with
  | [] => exact .invalid s0 _ (by omega)
  | s1 :: t1 =>
    simp only []
    by_cases h4 : s1 < acceptLo s0 ∨ acceptHi s0 < s1
    · rw [if_pos h4]; exact .invalid s0 _ (by omega)
    rw [if_neg h4]
    have hlo : 0x80 ≤ acceptLo s0 := by unfold acceptLo; split_ifs <;> omega
    have hhi : acceptHi s0 ≤ 0xBF := by unfold acceptHi; split_ifs <;> omega
    by_cases h5 : firstSize s0 ≤ 2
    · rw [if_pos h5]
      have : s0 < 0xE0 := by unfold firstSize at h5; split_ifs at h5 <;> omega
      exact .two s0 s1 t1 (by omega) this (by omega) (by omega)
    rw [if_neg h5]
    have h6 : 0xE0 ≤ s0 := by unfold firstSize at h5; split_ifs at h5 <;> omega
    match t1 with
    | [] => exact .invalid s0 _ (by omega)
    | s2 :: t2 =>
      simp only []
      by_cases h7 : s2 < 0x80 ∨ 0xBF < s2
      · rw [if_pos h7]; exact .invalid s0 _ (by omega)
      rw [if_neg h7]
      by_cases h8 : firstSize s0 ≤ 3
      · rw [if_pos h8]
        have : s0 < 0xF0 := by unfold firstSize at h8; split_ifs at h8 <;> omega
        exact .three s0 s1 s2 t2 h6 this (by omega) (by omega) (by omega) (by omega)
      rw [if_neg h8]
      have h9 : 0xF0 ≤ s0 := by unfold firstSize at h8; split_ifs at h8 <;> omega
      match t2 with
      | [] => exact .invalid s0 _ (by omega)
      | s3 :: t3 =>
        simp only []
        by_cases h10 : s3 < 0x80 ∨ 0xBF < s3
        · rw [if_pos h10]; exact .invalid s0 _ (by omega)
        rw [if_neg h10]
        exact .four s0 s1 s2 s3 t3 h9 (by omega) (by omega) (by omega) (by omega) (by omega)
          (by omega) (by omega)

theorem space_two (s0 s1 : Nat) (h1 : 0xC2 ≤ s0) (h2 : s0 < 0xE0) (h3 : 0x80 ≤ s1)
    (h4 : s1 ≤ 0xBF) (h : IsSpace ((s0 % 32) * 64 + s1 % 64) = true) :
    [s0, s1] ∈ spaceEncodings := by
  obtain ⟨a, rfl⟩ : ∃ a, s0 = 0xC0 + a := ⟨s0 - 0xC0, by omega⟩
  obtain ⟨b, rfl⟩ : ∃ b, s1 = 0x80 + b := ⟨s1 - 0x80, by omega⟩
  have e1 : (0xC0 + a) % 32 = a := by omega
  have e2 : (0x80 + b) % 64 = b := by omega
  rw [e1, e2, isSpace_iff] at h
  have : a = 2 ∧ (b = 5 ∨ b = 32) := by omega
  obtain ⟨rfl, rfl | rfl⟩ := this <;> simp [spaceEncodings]

theorem space_three (s0 s1 s2 : Nat) (h1 : 0xE0 ≤ s0) (h2 : s0 < 0xF0)
    (h3 : acceptLo s0 ≤ s1) (h4 : s1 ≤ acceptHi s0) (h5 : 0x80 ≤ s2) (h6 : s2 ≤ 0xBF)
    (h : IsSpace ((s0 % 16) * 4096 + (s1 % 64) * 64 + s2 % 64) = true) :
    [s0, s1, s2] ∈ spaceEncodings := by
  have h3' : 0x80 ≤ s1 ∧ (s0 = 0xE0 → 0xA0 ≤ s1) := by
    unfold acceptLo at h3; split_ifs at h3 <;> omega
  have h4' : s1 ≤ 0xBF := by
    unfold acceptHi at h4; split_ifs at h4 <;> omega
  clear h3 h4
  obtain ⟨h3, h3e⟩ := h3'
  obtain ⟨a, rfl⟩ : ∃ a, s0 = 0xE0 + a := ⟨s0 - 0xE0, by omega⟩
  obtain ⟨b, rfl⟩ : ∃ b, s1 = 0x80 + b := ⟨s1 - 0x80, by omega⟩
  obtain ⟨c, rfl⟩ : ∃ c, s2 = 0x80 + c := ⟨s2 - 0x80, by omega⟩
  have e1 : (0xE0 + a) % 16 = a := by omega
  have e2 : (0x80 + b) % 64 = b := by omega
  have e3 : (0x80 + c) % 64 = c := by omega
  rw [e1, e2, e3, isSpace_iff] at h
  have hb : b < 64 := by omega
  have hc : c < 64 := by omega
  have ha : a < 16 := by omega
  have h0 : a = 0 → 32 ≤ b := by omega
  clear h1 h2 h3 h4' h5 h6 e1 e2 e3 h3e
  rcases h with h | h | h | h | h | h | h | h | h | h | h | h | h | h | h
  · omega
  · omega
  · omega
  · omega
  · omega
  · omega
  · omega
  · omega
  · obtain ⟨rfl, rfl, rfl⟩ : a = 1 ∧ b = 26 ∧ c = 0 := by omega
    simp [spaceEncodings]
  · obtain ⟨rfl, rfl, h⟩ : a = 2 ∧ b = 0 ∧ c ≤ 10 := by omega
    interval_cases c <;> simp [spaceEncodings]
  · obtain ⟨rfl, rfl, rfl⟩ : a = 2 ∧ b = 0 ∧ c = 40 := by omega
    simp [spaceEncodings]
  · obtain ⟨rfl, rfl, rfl⟩ : a = 2 ∧ b = 0 ∧ c = 41 := by omega
    simp [spaceEncodings]
  · obtain ⟨rfl, rfl, rfl⟩ : a = 2 ∧ b = 0 ∧ c = 47 := by omega
    simp [spaceEncodings]
  · obtain ⟨rfl, rfl, rfl⟩ : a = 2 ∧ b = 1 ∧ c = 31 := by omega
    simp [spaceEncodings]
  · obtain ⟨rfl, rfl, rfl⟩ : a = 3 ∧ b = 0 ∧ c = 0 := by omega
    simp [spaceEncodings]

theorem space_four (s0 s1 s2 s3 : Nat) (h1 : 0xF0 ≤ s0) (h2 : s0 < 0xF5)
    (h3 : acceptLo s0 ≤ s1) (h4 : s1 ≤ acceptHi s0)
    (h : IsSpace ((s0 % 8) * 262144 + (s1 % 64) * 4096 + (s2 % 64) * 64 + s3 % 64) = true) :
    False := by
  have h3' : 0x80 ≤ s1 ∧ (s0 = 0xF0 → 0x90 ≤ s1) := by
    unfold acceptLo at h3; split_ifs at h3 <;> omega
  have h4' : s1 ≤ 0xBF := by
    unfold acceptHi at h4; split_ifs at h4 <;> omega
  have : 65536 ≤ (s0 % 8) * 262144 + (s1 % 64) * 4096 + (s2 % 64) * 64 + s3 % 64 := by omega
  generalize (s0 % 8) * 262144 + (s1 % 64) * 4096 + (s2 % 64) * 64 + s3 % 64 = r at this h
  rw [isSpace_iff] at h
  omega

theorem decode_space (s : GoString) (h : IsSpace (DecodeRuneInString s).1 = true) :
    s.take (DecodeRuneInString s).2 ∈ spaceEncodings := by
  match s with
  | [] => simp [DecodeRuneInString, IsSpace, RuneError] at h
  | s0 :: t =>
    have hs := decode_shape s0 t
    generalize DecodeRuneInString (s0 :: t) = d at hs h
    cases hs with
    | ascii _ h1 =>
      rw [isSpace_iff] at h
      simp only [] at h ⊢
      have : s0 = 9 ∨ s0 = 10 ∨ s0 = 11 ∨ s0 = 12 ∨ s0 = 13 ∨ s0 = 32 := by omega
      rcases this with h | h | h | h | h | h <;> subst h <;> simp [spaceEncodings]
    | invalid _ h1 => simp [RuneError, IsSpace] at h
    | two s1 t1 h1 h2 h3 h4 => simpa using space_two s0 s1 h1 h2 h3 h4 h
    | three s1 s2 t2 h1 h2 h3 h4 h5 h6 => simpa using space_three s0 s1 s2 h1 h2 h3 h4 h5 h6 h
    | four s1 s2 s3 t3 h1 h2 h3 h4 h5 h6 h7 h8 => exact (space_four s0 s1 s2 s3 h1 h2 h3 h4 h).elim

theorem decode_size (s0 : Nat) (t : List Nat) :
    1 ≤ (DecodeRuneInString (s0 :: t)).2 ∧ (DecodeRuneInString (s0 :: t)).2 ≤ (s0 :: t).length := by
  have hs := decode_shape s0 t
  generalize DecodeRuneInString (s0 :: t) = d at hs
  cases hs <;> simp

/-- Bytes after the first one inside a decoded rune are continuation bytes. -/
theorem decode_cont (s0 : Nat) (t : List Nat) (j : Nat) (h1 : 1 ≤ j)
    (h2 : j < (DecodeRuneInString (s0 :: t)).2) : 0x80 ≤ (s0 :: t).getD j 0 := by
  have hs := decode_shape s0 t
  generalize DecodeRuneInString (s0 :: t) = d at hs h2
  cases hs <;> simp only [] at h2
  · omega
  · omega
  · have : j = 1 := by omega
    subst this; simpa
  · have : j = 1 ∨ j = 2 := by omega
    have hlo : 0x80 ≤ acceptLo s0 := by unfold acceptLo; split_ifs <;> omega
    rcases this with h | h <;> subst h <;> simp <;> omega
  · have : j = 1 ∨ j = 2 ∨ j = 3 := by omega
    have hlo : 0x80 ≤ acceptLo s0 := by unfold acceptLo; split_ifs <;> omega
    rcases this with h | h | h <;> subst h <;> simp <;> omega

/-- A rune decoded with a width above one starts with a byte of at least `0x80`. -/
theorem decode_lead (s0 : Nat) (t : List Nat) (h : 2 ≤ (DecodeRuneInString (s0 :: t)).2) :
    0x80 ≤ s0 := by
  have hs := decode_shape s0 t
  generalize DecodeRuneInString (s0 :: t) = d at hs h
  cases hs <;> simp only [] at h <;> omega

theorem decode_ascii (s0 : Nat) (t : List Nat) (h : s0 < 0x80) :
    DecodeRuneInString (s0 :: t) = (s0, 1) := by
  simp [DecodeRuneInString, h]

theorem decode_single (b : Nat) : (DecodeRuneInString [b]).2 = 1 := by
  have hs := decode_shape b []
  generalize DecodeRuneInString [b] = d at hs
  cases hs <;> rfl

theorem lastRuneStart_le (s : GoString) (lim : Int) (fuel : Nat) (start : Int) :
    lastRuneStart s lim fuel start ≤ start := by
  induction fuel generalizing start with
  | zero => simp [lastRuneStart]
  | succ n ih =>
    unfold lastRuneStart
    split_ifs
    · exact le_refl _
    · have := ih (start - 1); omega
    · exact le_refl _

theorem drop_length_pred (s : GoString) (hs : s ≠ []) :
    s.drop (s.length - 1) = [s.getD (s.length - 1) 0] := by
  induction s with
  | nil => exact absurd rfl hs
  | cons a t ih =>
    cases t with
    | nil => simp
    | cons b u =>
      have := ih (by simp)
      simp only [List.length_cons, Nat.add_sub_cancel] at this ⊢
      simpa using this

theorem drop_eq_getD_cons (s : GoString) (i : Nat) (h : i < s.length) :
    s.drop i = s.getD i 0 :: s.drop (i + 1) := by
  rw [List.getD_eq_getElem _ _ h]
  exact List.drop_eq_getElem_cons h

/-- What `DecodeLastRuneInString` returns on a non-empty string: either the
last byte is ASCII and is the rune, or the rune starts at a byte of at least
`0x80` and the forward decoder finds the same width there. -/
theorem decodeLast_shape (s : GoString) (hs : s ≠ []) :
    1 ≤ (DecodeLastRuneInString s).2 ∧ (DecodeLastRuneInString s).2 ≤ s.length ∧
    ((s.getD (s.length - 1) 0 < 0x80 ∧
        DecodeLastRuneInString s = (s.getD (s.length - 1) 0, 1)) ∨
     (0x80 ≤ s.getD (s.length - (DecodeLastRuneInString s).2) 0 ∧
        (DecodeRuneInString (s.drop (s.length - (DecodeLastRuneInString s).2))).2 =
          (DecodeLastRuneInString s).2 ∧
        (DecodeLastRuneInString s = (RuneError, 1) ∨
          DecodeLastRuneInString s =
            DecodeRuneInString (s.drop (s.length - (DecodeLastRuneInString s).2))))) := by
  have hlen : 0 < s.length := List.length_pos.mpr hs
  unfold DecodeLastRuneInString
  simp only [List.take_length]
  rw [if_neg (by omega)]
  by_cases h1 : s.getD (s.length - 1) 0 < 0x80
  · rw [if_pos h1]
    exact ⟨le_refl _, hlen, Or.inl ⟨h1, rfl⟩⟩
  rw [if_neg h1]
  generalize hst0 : lastRuneStart s (if (s.length : Int) - 4 < 0 then 0 else (s.length : Int) - 4) 4
    ((s.length : Int) - 2) = start0
  have hle : start0 ≤ (s.length : Int) - 2 := hst0 ▸ lastRuneStart_le _ _ _ _
  generalize hst : (if start0 < 0 then 0 else start0.toNat) = start
  have hstart : start < s.length := by
    rw [← hst]; split_ifs <;> omega
  have hd := drop_eq_getD_cons s start hstart
  have hsz := decode_size (s.getD start 0) (s.drop (start + 1))
  rw [← hd] at hsz
  by_cases h2 : start + (DecodeRuneInString (s.drop start)).2 ≠ s.length
  · rw [if_pos h2]
    refine ⟨le_refl _, hlen, Or.inr ⟨by show 0x80 ≤ s.getD (s.length - 1) 0; omega, ?_, Or.inl rfl⟩⟩
    show (DecodeRuneInString (s.drop (s.length - 1))).2 = 1
    rw [drop_length_pred s hs]
    exact decode_single _
  · rw [if_neg h2]
    push_neg at h2
    have e : s.length - (DecodeRuneInString (s.drop start)).2 = start := by omega
    refine ⟨hsz.1, by omega, Or.inr ⟨?_, by rw [e], Or.inr (by rw [e])⟩⟩
    rw [e]
    by_cases h3 : 2 ≤ (DecodeRuneInString (s.drop start)).2
    · rw [hd] at h3
      exact decode_lead _ _ h3
    · have : start = s.length - 1 := by omega
      rw [this]; omega

theorem decodeLast_space (s : GoString) (h : IsSpace (DecodeLastRuneInString s).1 = true) :
    ∃ a w, s = a ++ w ∧ w ∈ spaceEncodings ∧ w.length = (DecodeLastRuneInString s).2 := by
  by_cases hs : s = []
  · subst hs; simp [DecodeLastRuneInString, IsSpace, RuneError] at h
  obtain ⟨h1, h2, h3⟩ := decodeLast_shape s hs
  rcases h3 with ⟨_, h3⟩ | ⟨_, h4, h3 | h3⟩
  · refine ⟨s.take (s.length - 1), s.drop (s.length - 1), (List.take_append_drop _ _).symm, ?_, ?_⟩
    · rw [h3] at h
      have := decode_space [s.getD (s.length - 1) 0] (by rw [decode_ascii _ _ (by assumption)]; exact h)
      rw [decode_ascii _ _ (by assumption)] at this
      rw [drop_length_pred s hs]
      simpa using this
    · rw [h3]; simp; omega
  · rw [h3] at h; simp [IsSpace, RuneError] at h
  · generalize hd : DecodeLastRuneInString s = d at *
    refine ⟨s.take (s.length - d.2), s.drop (s.length - d.2), (List.take_append_drop _ _).symm, ?_, ?_⟩
    · have := decode_space (s.drop (s.length - d.2)) (by rw [← h3]; exact h)
      rw [← h3] at this
      rwa [List.take_of_length_le (by simp; omega)] at this
    · simp; omega

theorem asciiSpace_isSpace (b : Nat) (h : asciiSpace b) : IsSpace b = true := by
  rw [isSpace_iff]; unfold asciiSpace at h; omega

theorem asciiSpace_lt (b : Nat) (h : asciiSpace b) : b < 0x80 := by
  unfold asciiSpace at h; omega

theorem trimLeftAux_spec (f : Nat → Bool) (fuel : Nat) (s : GoString) (h : s.length ≤ fuel) :
    TrimLeftFuncAux f fuel s <:+ s ∧
      (TrimLeftFuncAux f fuel s = [] ∨
        f (DecodeRuneInString (TrimLeftFuncAux f fuel s)).1 = false) := by
  induction fuel generalizing s with
  | zero =>
    simp [TrimLeftFuncAux]
  | succ n ih =>
    unfold TrimLeftFuncAux
    by_cases hs : s = []
    · simp [hs]
    rw [if_neg hs]
    by_cases hf : f (DecodeRuneInString s).1 = true
    · rw [if_pos hf]
      obtain ⟨a, t, rfl⟩ := List.exists_cons_of_ne_nil hs
      have hsz := decode_size a t
      have hl : ((a :: t).drop (DecodeRuneInString (a :: t)).2).length ≤ n := by
        simp only [List.length_drop, List.length_cons] at h ⊢; omega
      obtain ⟨h1, h2⟩ := ih _ hl
      exact ⟨h1.trans (List.drop_suffix _ _), h2⟩
    · rw [if_neg hf]
      exact ⟨List.suffix_refl _, Or.inr (by simpa using hf)⟩

theorem trimLeft_id (f : Nat → Bool) (s : GoString)
    (h : f (DecodeRuneInString s).1 = false) : TrimLeftFunc s f = s := by
  unfold TrimLeftFunc
  cases s with
  | nil => simp [TrimLeftFuncAux]
  | cons a t =>
    simp only [List.length_cons]
    unfold TrimLeftFuncAux
    simp [h]

theorem lastIndexFunc_spec (f : Nat → Bool) (s : GoString) (fuel i : Nat) :
    lastIndexFunc f s fuel i = -1 ∨
      ∃ j, 0 < j ∧ j ≤ i ∧ f (DecodeLastRuneInString (s.take j)).1 = false ∧
        lastIndexFunc f s fuel i = ((j - (DecodeLastRuneInString (s.take j)).2 : Nat) : Int) := by
  induction fuel generalizing i with
  | zero => left; rfl
  | succ n ih =>
    unfold lastIndexFunc
    by_cases hi : 0 < i
    · rw [if_pos hi]
      simp only []
      by_cases hf : f (DecodeLastRuneInString (s.take i)).1 = false
      · rw [if_pos hf]
        exact Or.inr ⟨i, hi, le_refl _, hf, rfl⟩
      · rw [if_neg hf]
        rcases ih (i - (DecodeLastRuneInString (s.take i)).2) with h | ⟨j, h1, h2, h3, h4⟩
        · exact Or.inl h
        · exact Or.inr ⟨j, h1, by omega, h3, h4⟩
    · rw [if_neg hi]; left; rfl

theorem getLast?_take (s : GoString) (n : Nat) (h1 : 1 ≤ n) (h2 : n ≤ s.length) :
    (s.take n).getLast? = some (s.getD (n - 1) 0) := by
  rw [List.getLast?_eq_getElem?, List.length_take, Nat.min_eq_left h2,
    List.getElem?_take_of_lt (by omega), List.getD_eq_getElem?_getD,
    List.getElem?_eq_getElem (by omega)]
  rfl

theorem getD_take (s : GoString) (n i : Nat) (h : i < n) : (s.take n).getD i 0 = s.getD i 0 := by
  simp [List.getD_eq_getElem?_getD, List.getElem?_take_of_lt h]

theorem trimRight_pre (s : GoString) (f : Nat → Bool) : TrimRightFunc s f <+: s := by
  unfold TrimRightFunc
  simp only []
  split_ifs <;> exact List.take_prefix _ _

/-- The result of `TrimRightFunc(s, unicode.IsSpace)` does not end in an ASCII
white space byte. -/
theorem trimRight_last (s : GoString) (b : Nat)
    (h : (TrimRightFunc s IsSpace).getLast? = some b) : ¬ asciiSpace b := by
  intro hb
  unfold TrimRightFunc at h
  simp only [] at h
  rcases lastIndexFunc_spec IsSpace s s.length s.length with e | ⟨j, h1, h2, h3, e⟩
  · rw [e] at h; simp at h
  · rw [e] at h
    have hlt : (s.take j).length = j := by rw [List.length_take]; omega
    have hne : s.take j ≠ [] := List.ne_nil_of_length_pos (by omega)
    obtain ⟨g1, g2, g3⟩ := decodeLast_shape (s.take j) hne
    generalize DecodeLastRuneInString (s.take j) = d at *
    rw [hlt] at g2 g3
    simp only [Int.toNat_ofNat] at h
    rcases g3 with ⟨g3, g4⟩ | ⟨g3, g4, _⟩
    · rw [getD_take _ _ _ (by omega)] at g3 g4
      rw [g4] at h h3
      simp only [] at h h3
      rw [if_neg (by omega)] at h
      have e2 : (((j - 1 : Nat) : Int) + 1).toNat = j := by omega
      rw [e2, getLast?_take s j h1 h2] at h
      have : b = s.getD (j - 1) 0 := by simpa using h.symm
      rw [this] at hb
      rw [asciiSpace_isSpace _ hb] at h3
      exact absurd h3 (by simp)
    · rw [getD_take _ _ _ (by omega)] at g3
      rw [if_pos ⟨by omega, g3⟩] at h
      have hj : j - d.2 < s.length := by omega
      have hd := drop_eq_getD_cons s (j - d.2) hj
      have hsz := decode_size (s.getD (j - d.2) 0) (s.drop (j - d.2 + 1))
      have hc := decode_cont (s.getD (j - d.2) 0) (s.drop (j - d.2 + 1))
      rw [← hd] at hsz hc
      generalize (DecodeRuneInString (s.drop (j - d.2))).2 = wid at *
      simp only [List.length_drop] at hsz
      rw [getLast?_take s _ (by omega) (by omega)] at h
      have hb2 : b = s.getD (j - d.2 + wid - 1) 0 := by simpa using h.symm
      have hb3 := asciiSpace_lt b hb
      by_cases hw : wid = 1
      · subst hw
        rw [hb2] at hb3
        simp only [Nat.add_sub_cancel] at hb3
        omega
      · have := hc (wid - 1) (by omega) (by omega)
        rw [List.getD_eq_getElem?_getD, List.getElem?_drop, ← List.getD_eq_getElem?_getD] at this
        have e3 : j - d.2 + (wid - 1) = j - d.2 + wid - 1 := by omega
        rw [e3, ← hb2] at this
        omega

theorem trimRight_id (s : GoString) (h : IsSpace (DecodeLastRuneInString s).1 = false) :
    TrimRightFunc s IsSpace = s := by
  by_cases hs : s = []
  · subst hs; simp [TrimRightFunc]
  have hlen : 0 < s.length := List.length_pos.mpr hs
  obtain ⟨n, hn⟩ : ∃ n, s.length = n + 1 := ⟨s.length - 1, by omega⟩
  unfold TrimRightFunc
  simp only []
  have e : lastIndexFunc IsSpace s s.length s.length
      = ((s.length - (DecodeLastRuneInString s).2 : Nat) : Int) := by
    conv_lhs => rw [hn]
    unfold lastIndexFunc
    rw [← hn, if_pos hlen]
    simp only [List.take_length]
    rw [if_pos h]
  rw [e]
  obtain ⟨g1, g2, g3⟩ := decodeLast_shape s hs
  generalize DecodeLastRuneInString s = d at *
  simp only [Int.toNat_ofNat]
  rcases g3 with ⟨g3, g4⟩ | ⟨g3, g4, _⟩
  · rw [g4]
    simp only []
    rw [if_neg (by omega)]
    have e2 : (((s.length - 1 : Nat) : Int) + 1).toNat = s.length := by omega
    rw [e2, List.take_length]
  · rw [if_pos ⟨by omega, g3⟩, g4]
    have : s.length - d.2 + d.2 = s.length := by omega
    rw [this, List.take_length]

theorem trimByte_id (u : GoString) (c : Nat) (h1 : ∀ b, u.head? = some b → b ≠ c)
    (h2 : ∀ b, u.getLast? = some b → b ≠ c) : TrimByte u c = u := by
  unfold TrimByte
  have e1 : u.rdropWhile (fun b => decide (b = c)) = u := by
    rw [List.rdropWhile_eq_self_iff]
    intro hl
    have := h2 (u.getLast hl) (List.getLast?_eq_getLast _ hl)
    simpa using this
  rw [e1, List.dropWhile_eq_self_iff]
  intro hl
  cases u with
  | nil => simp at hl
  | cons a t => simpa using h1 a rfl

/-- The result of `TrimSpace` neither starts nor ends with an ASCII white space byte. -/
theorem trimSpace_ends (s : GoString) :
    (∀ b, (TrimSpace s).head? = some b → ¬ asciiSpace b) ∧
      (∀ b, (TrimSpace s).getLast? = some b → ¬ asciiSpace b) := by
  refine ⟨?_, fun b h => trimRight_last _ b h⟩
  intro b h hb
  unfold TrimSpace at h
  obtain ⟨_, h2⟩ := trimLeftAux_spec IsSpace s.length s (le_refl _)
  have hp := trimRight_pre (TrimLeftFunc s IsSpace) IsSpace
  unfold TrimLeftFunc at h hp
  generalize TrimLeftFuncAux IsSpace s.length s = t at *
  generalize TrimRightFunc t IsSpace = u at *
  cases u with
  | nil => simp at h
  | cons a v =>
    have : a = b := by simpa using h
    subst this
    obtain ⟨w, rfl⟩ := hp
    rcases h2 with h2 | h2
    · simp at h2
    · simp only [List.cons_append] at h2
      rw [decode_ascii _ _ (asciiSpace_lt a hb)] at h2
      rw [asciiSpace_isSpace a hb] at h2
      exact absurd h2 (by simp)

theorem trimLine_eq (s : GoString) : trimLine s = TrimSpace s := by
  unfold trimLine
  obtain ⟨h1, h2⟩ := trimSpace_ends s
  have e : TrimByte (TrimSpace s) CR = TrimSpace s := by
    apply trimByte_id
    · intro b hb hc; exact h1 b hb (by unfold asciiSpace; unfold CR at hc; omega)
    · intro b hb hc; exact h2 b hb (by unfold asciiSpace; unfold CR at hc; omega)
  rw [e]
  apply trimByte_id
  · intro b hb hc; exact h1 b hb (by unfold asciiSpace; unfold LF at hc; omega)
  · intro b hb hc; exact h2 b hb (by unfold asciiSpace; unfold LF at hc; omega)

/-- The trimmed line neither starts nor ends with an ASCII white space byte. -/
theorem trimLine_ends (s : GoString) :
    (∀ b, (trimLine s).head? = some b → ¬ asciiSpace b) ∧
      (∀ b, (trimLine s).getLast? = some b → ¬ asciiSpace b) := by
  rw [trimLine_eq]; exact trimSpace_ends s

/-- A line whose first and last runes are not white space is left unchanged by
the trimming of `splitBuff`. -/
theorem trimLine_id (s : GoString) (h1 : IsSpace (DecodeRuneInString s).1 = false)
    (h2 : IsSpace (DecodeLastRuneInString s).1 = false) : trimLine s = s := by
  rw [trimLine_eq]
  unfold TrimSpace
  rw [trimLeft_id _ _ h1, trimRight_id _ h2]

theorem getD_drop_zero (cmd : GoString) (i : Nat) : (cmd.drop i).getD 0 0 = cmd.getD i 0 := by
  simp [List.getD_eq_getElem?_getD, List.getElem?_drop]

theorem take_drop_self (cmd : GoString) (i : Nat) : (cmd.take i).drop i = [] :=
  List.drop_eq_nil_of_le (by rw [List.length_take]; omega)

theorem take_succ_drop (cmd : GoString) (i start : Nat) (h1 : start ≤ i) (h2 : i < cmd.length) :
    (cmd.take (i + 1)).drop start = (cmd.take i).drop start ++ [cmd.getD i 0] := by
  rw [List.take_succ, List.drop_append_of_le_length (by rw [List.length_take]; omega)]
  congr 1
  rw [List.getD_eq_getElem _ _ h2, List.getElem?_eq_getElem h2]
  have : start - (cmd.take i).length = 0 := by rw [List.length_take]; omega
  simp

/-- The inner loop stops at the next double quote or at the end of the line. -/
theorem scanComma_spec (cmd : GoString) (fuel i : Nat) (h1 : i ≤ cmd.length)
    (h2 : cmd.length - i ≤ fuel) :
    i ≤ scanComma cmd fuel i ∧ scanComma cmd fuel i ≤ cmd.length ∧
    ∀ q, lex (.quoted q) (cmd.drop i) =
      lex (.quoted (q ++ (cmd.take (scanComma cmd fuel i)).drop i)) (cmd.drop (scanComma cmd fuel i)) ∧
      (scanComma cmd fuel i < cmd.length → cmd.getD (scanComma cmd fuel i) 0 = bcomma) := by
  induction fuel generalizing i with
  | zero =>
    have : i = cmd.length := by omega
    subst this
    refine ⟨le_refl _, le_refl _, fun q => ⟨?_, fun h => absurd h (by simp [scanComma])⟩⟩
    simp only [scanComma]
    rw [take_drop_self, List.append_nil]
  | succ n ih =>
    unfold scanComma
    by_cases hi : i < cmd.length
    · rw [if_pos hi]
      by_cases hc : cmd.getD i 0 = bcomma
      · rw [if_pos hc]
        refine ⟨le_refl _, h1, fun q => ⟨?_, fun _ => hc⟩⟩
        rw [take_drop_self, List.append_nil]
      · rw [if_neg hc]
        obtain ⟨g1, g2, g3⟩ := ih (i + 1) (by omega) (by omega)
        refine ⟨by omega, g2, fun q => ⟨?_, (g3 q).2⟩⟩
        rw [drop_eq_getD_cons cmd i hi]
        conv_lhs => unfold lex
        rw [if_neg hc, (g3 _).1]
        congr 2
        rw [List.append_assoc]
        congr 1
        have e := drop_eq_getD_cons (cmd.take (scanComma cmd n (i + 1))) i
          (by rw [List.length_take]; omega)
        rw [e, getD_take _ _ _ (by omega), List.drop_take]
        simp [List.drop_take]
    · rw [if_neg hi]
      have : i = cmd.length := by omega
      subst this
      refine ⟨le_refl _, le_refl _, fun q => ⟨?_, fun h => absurd h (by omega)⟩⟩
      rw [take_drop_self, List.append_nil]

theorem slice_eq (cmd : GoString) (lo hi : Nat) (h1 : lo ≤ hi) (h2 : hi ≤ cmd.length) :
    slice cmd lo hi = some ((cmd.take hi).drop lo) := by
  unfold slice; rw [if_pos ⟨h1, h2⟩]

theorem take_drop_ne_nil (cmd : GoString) (lo hi : Nat) (h1 : lo < hi) (h2 : hi ≤ cmd.length) :
    (cmd.take hi).drop lo ≠ [] := by
  apply List.ne_nil_of_length_pos
  rw [List.length_drop, List.length_take]; omega

/-- The outer loop of `splitBuff` appends the tokens of the automaton, and
does not panic. -/
theorem splitLoop_lex (cmd : GoString) (fuel i start e : Nat) (inspace : Bool)
    (argv : List GoString) (hs : inspace = true → start ≤ i ∧ i ≤ cmd.length) (hf1 : 1 ≤ fuel)
    (hf2 : cmd.length + 1 ≤ fuel + i) :
    splitLoop cmd fuel i start e inspace argv =
      some (argv ++ lex (modeAt cmd i start inspace) (cmd.drop i)) := by
  induction fuel generalizing i start e inspace argv with
  | zero => omega
  | succ n ih =>
    unfold splitLoop
    by_cases hi : i < cmd.length
    · rw [if_pos hi, drop_eq_getD_cons cmd i hi]
      by_cases hsp : cmd.getD i 0 = bspace
      · rw [if_pos hsp]
        cases inspace with
        | true =>
          have hsi := (hs rfl).1
          simp only [if_true]
          by_cases hne : start ≠ i
          · rw [if_pos hne, slice_eq cmd start i hsi (by omega)]
            simp only []
            rw [ih (i + 1) (i + 1) i true _ (fun _ => ⟨le_refl _, by omega⟩) (by omega) (by omega)]
            simp only [modeAt, if_true, take_drop_self]
            conv_rhs => unfold lex
            rw [if_pos hsp, if_pos (take_drop_ne_nil cmd start i (by omega) (by omega))]
            simp
          · rw [if_neg hne]
            push_neg at hne
            subst hne
            rw [ih (start + 1) (start + 1) start true _ (fun _ => ⟨le_refl _, by omega⟩) (by omega) (by omega)]
            simp only [modeAt, if_true, take_drop_self]
            conv_rhs => unfold lex
            rw [if_pos hsp, if_neg (by simp)]
        | false =>
          simp only [Bool.false_eq_true, if_false]
          rw [ih (i + 1) (i + 1) e true _ (fun _ => ⟨le_refl _, by omega⟩) (by omega) (by omega)]
          simp only [modeAt, if_true, take_drop_self, Bool.false_eq_true, if_false]
          conv_rhs => unfold lex
          rw [if_pos hsp]
      · rw [if_neg hsp]
        by_cases hc : cmd.getD i 0 = bcomma
        · rw [if_pos hc]
          simp only []
          obtain ⟨g1, g2, g3⟩ := scanComma_spec cmd cmd.length (i + 1) (by omega) (by omega)
          generalize scanComma cmd cmd.length (i + 1) = j at g1 g2 g3
          have hq := (g3 []).1
          rw [List.nil_append] at hq
          have hrest : lex (Mode.quoted ((cmd.take j).drop (i + 1))) (cmd.drop j) =
              (if (cmd.take j).drop (i + 1) ≠ [] then [(cmd.take j).drop (i + 1)] else []) ++
                lex .skip (cmd.drop (j + 1)) := by
            by_cases hj : j < cmd.length
            · rw [drop_eq_getD_cons cmd j hj]
              conv_lhs => unfold lex
              rw [if_pos ((g3 []).2 hj)]
              split_ifs <;> simp
            · rw [List.drop_eq_nil_of_le (show cmd.length ≤ j by omega),
                List.drop_eq_nil_of_le (show cmd.length ≤ j + 1 by omega)]
              simp only [lex]
              split_ifs <;> simp
          have hlex : lex (modeAt cmd i start inspace) (cmd.getD i 0 :: cmd.drop (i + 1)) =
              lex (.quoted []) (cmd.drop (i + 1)) := by
            unfold modeAt
            cases inspace
            · simp only [Bool.false_eq_true, if_false]
              conv_lhs => unfold lex
              rw [if_neg hsp, if_pos hc]
            · simp only [if_true]
              conv_lhs => unfold lex
              rw [if_neg hsp, if_pos hc]
          rw [hlex, hq, hrest]
          by_cases hj : j > i + 1
          · rw [if_pos hj, slice_eq cmd (i + 1) j (by omega) g2]
            simp only []
            rw [ih (j + 1) (i + 1) j false _ (fun h => absurd h (by simp)) (by omega) (by omega)]
            rw [if_pos (take_drop_ne_nil cmd (i + 1) j hj g2)]
            simp [modeAt]
          · rw [if_neg hj]
            rw [ih (j + 1) (i + 1) j false _ (fun h => absurd h (by simp)) (by omega) (by omega)]
            have : (cmd.take j).drop (i + 1) = [] :=
              List.drop_eq_nil_of_le (by rw [List.length_take]; omega)
            rw [this]
            simp [modeAt]
        · rw [if_neg hc]
          rw [ih (i + 1) start e inspace _ (fun h => by have := hs h; omega) (by omega) (by omega)]
          congr 2
          unfold modeAt
          cases inspace
          · simp only [Bool.false_eq_true, if_false]
            conv_rhs => unfold lex
            rw [if_neg hsp, if_neg hc]
          · simp only [if_true]
            conv_rhs => unfold lex
            rw [if_neg hsp, if_neg hc, take_succ_drop cmd i start (hs rfl).1 hi]
    · rw [if_neg hi, List.drop_eq_nil_of_le (by omega)]
      cases inspace with
      | true =>
        have hsi := (hs rfl).1
        simp only [if_true]
        have hil : i = cmd.length := by have := (hs rfl).2; omega
        subst hil
        rw [slice_eq cmd start cmd.length hsi (le_refl _)]
        simp [modeAt, lex]
      | false =>
        simp [modeAt, lex]

/-- The tokens of `splitBuff` are those of the automaton on the trimmed line;
in particular `splitBuff` does not panic. -/
theorem splitBuff_lex (line : GoString) :
    splitBuff line = some (lex (.word []) (trimLine line)) := by
  unfold splitBuff
  rw [splitLoop_lex _ _ 0 0 0 true [] (fun _ => ⟨le_refl _, by omega⟩) (by omega) (by omega)]
  simp [modeAt]

theorem mem_trimLine (s : GoString) (b : Nat) (h : b ∈ trimLine s) : b ∈ s := by
  rw [trimLine_eq] at h
  unfold TrimSpace at h
  have h1 := (trimRight_pre (TrimLeftFunc s IsSpace) IsSpace).subset h
  exact (trimLeftAux_spec IsSpace s.length s (le_refl _)).1.subset h1

theorem splitOn_eq_single (l : GoString) (h : bspace ∉ l) : l.splitOn bspace = [l] := by
  unfold List.splitOn
  apply List.splitOnP_eq_single
  intro x hx hp
  have : x = bspace := by simpa using hp
  exact h (this ▸ hx)

theorem splitOn_first (xs as : GoString) (h : bspace ∉ xs) :
    (xs ++ bspace :: as).splitOn bspace = xs :: as.splitOn bspace := by
  unfold List.splitOn
  apply List.splitOnP_first
  · intro x hx hp
    have : x = bspace := by simpa using hp
    exact h (this ▸ hx)
  · simp

theorem splitOnP_no_sep (p : Nat → Bool) (l : GoString) :
    ∀ t ∈ l.splitOnP p, ∀ x ∈ t, p x = false := by
  induction l with
  | nil => simp
  | cons a as ih =>
    rw [List.splitOnP_cons]
    by_cases hp : p a = true
    · rw [if_pos hp]
      intro t ht
      rcases List.mem_cons.mp ht with h | h
      · subst h; simp
      · exact ih t h
    · rw [if_neg hp]
      cases hS : as.splitOnP p with
      | nil => exact absurd hS (List.splitOnP_ne_nil _ _)
      | cons y S =>
        rw [hS] at ih
        intro t ht
        simp only [List.modifyHead, List.mem_cons] at ht
        rcases ht with h | h
        · subst h
          intro x hx
          rcases List.mem_cons.mp hx with h | h
          · subst h; simpa using hp
          · exact ih y (List.mem_cons_self _ _) x h
        · exact ih t (List.mem_cons_of_mem _ h)

theorem nonSpaceRuns_spec (l : GoString) : ∀ t ∈ nonSpaceRuns l, t ≠ [] ∧ bspace ∉ t := by
  intro t ht
  unfold nonSpaceRuns at ht
  rw [List.mem_filter] at ht
  refine ⟨by simpa using ht.2, fun hm => ?_⟩
  have := splitOnP_no_sep (· == bspace) l t ht.1 bspace hm
  simp at this

/-- On bytes without a double quote the automaton collects the maximal runs of
non-space bytes, provided the line does not end in a space. -/
theorem lex_word_runs (l cur : GoString) (hq : bcomma ∉ l) (hc : bspace ∉ cur)
    (hl : ∃ z, (cur ++ l).getLast? = some z ∧ z ≠ bspace) :
    lex (.word cur) l = nonSpaceRuns (cur ++ l) := by
  induction l generalizing cur with
  | nil =>
    obtain ⟨z, hz, _⟩ := hl
    have hne : cur ≠ [] := by
      intro h; subst h; simp at hz
    simp only [lex, List.append_nil, nonSpaceRuns]
    rw [splitOn_eq_single cur hc]
    simp [hne]
  | cons b rest ih =>
    have hq' : bcomma ∉ rest := fun h => hq (List.mem_cons_of_mem _ h)
    have hb : b ≠ bcomma := fun h => hq (h ▸ List.mem_cons_self _ _)
    unfold lex
    by_cases hsp : b = bspace
    · subst hsp
      rw [if_pos rfl]
      have hl' : ∃ z, ([] ++ rest).getLast? = some z ∧ z ≠ bspace := by
        obtain ⟨z, hz, hz2⟩ := hl
        refine ⟨z, ?_, hz2⟩
        cases rest with
        | nil =>
          rw [List.getLast?_append_of_ne_nil _ (by simp)] at hz
          simp only [List.getLast?_singleton, Option.some.injEq] at hz
          exact absurd hz.symm hz2
        | cons c r =>
          rw [List.getLast?_append_of_ne_nil _ (by simp), List.getLast?_cons_cons] at hz
          simpa using hz
      have e := ih [] hq' (by simp) hl'
      rw [List.nil_append] at e
      unfold nonSpaceRuns
      rw [splitOn_first cur rest hc, e]
      unfold nonSpaceRuns
      by_cases hne : cur ≠ []
      · rw [if_pos hne, List.filter_cons_of_pos (by simpa using hne)]
      · rw [if_neg hne, List.filter_cons_of_neg (by simpa using hne)]
    · rw [if_neg hsp, if_neg hb]
      have hc' : bspace ∉ cur ++ [b] := by
        intro h
        rcases List.mem_append.mp h with h | h
        · exact hc h
        · have : bspace = b := by simpa using h
          exact hsp this.symm
      have e := ih (cur ++ [b]) hq' hc' (by simpa using hl)
      rw [e]
      simp

theorem lex_word_append (pre cur rest : GoString) (h : ∀ b ∈ pre, b ≠ bspace ∧ b ≠ bcomma) :
    lex (.word cur) (pre ++ rest) = lex (.word (cur ++ pre)) rest := by
  induction pre generalizing cur with
  | nil => simp
  | cons a t ih =>
    have ha := h a (List.mem_cons_self _ _)
    rw [List.cons_append]
    conv_lhs => unfold lex
    rw [if_neg ha.1, if_neg ha.2, ih _ (fun b hb => h b (List.mem_cons_of_mem _ hb))]
    simp

theorem lex_quoted_append (q acc rest : GoString) (h : bcomma ∉ q) :
    lex (.quoted acc) (q ++ rest) = lex (.quoted (acc ++ q)) rest := by
  induction q generalizing acc with
  | nil => simp
  | cons a t ih =>
    have ha : a ≠ bcomma := fun e => h (e ▸ List.mem_cons_self _ _)
    rw [List.cons_append]
    conv_lhs => unfold lex
    rw [if_neg ha, ih _ (fun hb => h (List.mem_cons_of_mem _ hb))]
    simp

theorem enc_shape : ∀ w ∈ spaceEncodings,
    w ≠ [] ∧ ((∃ b, w = [b] ∧ asciiSpace b) ∨ (2 ≤ w.length ∧ ∀ b ∈ w, 0x80 ≤ b)) := by
  unfold spaceEncodings asciiSpace
  simp

theorem noWhitespace_byte (s : GoString) (h : noWhitespace s) (b : Nat) (hb : b ∈ s) :
    ¬ asciiSpace b := by
  intro ha
  have hm : [b] ∈ spaceEncodings := by
    unfold asciiSpace at ha
    unfold spaceEncodings
    rcases ha with h | h | h | h | h | h <;> subst h <;> simp
  apply h [b] hm
  obtain ⟨u, v, rfl⟩ := List.append_of_mem hb
  exact ⟨u, v, by simp⟩

/-- A string without white space, followed by a space, does not start with a
white space rune. -/
theorem decode_noWhitespace (pre rest : GoString) (hne : pre ≠ []) (h : noWhitespace pre) :
    IsSpace (DecodeRuneInString (pre ++ bspace :: rest)).1 = false := by
  by_contra hc
  have hc : IsSpace (DecodeRuneInString (pre ++ bspace :: rest)).1 = true := by simpa using hc
  have hw := decode_space _ hc
  generalize (DecodeRuneInString (pre ++ bspace :: rest)).2 = k at hw
  have hsplit := (List.take_append_drop k (pre ++ bspace :: rest)).symm
  generalize (pre ++ bspace :: rest).take k = w at hw hsplit
  generalize (pre ++ bspace :: rest).drop k = d at hsplit
  obtain ⟨hwne, hsh⟩ := enc_shape w hw
  rcases List.append_eq_append_iff.mp hsplit with ⟨c, hc1, hc2⟩ | ⟨c, hc1, hc2⟩
  · cases c with
    | nil => exact h w hw ⟨[], [], by simpa using hc1⟩
    | cons x c' =>
      have hx : x = bspace := by
        have := congrArg List.head? hc2
        simpa using this.symm
      subst hx
      rcases hsh with ⟨b, hb, _⟩ | ⟨_, hall⟩
      · rw [hb] at hc1
        have := congrArg List.length hc1
        have hp : 0 < pre.length := List.length_pos.mpr hne
        simp at this
        omega
      · have := hall bspace (by rw [hc1]; simp)
        unfold bspace at this
        omega
  · exact h w hw ⟨[], c, by simpa using hc1.symm⟩

/-- A string without white space, preceded by a space, does not end with a
white space rune. -/
theorem decodeLast_noWhitespace (front post : GoString) (hne : post ≠ [])
    (h : noWhitespace post) :
    IsSpace (DecodeLastRuneInString (front ++ bspace :: post)).1 = false := by
  by_contra hc
  have hc : IsSpace (DecodeLastRuneInString (front ++ bspace :: post)).1 = true := by
    simpa using hc
  obtain ⟨a, w, hsplit, hw, _⟩ := decodeLast_space _ hc
  obtain ⟨hwne, hsh⟩ := enc_shape w hw
  have hsplit' : (front ++ [bspace]) ++ post = a ++ w := by simpa using hsplit
  rcases List.append_eq_append_iff.mp hsplit' with ⟨c, hc1, hc2⟩ | ⟨c, hc1, hc2⟩
  · exact h w hw ⟨c, [], by simpa using hc2.symm⟩
  · cases hcl : c.reverse with
    | nil =>
      have : c = [] := by simpa using hcl
      subst this
      exact h w hw ⟨[], [], by simpa using hc2⟩
    | cons x c' =>
      have hce : c = c'.reverse ++ [x] := by
        have := congrArg List.reverse hcl
        simpa using this
      subst hce
      have hx : x = bspace := by
        have := congrArg List.getLast? hc1
        simpa using this.symm
      subst hx
      rcases hsh with ⟨b, hb, _⟩ | ⟨_, hall⟩
      · rw [hb] at hc2
        have := congrArg List.length hc2
        have hp : 0 < post.length := List.length_pos.mpr hne
        simp at this
        omega
      · have := hall bspace (by rw [hc2]; simp)
        unfold bspace at this
        omega

/-- C1: on a line without a double quote whose trimmed form is non-empty,
`splitBuff` returns exactly the maximal runs of non-space bytes of the trimmed
line, in order; every token is non-empty and contains no space byte. -/
theorem splitBuff_unquoted_runs (line : GoString) (hq : bcomma ∉ line)
    (hne : trimLine line ≠ []) :
    splitBuff line = some (nonSpaceRuns (trimLine line)) ∧
      ∀ t ∈ nonSpaceRuns (trimLine line), t ≠ [] ∧ bspace ∉ t := by
  refine ⟨?_, nonSpaceRuns_spec _⟩
  rw [splitBuff_lex]
  have hq' : bcomma ∉ trimLine line := fun h => hq (mem_trimLine _ _ h)
  have hl : ∃ z, ([] ++ trimLine line).getLast? = some z ∧ z ≠ bspace := by
    refine ⟨(trimLine line).getLast hne, by simp [List.getLast?_eq_getLast _ hne], ?_⟩
    intro hz
    exact (trimLine_ends line).2 _ (List.getLast?_eq_getLast _ hne)
      (by rw [hz]; unfold asciiSpace bspace; simp)
  rw [lex_word_runs _ [] hq' (by simp) hl, List.nil_append]

/-- C1 on the line `foo bar`: the tokens are `foo` and `bar`. -/
theorem splitBuff_unquoted_runs_witness :
    splitBuff [102, 111, 111, 32, 98, 97, 114] =
        some (nonSpaceRuns (trimLine [102, 111, 111, 32, 98, 97, 114])) ∧
      nonSpaceRuns (trimLine [102, 111, 111, 32, 98, 97, 114]) =
        [[102, 111, 111], [98, 97, 114]] :=
  ⟨(splitBuff_unquoted_runs [102, 111, 111, 32, 98, 97, 114] (by decide) (by decide)).1,
    by decide⟩

/-- C2: for `pre` and `post` non-empty and free of white space and double
quotes and `q` free of double quotes, the line `pre "q" post` is split into
`pre`, `q` (verbatim, with its spaces) and `post`, and into `pre` and `post`
when `q` is empty. -/
theorem splitBuff_quoted (pre q post : GoString) (hpre : pre ≠ []) (hpost : post ≠ [])
    (h1 : noWhitespace pre) (h2 : noWhitespace post) (h3 : bcomma ∉ pre)
    (h4 : bcomma ∉ post) (h5 : bcomma ∉ q) :
    splitBuff (pre ++ [bspace, bcomma] ++ q ++ [bcomma, bspace] ++ post) =
      some (if q = [] then [pre, post] else [pre, q, post]) := by
  have e1 : pre ++ [bspace, bcomma] ++ q ++ [bcomma, bspace] ++ post =
      pre ++ bspace :: (bcomma :: (q ++ bcomma :: bspace :: post)) := by simp
  have e2 : pre ++ [bspace, bcomma] ++ q ++ [bcomma, bspace] ++ post =
      (pre ++ [bspace, bcomma] ++ q ++ [bcomma]) ++ bspace :: post := by simp
  have ht : trimLine (pre ++ [bspace, bcomma] ++ q ++ [bcomma, bspace] ++ post) =
      pre ++ [bspace, bcomma] ++ q ++ [bcomma, bspace] ++ post := by
    apply trimLine_id
    · rw [e1]; exact decode_noWhitespace pre _ hpre h1
    · rw [e2]; exact decodeLast_noWhitespace _ post hpost h2
  have hp : ∀ s : GoString, noWhitespace s → bcomma ∉ s → ∀ b ∈ s, b ≠ bspace ∧ b ≠ bcomma := by
    intro s hs hc b hb
    refine ⟨fun e => noWhitespace_byte s hs b hb ?_, fun e => hc (e ▸ hb)⟩
    rw [e]; unfold asciiSpace bspace; simp
  rw [splitBuff_lex, ht, e1, lex_word_append pre [] _ (hp pre h1 h3), List.nil_append]
  conv_lhs => unfold lex
  rw [if_pos rfl, if_pos hpre]
  conv_lhs => unfold lex
  rw [if_neg (by decide), if_pos rfl, lex_quoted_append q [] _ h5, List.nil_append]
  have e3 : lex .skip (bspace :: post) = [post] := by
    conv_lhs => unfold lex
    rw [if_pos rfl]
    have := lex_word_append post [] [] (hp post h2 h4)
    rw [List.append_nil, List.nil_append] at this
    rw [this]; simp [lex]
  conv_lhs => unfold lex
  rw [if_pos rfl, e3]
  by_cases hqe : q = []
  · rw [if_pos hqe, if_neg (by simpa using hqe)]
  · rw [if_neg hqe, if_pos hqe]

/-- C2 on the line `foo "a b" c`: the tokens are `foo`, `a b` and `c`. -/
theorem splitBuff_quoted_witness :
    splitBuff ([102, 111, 111] ++ [bspace, bcomma] ++ [97, 32, 98] ++ [bcomma, bspace] ++ [99]) =
      some [[102, 111, 111], [97, 32, 98], [99]] :=
  splitBuff_quoted [102, 111, 111] [97, 32, 98] [99] (by decide) (by decide)
    (by unfold noWhitespace; decide) (by unfold noWhitespace; decide) (by decide) (by decide)
    (by decide)

theorem write_open (c : Conn) (b : List Nat) (h : c.closed = false) :
    (c.Write b).written = c.written ++ b ∧ (c.Write b).closed = false := by
  unfold Conn.Write; simp [h]

/-- C3: for a registered command name `c` (not empty, not `exit`, `quit`,
`bye`) and a line whose first token is `c`, `handleTermCmd` invokes the
handler, once and with the whole token list, exactly when the token count lies
within the stored bounds; otherwise it invokes no handler and writes exactly
`Params of command c should be min - max` followed by CR LF. -/
theorem handleTermCmd_arity (st : TermState) (conn : Conn) (line : GoString)
    (argv : List GoString) (c : GoString) (console : ConsoleCmd)
    (hreg : st.termHandler c = some console) (hc0 : c ≠ []) (hc1 : c ≠ strExit)
    (hc2 : c ≠ strQuit) (hc3 : c ≠ strBye) (hargv : splitBuff line = some argv)
    (h0 : argv.head? = some c) (hopen : conn.closed = false) :
    ∃ r, handleTermCmd st conn line = some r ∧
      (r.calls = [(console.fn, argv)] ↔
        (console.minParams ≤ (argv.length : Int) ∧ (argv.length : Int) ≤ console.maxParams)) ∧
      (¬ (console.minParams ≤ (argv.length : Int) ∧ (argv.length : Int) ≤ console.maxParams) →
        r.calls = [] ∧
        r.conn.written = conn.written ++ paramsMsg c console.minParams console.maxParams) := by
  cases argv with
  | nil => simp at h0
  | cons a0 rest =>
    have ha : a0 = c := by simpa using h0
    subst ha
    unfold handleTermCmd
    rw [hargv]
    simp only []
    rw [if_neg hc0, if_neg (by simp [hc1, hc2, hc3]), hreg]
    simp only []
    by_cases hb : ((a0 :: rest).length : Int) < console.minParams ∨
        ((a0 :: rest).length : Int) > console.maxParams
    · rw [if_pos hb]
      refine ⟨_, rfl, ⟨fun h => by simp at h, fun h => by omega⟩, fun _ => ⟨rfl, ?_⟩⟩
      exact (write_open conn _ hopen).1
    · rw [if_neg hb]
      refine ⟨_, rfl, ⟨fun _ => by omega, fun _ => rfl⟩, fun h => by omega⟩

/-- C3 with the bounds 1..3: the four-token line `foo a b c` is rejected with
`1 - 3` in the response, and the two-token line `foo 1` is accepted. -/
theorem handleTermCmd_arity_witness :
    (∃ r, handleTermCmd fooState freshConn [102, 111, 111, 32, 97, 32, 98, 32, 99] = some r ∧
      r.calls = [] ∧
      r.conn.written = bytes "Params of command foo should be 1 - 3\r\n") ∧
    (∃ r, handleTermCmd fooState freshConn [102, 111, 111, 32, 49] = some r ∧
      r.calls = [(okHandler, [[102, 111, 111], [49]])]) := by
  constructor
  · obtain ⟨r, h1, _, h3⟩ := handleTermCmd_arity fooState freshConn
      [102, 111, 111, 32, 97, 32, 98, 32, 99] [[102, 111, 111], [97], [98], [99]]
      [102, 111, 111] { maxParams := 3, minParams := 1, repeatable := true, fn := okHandler }
      (by simp [fooState, RegisterTermCmd]) (by decide) (by decide) (by decide) (by decide)
      (by decide) rfl rfl
    exact ⟨r, h1, (h3 (by simp)).1, by rw [(h3 (by simp)).2]; decide⟩
  · obtain ⟨r, h1, h2, _⟩ := handleTermCmd_arity fooState freshConn
      [102, 111, 111, 32, 49] [[102, 111, 111], [49]]
      [102, 111, 111] { maxParams := 3, minParams := 1, repeatable := true, fn := okHandler }
      (by simp [fooState, RegisterTermCmd]) (by decide) (by decide) (by decide) (by decide)
      (by decide) rfl rfl
    exact ⟨r, h1, h2.mpr (by simp)⟩

/-- A line that `strings.TrimSpace` reduces to the empty string has the single
token `""`. -/
theorem splitBuff_blank (B : GoString) (hB : TrimSpace B = []) : splitBuff B = some [[]] := by
  rw [splitBuff_lex, trimLine_eq, hB]; rfl

/-- C4: after `handleTermCmd` has dispatched a line naming a registered command
within its bounds, an empty or blank line (one that `strings.TrimSpace` reduces
to the empty string) invokes the same handler again with exactly the same
argument list and writes its text followed by CR LF when the command is
repeatable, and invokes no handler and writes nothing when it is not. -/
theorem handleTermCmd_replay (st : TermState) (conn : Conn) (line B : GoString)
    (argv : List GoString) (c : GoString) (console : ConsoleCmd)
    (hreg : st.termHandler c = some console) (hc0 : c ≠ []) (hc1 : c ≠ strExit)
    (hc2 : c ≠ strQuit) (hc3 : c ≠ strBye) (hargv : splitBuff line = some argv)
    (h0 : argv.head? = some c)
    (hb : console.minParams ≤ (argv.length : Int) ∧ (argv.length : Int) ≤ console.maxParams)
    (hopen : conn.closed = false) (hB : TrimSpace B = []) :
    ∃ r1, handleTermCmd st conn line = some r1 ∧ r1.calls = [(console.fn, argv)] ∧
      ∃ r2, handleTermCmd r1.st r1.conn B = some r2 ∧
        (console.repeatable = true →
          r2.calls = [(console.fn, argv)] ∧
          r2.conn.written = r1.conn.written ++ (console.fn argv).1 ++ [13, 10]) ∧
        (console.repeatable = false → r2.calls = [] ∧ r2.conn.written = r1.conn.written) := by
  cases argv with
  | nil => simp at h0
  | cons a0 rest =>
    have ha : a0 = c := by simpa using h0
    subst ha
    have hnb : ¬ (((a0 :: rest).length : Int) < console.minParams ∨
        ((a0 :: rest).length : Int) > console.maxParams) := by omega
    have e1 : handleTermCmd st conn line = some
        { st := if console.repeatable then
                  { st with lastCmd := some console, lastArgv := a0 :: rest }
                else { st with lastCmd := none }
          conn := (conn.Write (console.fn (a0 :: rest)).1).Write [13, 10]
          calls := [(console.fn, a0 :: rest)]
          err := (console.fn (a0 :: rest)).2 } := by
      unfold handleTermCmd
      rw [hargv]
      simp only []
      rw [if_neg hc0, if_neg (by simp [hc1, hc2, hc3]), hreg]
      simp only []
      rw [if_neg hnb]
    refine ⟨_, e1, rfl, ?_⟩
    have ho1 := write_open conn (console.fn (a0 :: rest)).1 hopen
    have ho2 := write_open _ [13, 10] ho1.2
    unfold handleTermCmd
    rw [splitBuff_blank B hB]
    simp only [if_true]
    cases hr : console.repeatable with
    | true =>
      simp only [if_true]
      refine ⟨_, rfl, fun _ => ⟨rfl, ?_⟩, fun h => by simp at h⟩
      simp only []
      rw [(write_open _ [13, 10] (write_open _ _ ho2.2).2).1, (write_open _ _ ho2.2).1]
    | false =>
      simp only [Bool.false_eq_true, if_false]
      exact ⟨_, rfl, fun h => by simp at h, fun _ => ⟨rfl, rfl⟩⟩

/-- C4 on the repeatable command `foo`: after `foo 1`, an empty line replays
the handler with the arguments `foo`, `1`. -/
theorem handleTermCmd_replay_witness :
    ∃ r1, handleTermCmd fooState freshConn [102, 111, 111, 32, 49] = some r1 ∧
      ∃ r2, handleTermCmd r1.st r1.conn [] = some r2 ∧
        r2.calls = [(okHandler, [[102, 111, 111], [49]])] := by
  obtain ⟨r1, h1, _, r2, h2, h3, _⟩ := handleTermCmd_replay fooState freshConn
    [102, 111, 111, 32, 49] [] [[102, 111, 111], [49]] [102, 111, 111]
    { maxParams := 3, minParams := 1, repeatable := true, fn := okHandler }
    (by simp [fooState, RegisterTermCmd]) (by decide) (by decide) (by decide) (by decide)
    (by decide) rfl (by simp) rfl (by decide)
  exact ⟨r1, h1, r2, h2, (h3 rfl).1⟩

/-- C8 (amended): on a line whose token list is empty, `handleTermCmd` invokes
no handler, writes nothing and leaves the globals unchanged, whether or not a
last command is stored. -/
theorem handleTermCmd_no_tokens (st : TermState) (conn : Conn) (line : GoString)
    (h : splitBuff line = some []) :
    handleTermCmd st conn line = some { st := st, conn := conn, calls := [], err := none } := by
  unfold handleTermCmd
  rw [h]

/-- C8 (amended) on the line of two double quotes. -/
theorem handleTermCmd_no_tokens_witness :
    handleTermCmd fooReplayState freshConn [34, 34] =
      some { st := fooReplayState, conn := freshConn, calls := [], err := none } :=
  handleTermCmd_no_tokens fooReplayState freshConn [34, 34] (by decide)

/-- C8 as stated fails: the line of two double quotes has the empty token
list, a last command is stored, and yet `handleTermCmd` does not invoke its
handler and writes nothing. -/
theorem handleTermCmd_no_tokens_counterexample :
    splitBuff [34, 34] = some [] ∧
    fooReplayState.lastCmd =
      some { maxParams := 3, minParams := 1, repeatable := true, fn := okHandler } ∧
    ¬ ∃ r, handleTermCmd fooReplayState freshConn [34, 34] = some r ∧
        r.calls = [(okHandler, fooReplayState.lastArgv)] ∧
        r.conn.written = freshConn.written ++ (okHandler fooReplayState.lastArgv).1 ++ [13, 10] := by
  refine ⟨by decide, rfl, ?_⟩
  rintro ⟨r, h1, h2, _⟩
  have e : handleTermCmd fooReplayState freshConn [34, 34] =
      some { st := fooReplayState, conn := freshConn, calls := [], err := none } := by
    unfold handleTermCmd
    rw [show splitBuff [34, 34] = some [] by decide]
  rw [e] at h1
  have := congrArg (fun o => o.map (fun r => r.calls.length)) h1
  simp [h2] at this

theorem setHistoryCmd_inv (h : cmdHistory) (cmd : GoString) (hi : HistInv h) :
    ∃ h1, setHistoryCmd h cmd = some h1 ∧ HistInv h1 := by
  unfold setHistoryCmd
  by_cases hb : TrimSpace cmd = []
  · rw [if_pos hb]; exact ⟨h, rfl, hi⟩
  · rw [if_neg hb]
    obtain ⟨h1, h2, h3⟩ := hi
    generalize hidx : (if h.index ≥ (MaxHistroyCmds : Int) then 0 else h.index) = idx
    have hb2 : 0 ≤ idx ∧ idx < 200 := by
      rw [← hidx]; unfold MaxHistroyCmds; split_ifs <;> omega
    unfold cmdHistory.store
    rw [dif_pos hb2]
    refine ⟨_, rfl, ?_⟩
    simp only [HistInv]
    omega

theorem getHistoryCmd_inv (h : cmdHistory) (key : Nat) (hi : HistInv h) :
    ∃ s h1, getHistoryCmd h key = some (s, h1) ∧ HistInv h1 ∧ h1.cmds = h.cmds ∧
      h1.index = h.index := by
  obtain ⟨h1, h2, h3⟩ := hi
  unfold getHistoryCmd
  by_cases hu : key = TELKEY_UP
  · rw [if_pos hu]
    simp only []
    generalize hc : (if h.cusor - 1 < 0 then (if h.index > 0 then h.index - 1 else 0)
      else h.cusor - 1) = c
    have hcb : 0 ≤ c ∧ c < 200 ∧ c ≤ h.index := by
      rw [← hc]; split_ifs <;> omega
    unfold cmdHistory.read
    rw [dif_pos ⟨hcb.1, hcb.2.1⟩]
    exact ⟨_, _, rfl, ⟨hcb.1, hcb.2.2, h3⟩, rfl, rfl⟩
  · rw [if_neg hu]
    by_cases hd : key = TELKEY_DOWN
    · rw [if_pos hd]
      simp only []
      generalize hc : (if h.index > 0 then (if h.cusor + 1 ≥ h.index then 0 else h.cusor + 1)
        else 0) = c
      have hcb : 0 ≤ c ∧ c < 200 ∧ c ≤ h.index := by
        rw [← hc]; split_ifs <;> omega
      unfold cmdHistory.read
      rw [dif_pos ⟨hcb.1, hcb.2.1⟩]
      exact ⟨_, _, rfl, ⟨hcb.1, hcb.2.2, h3⟩, rfl, rfl⟩
    · rw [if_neg hd]
      exact ⟨_, _, rfl, ⟨h1, h2, h3⟩, rfl, rfl⟩

theorem resetCusor_inv (h : cmdHistory) (hi : HistInv h) : HistInv (resetCusor h) := by
  obtain ⟨h1, h2, h3⟩ := hi
  exact ⟨by simp only [resetCusor]; omega, le_refl _, h3⟩

theorem runOps_inv (ops : List HistOp) (h h1 : cmdHistory) (hi : HistInv h)
    (hr : runOps h ops = some h1) : HistInv h1 := by
  induction ops generalizing h with
  | nil =>
    simp only [runOps, Option.some.injEq] at hr
    exact hr ▸ hi
  | cons op ops ih =>
    simp only [runOps] at hr
    cases op with
    | set cmd =>
      obtain ⟨h2, e, hi2⟩ := setHistoryCmd_inv h cmd hi
      simp only [HistOp.apply, e, Option.some_bind] at hr
      exact ih h2 hi2 hr
    | get key =>
      obtain ⟨s, h2, e, hi2, _⟩ := getHistoryCmd_inv h key hi
      simp only [HistOp.apply, e, Option.map_some', Option.some_bind] at hr
      exact ih h2 hi2 hr
    | reset =>
      simp only [HistOp.apply, Option.some_bind] at hr
      exact ih _ (resetCusor_inv h hi) hr

theorem init_inv : HistInv cmdHistory.init := by
  simp [HistInv, cmdHistory.init]

theorem reachable_inv (h : cmdHistory) (hr : Reachable h) : HistInv h := by
  obtain ⟨ops, e⟩ := hr
  exact runOps_inv ops _ h init_inv e

/-- C9 (amended): in every reachable history state the write index and the
browse cursor lie between 0 and 200, both bounds included. -/
theorem history_bounds (h : cmdHistory) (hr : Reachable h) :
    0 ≤ h.index ∧ h.index ≤ 200 ∧ 0 ≤ h.cusor ∧ h.cusor ≤ 200 := by
  obtain ⟨h1, h2, h3⟩ := reachable_inv h hr
  omega

/-- C9 (amended) on the initial history. -/
theorem history_bounds_witness :
    0 ≤ cmdHistory.init.index ∧ cmdHistory.init.index ≤ 200 ∧
      0 ≤ cmdHistory.init.cusor ∧ cmdHistory.init.cusor ≤ 200 :=
  history_bounds cmdHistory.init ⟨[], rfl⟩

theorem pushAll_append (h : cmdHistory) (ls : List GoString) (l : GoString) :
    pushAll h (ls ++ [l]) = (pushAll h ls).bind fun h1 => setHistoryCmd h1 l := by
  induction ls generalizing h with
  | nil =>
    simp only [List.nil_append, pushAll, Option.some_bind]
    cases setHistoryCmd h l <;> rfl
  | cons a t ih =>
    simp only [List.cons_append, pushAll]
    cases setHistoryCmd h a with
    | none => rfl
    | some h1 => simp only [Option.some_bind]; exact ih h1

theorem ringIndex_succ (k : Nat) :
    ringIndex (k + 1) = (if ringIndex k ≥ 200 then 0 else ringIndex k) + 1 ∧
      ringIndex k ≤ 200 ∧ ringIndex k ≤ k := by
  unfold ringIndex
  by_cases hk : k = 0
  · subst hk; simp
  · rw [if_neg hk, if_neg (by omega)]
    simp only [Nat.add_sub_cancel]
    split_ifs <;> omega

/-- The history after pushing the non-blank lines `ls`: the write index and
the slots below it. -/
theorem pushAll_spec (ls : List GoString) (hnb : ∀ l ∈ ls, TrimSpace l ≠ []) :
    ∃ h, pushAll cmdHistory.init ls = some h ∧ h.index = ringIndex ls.length ∧
      h.cusor = ringIndex ls.length ∧
      ∀ j (hj : j < 200), j < ringIndex ls.length →
        h.cmds ⟨j, hj⟩ = ls.getD (ls.length - ringIndex ls.length + j) [] := by
  induction ls using List.reverseRecOn with
  | nil =>
    refine ⟨cmdHistory.init, rfl, rfl, rfl, ?_⟩
    intro j hj h
    simp [ringIndex] at h
  | append_singleton ls l ih =>
    obtain ⟨h, e, hidx, hcus, hslots⟩ := ih (fun x hx => hnb x (List.mem_append_left _ hx))
    have hl : TrimSpace l ≠ [] := hnb l (by simp)
    obtain ⟨r1, r2, r3⟩ := ringIndex_succ ls.length
    rw [pushAll_append, e]
    simp only [Option.some_bind, List.length_append, List.length_singleton]
    unfold setHistoryCmd
    rw [if_neg hl]
    generalize hi : (if h.index ≥ (MaxHistroyCmds : Int) then 0 else h.index) = idx
    have hidx2 : idx = ((if ringIndex ls.length ≥ 200 then 0 else ringIndex ls.length : Nat) : Int) := by
      rw [← hi, hidx]; unfold MaxHistroyCmds
      split_ifs <;> first | rfl | omega
    generalize hw : (if ringIndex ls.length ≥ 200 then 0 else ringIndex ls.length) = w at hidx2 r1
    have hwb : w < 200 := by rw [← hw]; split_ifs <;> omega
    unfold cmdHistory.store
    rw [dif_pos (by omega)]
    refine ⟨_, rfl, by simp only []; omega, by simp only []; omega, ?_⟩
    intro j hj hjw
    simp only []
    by_cases hjw2 : j = w
    · subst hjw2
      have e1 : (⟨j, hj⟩ : Fin 200) = ⟨idx.toNat, by omega⟩ := by
        apply Fin.ext; simp only []; omega
      rw [e1, Function.update_same]
      have e2 : ls.length + 1 - ringIndex (ls.length + 1) + j = ls.length := by omega
      rw [e2]
      simp [List.getD_eq_getElem?_getD]
    · have hne : (⟨j, hj⟩ : Fin 200) ≠ ⟨idx.toNat, by omega⟩ := by
        intro h; have := congrArg Fin.val h; simp only [] at this; omega
      rw [Function.update_noteq hne]
      have hww : w = ringIndex ls.length := by
        rw [← hw]; split_ifs with h200
        · omega
        · rfl
      rw [hslots j hj (by omega)]
      have e2 : ls.length + 1 - ringIndex (ls.length + 1) + j =
          ls.length - ringIndex ls.length + j := by omega
      rw [e2]
      simp only [List.getD_eq_getElem?_getD]
      rw [List.getElem?_append_left (by omega)]

/-- Consecutive `getHistoryCmd(TELKEY_UP)` calls walk down from the cursor. -/
theorem recallUp_spec (j : Nat) (h : cmdHistory) (c : Nat) (hc : h.cusor = c) (hj : j < c)
    (hc2 : c ≤ 200) :
    recallUp h j = h.read ((c : Int) - 1 - j) := by
  induction j generalizing h c with
  | zero =>
    unfold recallUp getHistoryCmd
    rw [if_pos rfl]
    simp only []
    rw [if_neg (by omega), hc]
    have hb : 0 ≤ (c : Int) - 1 ∧ (c : Int) - 1 < 200 := by omega
    simp [cmdHistory.read, hb]
  | succ n ih =>
    unfold recallUp getHistoryCmd
    rw [if_pos rfl]
    simp only []
    rw [if_neg (by omega), hc]
    have hb : 0 ≤ (c : Int) - 1 ∧ (c : Int) - 1 < 200 := by omega
    simp only [cmdHistory.read, hb, and_self, dite_true, Option.map_some', Option.some_bind]
    rw [ih _ (c - 1) (by simp only []; omega) (by omega) (by omega)]
    simp only [cmdHistory.read]
    have e : ((c - 1 : Nat) : Int) - 1 - n = (c : Int) - 1 - ((n + 1 : Nat) : Int) := by omega
    rw [e]

/-- C5: after pushing `k ≥ 1` non-blank lines onto the initial history, for
`1 ≤ m ≤ ((k - 1) mod 200) + 1` the `m`-th of `m` consecutive
`getHistoryCmd(TELKEY_UP)` calls returns the line pushed `m`-th from last. -/
theorem recallUp_after_push (ls : List GoString) (hne : ls ≠ [])
    (hnb : ∀ l ∈ ls, TrimSpace l ≠ []) (m : Nat) (h1 : 1 ≤ m)
    (h2 : m ≤ (ls.length - 1) % 200 + 1) :
    ∃ h, pushAll cmdHistory.init ls = some h ∧
      recallUp h (m - 1) = some (ls.getD (ls.length - m) []) := by
  obtain ⟨h, e, hidx, hcus, hslots⟩ := pushAll_spec ls hnb
  have hk : ls.length ≠ 0 := by
    intro h0; exact hne (List.length_eq_zero.mp h0)
  have hr : ringIndex ls.length = (ls.length - 1) % 200 + 1 := by
    unfold ringIndex; rw [if_neg hk]
  have hr200 : ringIndex ls.length ≤ 200 := by rw [hr]; omega
  refine ⟨h, e, ?_⟩
  rw [recallUp_spec (m - 1) h (ringIndex ls.length) hcus (by omega) hr200]
  have hb : 0 ≤ (ringIndex ls.length : Int) - 1 - ((m - 1 : Nat) : Int) ∧
      (ringIndex ls.length : Int) - 1 - ((m - 1 : Nat) : Int) < 200 := by omega
  unfold cmdHistory.read
  rw [dif_pos hb]
  have e1 : ((ringIndex ls.length : Int) - 1 - ((m - 1 : Nat) : Int)).toNat =
      ringIndex ls.length - m := by omega
  have hlen : (ls.length - 1) % 200 ≤ ls.length - 1 := Nat.mod_le _ _
  have e3 : ls.length - ringIndex ls.length + (ringIndex ls.length - m) = ls.length - m := by
    omega
  have := hslots (ringIndex ls.length - m) (by omega) (by omega)
  have e4 : (⟨((ringIndex ls.length : Int) - 1 - ((m - 1 : Nat) : Int)).toNat, by omega⟩ : Fin 200) =
      ⟨ringIndex ls.length - m, by omega⟩ := Fin.ext e1
  rw [e4, this]
  exact congrArg (fun n => some (ls.getD n [])) e3

theorem runOps_set (h : cmdHistory) (ls : List GoString) :
    runOps h (ls.map HistOp.set) = pushAll h ls := by
  induction ls generalizing h with
  | nil => rfl
  | cons a t ih =>
    simp only [List.map_cons, runOps, pushAll, HistOp.apply]
    cases setHistoryCmd h a with
    | none => rfl
    | some h1 => simp only [Option.some_bind]; exact ih h1

set_option maxRecDepth 100000 in
theorem sampleLines_nonblank : ∀ l ∈ sampleLines, TrimSpace l ≠ [] := by
  decide

theorem sampleLines_length : sampleLines.length = 205 := by
  simp [sampleLines]

theorem sampleLines_ne : sampleLines ≠ [] := by
  intro h
  have := congrArg List.length h
  rw [sampleLines_length] at this
  simp at this

set_option maxRecDepth 100000 in
theorem sampleLines_last :
    sampleLines.getD 204 [] = [50, 48, 53] ∧ sampleLines.getD 203 [] = [50, 48, 52] ∧
      sampleLines.getD 202 [] = [50, 48, 51] := by
  decide

/-- C5 on 205 lines: three consecutive UP recalls return the 205th, the 204th
and the 203rd line. -/
theorem recallUp_after_push_witness :
    ∃ h, pushAll cmdHistory.init sampleLines = some h ∧
      recallUp h 0 = some [50, 48, 53] ∧ recallUp h 1 = some [50, 48, 52] ∧
      recallUp h 2 = some [50, 48, 51] := by
  obtain ⟨h, e, r1⟩ := recallUp_after_push sampleLines sampleLines_ne sampleLines_nonblank 1
    (by decide) (by rw [sampleLines_length]; decide)
  obtain ⟨h', e', r2⟩ := recallUp_after_push sampleLines sampleLines_ne sampleLines_nonblank 2
    (by decide) (by rw [sampleLines_length]; decide)
  obtain ⟨h'', e'', r3⟩ := recallUp_after_push sampleLines sampleLines_ne sampleLines_nonblank 3
    (by decide) (by rw [sampleLines_length]; decide)
  have hh : h' = h := by rw [e] at e'; exact (Option.some.inj e').symm
  have hh2 : h'' = h := by rw [e] at e''; exact (Option.some.inj e'').symm
  subst hh hh2
  rw [sampleLines_length] at r1 r2 r3
  obtain ⟨s1, s2, s3⟩ := sampleLines_last
  exact ⟨h'', e, r1.trans (congrArg some s1), r2.trans (congrArg some s2),
    r3.trans (congrArg some s3)⟩

/-- C9 as stated fails: after 200 accepted lines the write index and the
browse cursor are both 200. -/
theorem history_bounds_counterexample :
    ∃ h, runOps cmdHistory.init ((List.replicate 200 [97]).map HistOp.set) = some h ∧
      h.index = 200 ∧ h.cusor = 200 := by
  obtain ⟨h, e, h1, h2, _⟩ := pushAll_spec (List.replicate 200 [97]) (by
    intro l hl
    rw [List.eq_of_mem_replicate hl]
    decide)
  refine ⟨h, by rw [runOps_set]; exact e, ?_, ?_⟩
  · rw [h1, List.length_replicate]; rfl
  · rw [h2, List.length_replicate]; rfl

theorem parseStep_ordinary (st : ParseState) (b : Nat) (rest : List Nat)
    (hin : st.input = b :: rest) (hb : ordinary b) (hl : st.buflen < 1000) :
    parseStep st = .next { st with
      buf := Function.update st.buf st.buflen b, input := rest,
      cmd := st.cmd ++ stringOfByte b, repeatFlag := false,
      out := st.out ++ [b], buflen := st.buflen + 1 } := by
  obtain ⟨h0, h8, h9, h10, h13, h27, h255⟩ := hb
  unfold parseStep parseStepCap
  rw [hin]
  simp only [readInto, hin, Function.update_same, TELCODE_IAC, TELANSI_ESC, CR, LF,
    TELCODE_BACKSPACE, TELCODE_TAB]
  rw [if_neg (by omega), if_neg h255, if_neg h0, if_neg h27, if_neg (by omega), if_neg h8,
    if_neg h9]

theorem readInto_fields (st : ParseState) (lo : Nat) :
    (readInto st lo).cmd = st.cmd ∧ (readInto st lo).repeatFlag = st.repeatFlag ∧
      (readInto st lo).buflen = st.buflen ∧ (readInto st lo).history = st.history ∧
      (readInto st lo).out = st.out ∧ (readInto st lo).input.length ≤ st.input.length ∧
      (readInto st lo).short = st.short := by
  unfold readInto
  cases h : st.input with
  | nil => simp [h]
  | cons a t =>
    simp only [List.length_cons]
    exact ⟨trivial, trivial, trivial, trivial, trivial, by omega, trivial⟩

theorem readTwo_fields (st : ParseState) (lo : Nat) :
    (readTwo st lo).cmd = st.cmd ∧ (readTwo st lo).repeatFlag = st.repeatFlag ∧
      (readTwo st lo).buflen = st.buflen ∧ (readTwo st lo).history = st.history ∧
      (readTwo st lo).out = st.out ∧ (readTwo st lo).input.length ≤ st.input.length ∧
      (readTwo st lo).short = st.short.tail := by
  obtain ⟨a1, a2, a3, a4, a5, a6, a7⟩ := readInto_fields st lo
  obtain ⟨b1, b2, b3, b4, b5, b6, b7⟩ :=
    readInto_fields { readInto st lo with short := st.short.tail } (lo + 1)
  unfold readTwo
  simp only []
  split_ifs
  · exact ⟨a1, a2, a3, a4, a5, a6, rfl⟩
  · exact ⟨b1.trans a1, b2.trans a2, b3.trans a3, b4.trans a4, b5.trans a5,
      le_trans b6 a6, b7⟩

/-- The IAC case when the `Read` of the two option bytes returns both: they are
skipped, the line is emptied and `buflen` is reset. -/
theorem parseStep_iac (st : ParseState) (x y : Nat) (rest : List Nat)
    (hin : st.input = 255 :: x :: y :: rest) (hl : st.buflen < 1000)
    (hs : st.short.headD false = false) :
    ∃ st1, parseStep st = .next st1 ∧ st1.cmd = [] ∧ st1.buflen = 0 ∧ st1.input = rest ∧
      st1.repeatFlag = st.repeatFlag ∧ st1.history = st.history ∧ st1.out = st.out ∧
      st1.short = st.short.tail := by
  unfold parseStep parseStepCap
  rw [hin]
  simp only [readTwo, readInto, hin, hs, Function.update_same, TELCODE_IAC]
  rw [if_neg (by omega)]
  simp only [if_true]
  rw [if_neg (by omega)]
  exact ⟨_, rfl, rfl, rfl, rfl, rfl, rfl, rfl, rfl⟩

/-- The IAC case when the `Read` of the two option bytes returns after the
first: the second option byte stays in the stream. -/
theorem parseStep_iac_short (st : ParseState) (x : Nat) (rest : List Nat)
    (hin : st.input = 255 :: x :: rest) (hl : st.buflen < 1000)
    (hs : st.short.headD false = true) :
    ∃ st1, parseStep st = .next st1 ∧ st1.cmd = [] ∧ st1.buflen = 0 ∧ st1.input = rest ∧
      st1.repeatFlag = st.repeatFlag ∧ st1.history = st.history ∧ st1.out = st.out ∧
      st1.short = st.short.tail := by
  unfold parseStep parseStepCap
  rw [hin]
  simp only [readTwo, readInto, hin, hs, Function.update_same, TELCODE_IAC]
  rw [if_neg (by omega)]
  simp only [if_true]
  rw [if_neg (by omega)]
  exact ⟨_, rfl, rfl, rfl, rfl, rfl, rfl, rfl, rfl⟩

theorem parseStep_eol (st : ParseState) (t : Nat) (rest : List Nat)
    (hin : st.input = t :: rest) (ht : t = 13 ∨ t = 10) (hl : st.buflen < 1000) :
    ∃ st1, parseStep st = .out st1 ∧ st1.cmd = st.cmd ∧ st1.input = rest ∧
      st1.repeatFlag = st.repeatFlag ∧ st1.history = st.history ∧
      st1.out = st.out ++ [13, 10] := by
  unfold parseStep parseStepCap
  rw [hin]
  simp only [readInto, hin, Function.update_same, TELCODE_IAC, TELANSI_ESC, CR, LF]
  rw [if_neg (by omega), if_neg (by omega), if_neg (by omega), if_neg (by omega), if_pos ht]
  exact ⟨_, rfl, rfl, rfl, rfl, rfl, rfl⟩

theorem parseLoop_succ (fuel : Nat) (st : ParseState) :
    parseLoop (fuel + 1) st =
      if st.buflen < 1000 then
        match parseStep st with
        | .next st1 => parseLoop fuel st1
        | .out st1 => parseOut st1
        | .readErr st1 =>
          some { cmd := st1.cmd, err := true, history := st1.history,
                 out := st1.out, input := st1.input }
        | .panic => none
      else parseOut st := rfl

/-- Typing ordinary bytes: each is appended to the line (as `string(ch)`) and
echoed, and `buflen` advances by one. -/
theorem parseLoop_typed (p : List Nat) (fuel : Nat) (st : ParseState) (rest : List Nat)
    (hin : st.input = p ++ rest) (hp : ∀ b ∈ p, ordinary b)
    (hl : st.buflen + p.length ≤ 1000) :
    ∃ st1, parseLoop (fuel + p.length) st = parseLoop fuel st1 ∧
      st1.cmd = st.cmd ++ typed p ∧
      st1.repeatFlag = (if p = [] then st.repeatFlag else false) ∧
      st1.buflen = st.buflen + p.length ∧ st1.history = st.history ∧
      st1.out = st.out ++ p ∧ st1.input = rest ∧ st1.short = st.short := by
  induction p generalizing st with
  | nil =>
    exact ⟨st, rfl, by simp [typed], by simp, by simp, rfl, by simp, by simpa using hin, rfl⟩
  | cons b t ih =>
    simp only [List.length_cons] at hl ⊢
    have e : fuel + (t.length + 1) = (fuel + t.length) + 1 := by omega
    rw [e, parseLoop_succ, if_pos (by omega),
      parseStep_ordinary st b (t ++ rest) (by simpa using hin) (hp b (List.mem_cons_self _ _))
        (by omega)]
    simp only []
    obtain ⟨st1, e1, e2, e3, e4, e5, e6, e7, e8⟩ := ih
      { st with
        buf := Function.update st.buf st.buflen b, input := t ++ rest,
        cmd := st.cmd ++ stringOfByte b, repeatFlag := false,
        out := st.out ++ [b], buflen := st.buflen + 1 } rfl
      (fun x hx => hp x (List.mem_cons_of_mem _ hx)) (by simp only []; omega)
    refine ⟨st1, e1, ?_, ?_, ?_, e5, ?_, e7, e8⟩
    · rw [e2]; simp [typed]
    · rw [e3, if_neg (List.cons_ne_nil b t)]; simp only []; split_ifs <;> rfl
    · rw [e4]; simp only []; omega
    · rw [e6]; simp

/-- When the `Read` of the two option bytes returns both: after fewer than 1000
ordinary bytes, an IAC triplet discards what was typed.  The bytes typed are
echoed, the line completed by the following CR or LF is empty, without error,
the history is as before and the stream is consumed. -/
theorem parseInput_iac_discards (h : cmdHistory) (p : List Nat) (x y t : Nat)
    (short : List Bool) (hp : p.length < 1000) (ho : ∀ b ∈ p, ordinary b)
    (ht : t = 13 ∨ t = 10) (hs : short.headD false = false) :
    ∃ r, parseInput h (p ++ [255, x, y] ++ [t]) short = some r ∧ r.cmd = [] ∧
      r.err = false ∧ r.out = p ++ [13, 10] ∧ r.history = h ∧ r.input = [] := by
  unfold parseInput
  have e : (p ++ [255, x, y] ++ [t]).length + 1 = (3 + 1 + 1) + p.length := by simp; omega
  rw [e]
  obtain ⟨st1, e1, _, e3, e4, e5, e6, e7, e8⟩ := parseLoop_typed p (3 + 1 + 1)
    (parseInit h (p ++ [255, x, y] ++ [t]) short) [255, x, y, t] (by simp [parseInit]) ho
    (by simp only [parseInit]; omega)
  rw [e1]
  have hb1 : st1.buflen < 1000 := by rw [e4]; simp only [parseInit]; omega
  obtain ⟨st2, f1, f2, f3, f4, f5, f6, f7, _⟩ := parseStep_iac st1 x y [t] e7 hb1
    (by rw [e8]; exact hs)
  rw [parseLoop_succ, if_pos hb1, f1]
  simp only []
  obtain ⟨st3, g1, g2, g3, g4, g5, g6⟩ := parseStep_eol st2 t [] f4 ht (by omega)
  rw [parseLoop_succ, if_pos (by omega), g1]
  simp only []
  have hr : st3.repeatFlag = false := by
    rw [g4, f5, e3]; split_ifs <;> rfl
  unfold parseOut
  rw [if_pos hr, g2, f2]
  have hs : setHistoryCmd st3.history [] = some st3.history := by
    unfold setHistoryCmd; rw [if_pos (by decide)]
  rw [hs]
  refine ⟨_, rfl, rfl, rfl, ?_, ?_, g3⟩
  · simp only [Option.map_some']; rw [g6, f7, e6]; simp [parseInit]
  · simp only [Option.map_some']; rw [g5, f6, e5]; rfl

/-- On `he`, IAC DO ECHO and CR with a full read of the option bytes the line
returned is empty. -/
theorem parseInput_iac_discards_witness :
    ∃ r, parseInput cmdHistory.init ([104, 101] ++ [255, 253, 1] ++ [13]) [] = some r ∧
      r.cmd = [] ∧ r.err = false ∧ r.out = [104, 101] ++ [13, 10] ∧
      r.history = cmdHistory.init ∧ r.input = [] :=
  parseInput_iac_discards cmdHistory.init [104, 101] 253 1 13 [] (by decide)
    (by unfold ordinary; decide) (Or.inl rfl) rfl

/-- When the `Read` of the two option bytes returns after the first: the second
option byte `y`, if it is an ordinary byte, is taken as typed input, so the
line completed by the following CR or LF is `string(y)` and `y` is echoed. -/
theorem parseInput_iac_early_return (h : cmdHistory) (hi : HistInv h) (p : List Nat) (x y t : Nat)
    (short : List Bool) (hp : p.length < 1000) (ho : ∀ b ∈ p, ordinary b)
    (hy : ordinary y) (ht : t = 13 ∨ t = 10) (hs : short.headD false = true) :
    ∃ r, parseInput h (p ++ [255, x, y] ++ [t]) short = some r ∧ r.cmd = stringOfByte y ∧
      r.err = false ∧ r.out = p ++ [y, 13, 10] := by
  unfold parseInput
  have e : (p ++ [255, x, y] ++ [t]).length + 1 = (2 + 1 + 1 + 1) + p.length := by
    simp; omega
  rw [e]
  obtain ⟨st1, e1, _, e3, e4, e5, e6, e7, e8⟩ := parseLoop_typed p (2 + 1 + 1 + 1)
    (parseInit h (p ++ [255, x, y] ++ [t]) short) [255, x, y, t] (by simp [parseInit]) ho
    (by simp only [parseInit]; omega)
  rw [e1]
  have hb1 : st1.buflen < 1000 := by rw [e4]; simp only [parseInit]; omega
  obtain ⟨st2, f1, f2, f3, f4, f5, f6, f7, _⟩ := parseStep_iac_short st1 x [y, t] e7 hb1
    (by rw [e8]; exact hs)
  rw [parseLoop_succ, if_pos hb1, f1]
  simp only []
  rw [parseLoop_succ, if_pos (by omega), parseStep_ordinary st2 y [t] f4 hy (by omega)]
  simp only []
  obtain ⟨st3, g1, g2, g3, g4, g5, g6⟩ := parseStep_eol
    { st2 with
      buf := Function.update st2.buf st2.buflen y, input := [t],
      cmd := st2.cmd ++ stringOfByte y, repeatFlag := false,
      out := st2.out ++ [y], buflen := st2.buflen + 1 } t [] rfl ht (by simp only []; omega)
  rw [parseLoop_succ, if_pos (by simp only []; omega), g1]
  simp only []
  unfold parseOut
  rw [if_pos (by rw [g4])]
  obtain ⟨h1, k1, _⟩ := setHistoryCmd_inv st3.history st3.cmd (by
    rw [g5]; simp only []; rw [f6, e5]; exact hi)
  rw [k1]
  refine ⟨_, rfl, ?_, rfl, ?_⟩
  · simp only [Option.map_some']; rw [g2]; simp only []; rw [f2]; rfl
  · simp only [Option.map_some']; rw [g6]; simp only []; rw [f7, e6]; simp [parseInit]

/-- C6 fails when the `Read` of the two option bytes returns after the first
one: on `he`, IAC DO ECHO and CR the option byte 1 is then read at the head of
the loop and appended to the line, so `parseInput` returns the line `[1]`, not
the empty line, and echoes the byte. -/
theorem parseInput_iac_short_read :
    (parseInput cmdHistory.init ([104, 101] ++ [255, 253, 1] ++ [13]) [true]).map
        (fun r => (r.cmd, r.err, r.out)) =
      some ([1], false, [104, 101, 1, 13, 10]) := by
  decide

/-- C7 fails on the byte 200 followed by CR: the byte is echoed as it is, but
the line holds the two bytes of `string(ch)`, the UTF-8 encoding of U+00C8. -/
theorem parseInput_high_byte :
    (parseInput cmdHistory.init ([200] ++ [13]) []).map (fun r => (r.cmd, r.err, r.out)) =
      some ([195, 136], false, [200, 13, 10]) := by
  decide

theorem read_entry (h : cmdHistory) (c : Int) (s : GoString) (e : h.read c = some s) :
    ∃ i, s = h.cmds i := by
  unfold cmdHistory.read at e
  split_ifs at e
  exact ⟨_, (Option.some.inj e).symm⟩

theorem getHistoryCmd_entry (h : cmdHistory) (key : Nat) (s : GoString) (h1 : cmdHistory)
    (e : getHistoryCmd h key = some (s, h1)) : s = [] ∨ ∃ i, s = h.cmds i := by
  unfold getHistoryCmd at e
  by_cases hu : key = TELKEY_UP
  · rw [if_pos hu] at e
    simp only [] at e
    generalize (if h.cusor - 1 < 0 then (if h.index > 0 then h.index - 1 else 0)
      else h.cusor - 1) = c at e
    cases hr : h.read c with
    | none => rw [hr] at e; simp at e
    | some x =>
      rw [hr] at e
      simp only [Option.map_some', Option.some.injEq, Prod.mk.injEq] at e
      exact Or.inr (e.1 ▸ read_entry h c x hr)
  · rw [if_neg hu] at e
    by_cases hd : key = TELKEY_DOWN
    · rw [if_pos hd] at e
      simp only [] at e
      generalize (if h.index > 0 then (if h.cusor + 1 ≥ h.index then 0 else h.cusor + 1)
        else 0) = c at e
      cases hr : h.read c with
      | none => rw [hr] at e; simp at e
      | some x =>
        rw [hr] at e
        simp only [Option.map_some', Option.some.injEq, Prod.mk.injEq] at e
        exact Or.inr (e.1 ▸ read_entry h c x hr)
    · rw [if_neg hd] at e
      simp only [Option.some.injEq, Prod.mk.injEq] at e
      exact Or.inl e.1.symm

/-- The escape case keeps the invariant; it neither ends the line nor fails. -/
theorem escCase_lineInv (H : Nat) (hc : Fin 200 → GoString) (st : ParseState)
    (hH : ∀ i, (hc i).length ≤ H) (hinv : lineInv H hc st) (hl : st.buflen < 1000) :
    ∃ st1, escCase st = .next st1 ∧ lineInv H hc st1 ∧ st1.input.length ≤ st.input.length := by
  obtain ⟨i1, i2, i3⟩ := hinv
  unfold escCase escCaseCap
  simp only []
  rw [if_neg (by omega)]
  obtain ⟨a1, a2, a3, a4, a5, a6, a7⟩ :=
    readInto_fields { st with buflen := st.buflen + 1 } (st.buflen + 1)
  generalize readInto { st with buflen := st.buflen + 1 } (st.buflen + 1) = sA at *
  simp only [] at a1 a2 a3 a4 a5 a6 a7
  by_cases hk : sA.buf sA.buflen ≠ TELKEYBOARD
  · rw [if_pos hk]
    refine ⟨_, rfl, ⟨?_, ?_, ?_⟩, a6⟩
    · simp only []; rw [a1, a3]; omega
    · simp only []; rw [a4]; exact i2
    · simp only []; rw [a4]; exact i3
  · rw [if_neg hk, if_neg (by rw [a3]; omega)]
    obtain ⟨b1, b2, b3, b4, b5, b6, b7⟩ :=
      readInto_fields { sA with buflen := sA.buflen + 1 } (sA.buflen + 1)
    generalize readInto { sA with buflen := sA.buflen + 1 } (sA.buflen + 1) = sB at *
    simp only [] at b1 b2 b3 b4 b5 b6 b7
    by_cases hud : sB.buf sB.buflen = TELKEY_UP ∨ sB.buf sB.buflen = TELKEY_DOWN
    · rw [if_pos hud]
      have hiB : HistInv sB.history := by rw [b4, a4]; exact i2
      obtain ⟨s, h1, e, hi1, hcm, _⟩ := getHistoryCmd_inv sB.history (sB.buf sB.buflen) hiB
      rw [e]
      simp only []
      refine ⟨_, rfl, ⟨?_, hi1, ?_⟩, by simp only []; omega⟩
      · simp only []
        rcases getHistoryCmd_entry _ _ _ _ e with hs | ⟨i, hs⟩
        · rw [hs]; simp
        · rw [hs, b4, a4, i3]
          have := hH i
          omega
      · simp only []; rw [hcm, b4, a4]; exact i3
    · rw [if_neg hud]
      refine ⟨_, rfl, ⟨?_, ?_, ?_⟩, by simp only []; omega⟩
      · simp only []; rw [b1, b3, a1, a3]; omega
      · simp only []; rw [b4, a4]; exact i2
      · simp only []; rw [b4, a4]; exact i3

/-- An iteration that reads a byte below 128 or IAC at the head of the loop
keeps the invariant. -/
theorem parseStep_lineInv (H : Nat) (hc : Fin 200 → GoString) (st : ParseState)
    (hH : ∀ i, (hc i).length ≤ H) (hinv : lineInv H hc st) (hl : st.buflen < 1000)
    (hhead : ∀ b rest, st.input = b :: rest → b < 128 ∨ b = 255) :
    stepOk H hc st (parseStep st) := by
  have hinv0 := hinv
  obtain ⟨i1, i2, i3⟩ := hinv
  unfold parseStep parseStepCap
  cases hin : st.input with
  | nil => simp [stepOk]
  | cons b rest =>
    have hb := hhead b rest hin
    simp only []
    rw [if_neg (by omega)]
    have e1 : readInto st st.buflen =
        { st with buf := Function.update st.buf st.buflen b, input := rest } := by
      unfold readInto; rw [hin]
    rw [e1]
    simp only [Function.update_same, TELCODE_IAC, TELANSI_ESC, CR, LF, TELCODE_BACKSPACE,
      TELCODE_TAB]
    by_cases h255 : b = 255
    · rw [if_pos h255, if_neg (by omega)]
      obtain ⟨a1, a2, a3, a4, a5, a6, a7⟩ := readTwo_fields
        { st with buf := Function.update st.buf st.buflen b, input := rest } (st.buflen + 1)
      generalize readTwo
        { st with buf := Function.update st.buf st.buflen b, input := rest } (st.buflen + 1) = sA at *
      simp only [] at a4 a6
      simp only [stepOk, lineInv, hin, List.length_cons, List.length_nil]
      exact ⟨⟨by omega, by rw [a4]; exact i2, by rw [a4]; exact i3⟩, by omega⟩
    rw [if_neg h255]
    have hb' : b < 128 := by omega
    by_cases h0 : b = 0
    · rw [if_pos h0]
      simp only [stepOk, lineInv, hin, List.length_cons]
      exact ⟨⟨by omega, i2, i3⟩, by omega⟩
    rw [if_neg h0]
    by_cases h27 : b = 27
    · rw [if_pos h27]
      obtain ⟨st1, e, hi, hlen⟩ := escCase_lineInv H hc
        { st with buf := Function.update st.buf st.buflen b, input := rest } hH
        ⟨i1, i2, i3⟩ hl
      unfold escCase at e
      rw [e]
      simp only [stepOk, hin, List.length_cons]
      simp only [] at hlen
      exact ⟨hi, by omega⟩
    rw [if_neg h27]
    by_cases hcr : b = 13 ∨ b = 10
    · rw [if_pos hcr]
      simp only [stepOk]
      exact ⟨trivial, trivial⟩
    rw [if_neg hcr]
    by_cases h8 : b = 8
    · rw [if_pos h8]
      by_cases hlen : st.cmd.length > 0
      · rw [if_pos hlen]
        simp only [stepOk, lineInv, hin, List.length_cons, List.length_take]
        refine ⟨⟨?_, i2, i3⟩, by omega⟩
        split_ifs <;> omega
      · rw [if_neg hlen]
        simp only [stepOk, lineInv, hin, List.length_cons]
        exact ⟨⟨i1, i2, i3⟩, by omega⟩
    rw [if_neg h8]
    by_cases h9 : b = 9
    · rw [if_pos h9]
      simp only [stepOk, lineInv, hin, List.length_cons]
      exact ⟨⟨by omega, i2, i3⟩, by omega⟩
    rw [if_neg h9]
    simp only [stepOk, lineInv, hin, List.length_cons, List.length_append]
    have hs : (stringOfByte b).length = 1 := by
      unfold stringOfByte; rw [if_pos hb']; rfl
    rw [hs]
    exact ⟨⟨by omega, i2, i3⟩, by omega⟩

/-- From a state of the run in which the invariant holds, the read loop
returns a result, and the line it returns is bounded. -/
theorem parseLoop_lineInv (H : Nat) (h : cmdHistory) (input : List Nat) (short : List Bool)
    (hH : ∀ i, (h.cmds i).length ≤ H)
    (hhead : ∀ st, LoopState h input short st → st.buflen < 1000 →
      ∀ b rest, st.input = b :: rest → b < 128 ∨ b = 255)
    (fuel : Nat) (st : ParseState) (hs : LoopState h input short st)
    (hinv : lineInv H h.cmds st) (hf : st.input.length < fuel) :
    ∃ r, parseLoop fuel st = some r ∧ r.cmd.length ≤ H + 1000 := by
  have hout : ∀ s : ParseState, HistInv s.history → s.cmd.length ≤ H + 1000 →
      ∃ r, parseOut s = some r ∧ r.cmd.length ≤ H + 1000 := by
    intro s hs hlen
    unfold parseOut
    by_cases hr : s.repeatFlag = false
    · rw [if_pos hr]
      obtain ⟨h1, e, _⟩ := setHistoryCmd_inv s.history s.cmd hs
      rw [e]
      exact ⟨_, rfl, hlen⟩
    · rw [if_neg hr]
      exact ⟨_, rfl, hlen⟩
  induction fuel generalizing st with
  | zero => omega
  | succ n ih =>
    have hlen : st.cmd.length ≤ H + 1000 := by
      have := hinv.1; omega
    rw [parseLoop_succ]
    by_cases hl : st.buflen < 1000
    · rw [if_pos hl]
      have hok := parseStep_lineInv H h.cmds st hH hinv hl (hhead st hs hl)
      cases hstep : parseStep st with
      | next st1 =>
        rw [hstep] at hok
        simp only [stepOk] at hok ⊢
        exact ih st1 (LoopState.step st st1 hs hl hstep) hok.1 (by omega)
      | out st1 =>
        rw [hstep] at hok
        simp only [stepOk] at hok ⊢
        exact hout st1 (by rw [hok.2]; exact hinv.2.1) (by rw [hok.1]; exact hlen)
      | readErr st1 =>
        rw [hstep] at hok
        simp only [stepOk] at hok ⊢
        exact ⟨_, rfl, by simp only []; rw [hok]; exact hlen⟩
      | panic =>
        rw [hstep] at hok
        exact hok.elim
    · rw [if_neg hl]
      exact hout st hinv.2.1 hlen

theorem loopState_lineInv (H : Nat) (h : cmdHistory) (input : List Nat) (short : List Bool)
    (hi : HistInv h) (hH : ∀ i, (h.cmds i).length ≤ H)
    (hhead : ∀ st, LoopState h input short st → st.buflen < 1000 →
      ∀ b rest, st.input = b :: rest → b < 128 ∨ b = 255)
    (st : ParseState) (hs : LoopState h input short st) : lineInv H h.cmds st := by
  induction hs with
  | init => exact ⟨by simp [parseInit], hi, rfl⟩
  | step s s1 hs0 hl hstep ih =>
    have := parseStep_lineInv H h.cmds s hH ih hl (hhead s hs0 hl)
    rw [hstep] at this
    exact this.1

/-- C10 (amended): for a reachable history whose entries hold at most `H`
bytes, an input stream and a pattern of short reads such that every byte read
at the head of the read loop is below 128 or is IAC (so that the default case
appends no byte of 128 or more; the bytes read inside the IAC and ESC cases
are arbitrary), the line being assembled never holds more than `H + 1000`
bytes at the head of the read loop, and `parseInput` returns a line of at most
`H + 1000` bytes. -/
theorem parseInput_line_bound (h : cmdHistory) (input : List Nat) (short : List Bool)
    (H : Nat) (hr : Reachable h) (hH : ∀ i, (h.cmds i).length ≤ H)
    (hin : ∀ st, LoopState h input short st → st.buflen < 1000 →
      ∀ b rest, st.input = b :: rest → b < 128 ∨ b = 255) :
    (∀ st, LoopState h input short st → st.cmd.length ≤ H + 1000) ∧
      ∃ r, parseInput h input short = some r ∧ r.cmd.length ≤ H + 1000 := by
  have hi := reachable_inv h hr
  constructor
  · intro st hs
    have := (loopState_lineInv H h input short hi hH hin st hs).1
    omega
  · unfold parseInput
    exact parseLoop_lineInv H h input short hH hin _ _ LoopState.init
      ⟨by simp [parseInit], hi, rfl⟩ (by simp [parseInit])

theorem parseStep_backspace (st : ParseState) (rest : List Nat)
    (hin : st.input = 8 :: rest) (hc : st.cmd.length > 0) (hl : st.buflen < 1000) :
    parseStep st = .next { st with
      buf := Function.update st.buf st.buflen 8, input := rest,
      out := st.out ++ backspace 1, cmd := st.cmd.take (st.cmd.length - 1),
      buflen := if st.buflen > 0 then st.buflen - 1 else st.buflen,
      repeatFlag := false } := by
  unfold parseStep parseStepCap
  rw [hin]
  simp only [readInto, hin, Function.update_same, TELCODE_IAC, TELANSI_ESC, CR, LF,
    TELCODE_BACKSPACE]
  rw [if_neg (by omega), if_neg (by omega), if_neg (by omega), if_neg (by omega),
    if_neg (by omega)]
  simp only [if_true]
  rw [if_pos hc]

/-- Each byte 200 followed by a backspace leaves `buflen` at 0 and the line one
byte longer. -/
theorem parseLoop_highBackspace (n fuel : Nat) (st : ParseState) (rest : List Nat)
    (hin : st.input = highBackspace n ++ rest) (hb : st.buflen = 0) :
    ∃ st1, parseLoop (fuel + 2 * n) st = parseLoop fuel st1 ∧
      st1.cmd = st.cmd ++ List.replicate n 195 ∧ st1.buflen = 0 ∧
      st1.history = st.history ∧ st1.input = rest ∧
      st1.repeatFlag = (if n = 0 then st.repeatFlag else false) := by
  induction n generalizing st with
  | zero => exact ⟨st, rfl, by simp, hb, rfl, by simpa [highBackspace] using hin, by simp⟩
  | succ n ih =>
    have e : fuel + 2 * (n + 1) = (fuel + 2 * n + 1) + 1 := by omega
    have h200 : ordinary 200 := by unfold ordinary; decide
    rw [e, parseLoop_succ, if_pos (by omega),
      parseStep_ordinary st 200 (8 :: highBackspace n ++ rest) (by simpa [highBackspace] using hin)
        h200 (by omega)]
    simp only []
    rw [parseLoop_succ]
    simp only []
    rw [if_pos (by omega), parseStep_backspace _ (highBackspace n ++ rest) rfl
      (by simp [stringOfByte]) (by simp only []; omega)]
    simp only []
    obtain ⟨st1, e1, e2, e3, e4, e5, e6⟩ := ih
      { cmd := (st.cmd ++ stringOfByte 200).take ((st.cmd ++ stringOfByte 200).length - 1)
        repeatFlag := false
        buflen := if st.buflen + 1 > 0 then st.buflen + 1 - 1 else st.buflen + 1
        buf := Function.update (Function.update st.buf st.buflen 200) (st.buflen + 1) 8
        history := st.history
        out := st.out ++ [200] ++ backspace 1
        input := highBackspace n ++ rest
        short := st.short } rfl (by simp only []; rw [hb]; rfl)
    refine ⟨st1, e1, ?_, e3, e4, e5, ?_⟩
    · rw [e2]
      simp only [stringOfByte]
      have : (st.cmd ++ [195, 136]).take ((st.cmd ++ [195, 136]).length - 1) = st.cmd ++ [195] := by
        have e : st.cmd ++ [195, 136] = (st.cmd ++ [195]) ++ [136] := by simp
        rw [e, List.length_append, List.length_singleton, Nat.add_sub_cancel,
          List.take_left']
        rfl
      simp only [show ¬ (200 < 128) by decide, if_false, show 192 + 200 / 64 = 195 from rfl,
        show 128 + 200 % 64 = 136 from rfl]
      rw [this, List.append_assoc]
      rfl
    · rw [e6, if_neg (Nat.succ_ne_zero n)]; split_ifs <;> rfl

/-- The input left at the head of the read loop while `parseInput` reads `h`,
IAC DO ECHO, `i` and CR with a full read of the option bytes. -/
theorem sample_iac_heads (st : ParseState)
    (hs : LoopState cmdHistory.init [104, 255, 253, 1, 105, 13] [] st) :
    (st.input = [104, 255, 253, 1, 105, 13] ∨ st.input = [255, 253, 1, 105, 13] ∨
      st.input = [105, 13] ∨ st.input = [13]) ∧ st.short = [] := by
  induction hs with
  | init => exact ⟨Or.inl rfl, rfl⟩
  | step s s1 _ hl hstep ih =>
    obtain ⟨h1 | h2 | h3 | h4, hsh⟩ := ih
    · rw [parseStep_ordinary s 104 _ h1 (by unfold ordinary; decide) hl] at hstep
      have e := Step.next.inj hstep
      subst e
      exact ⟨Or.inr (Or.inl rfl), hsh⟩
    · obtain ⟨st1, f1, _, _, f4, _, _, _, f8⟩ := parseStep_iac s 253 1 [105, 13] h2 hl
        (by rw [hsh]; rfl)
      rw [f1] at hstep
      have e := Step.next.inj hstep
      subst e
      exact ⟨Or.inr (Or.inr (Or.inl f4)), by rw [f8, hsh]; rfl⟩
    · rw [parseStep_ordinary s 105 _ h3 (by unfold ordinary; decide) hl] at hstep
      have e := Step.next.inj hstep
      subst e
      exact ⟨Or.inr (Or.inr (Or.inr rfl)), hsh⟩
    · obtain ⟨st1, f1, _⟩ := parseStep_eol s 13 [] h4 (Or.inl rfl) hl
      rw [f1] at hstep
      exact Step.noConfusion hstep

/-- C10 (amended) on the initial history and the input `h`, IAC DO ECHO, `i`,
CR: the bytes read at the head of the loop are 104, 255, 105 and 13, the option
bytes 253 and 1 are read inside the IAC case. -/
theorem parseInput_line_bound_witness :
    (∀ st, LoopState cmdHistory.init [104, 255, 253, 1, 105, 13] [] st →
        st.cmd.length ≤ 0 + 1000) ∧
      ∃ r, parseInput cmdHistory.init [104, 255, 253, 1, 105, 13] [] = some r ∧
        r.cmd.length ≤ 0 + 1000 :=
  parseInput_line_bound cmdHistory.init [104, 255, 253, 1, 105, 13] [] 0 ⟨[], rfl⟩
    (fun _ => le_refl _)
    (fun st hs _ b rest hb => by
      rcases (sample_iac_heads st hs).1 with h | h | h | h <;>
        (rw [h] at hb; simp only [List.cons.injEq] at hb; omega))

set_option maxRecDepth 1000000 in
/-- C10 as stated fails.  With 7-bit input: after a line of 999 bytes has been
stored, recalling it with ESC `[` `A` and typing two more bytes gives a line of
1001 bytes.  From the initial history: 1001 times the byte 200 followed by a
backspace gives a line of 1001 bytes as well. -/
theorem parseInput_line_bound_counterexample :
    (∃ h r, setHistoryCmd cmdHistory.init (List.replicate 999 97) = some h ∧
      parseInput h [27, 91, 65, 97, 97, 13] [] = some r ∧ r.cmd.length = 1001) ∧
    (∃ r, parseInput cmdHistory.init (highBackspace 1001 ++ [13]) [] = some r ∧
      r.cmd.length = 1001) := by
  constructor
  · have key : ((setHistoryCmd cmdHistory.init (List.replicate 999 97)).bind fun h =>
        (parseInput h [27, 91, 65, 97, 97, 13] []).map fun r => r.cmd.length) = some 1001 := by
      decide
    cases h1 : setHistoryCmd cmdHistory.init (List.replicate 999 97) with
    | none => rw [h1] at key; simp at key
    | some h =>
      rw [h1] at key
      simp only [Option.some_bind, Option.map_eq_some'] at key
      obtain ⟨r, hr, hl⟩ := key
      exact ⟨h, r, rfl, hr, hl⟩
  · unfold parseInput
    have hlen : ∀ n, (highBackspace n).length = 2 * n := by
      intro n
      induction n with
      | zero => rfl
      | succ k ih => simp only [highBackspace, List.length_cons, ih]; omega
    have e : (highBackspace 1001 ++ [13]).length + 1 = (0 + 1 + 1) + 2 * 1001 := by
      rw [List.length_append, hlen]; rfl
    rw [e]
    obtain ⟨st1, e1, e2, e3, e4, e5, e6⟩ := parseLoop_highBackspace 1001 (0 + 1 + 1)
      (parseInit cmdHistory.init (highBackspace 1001 ++ [13]) []) [13] rfl rfl
    rw [e1, parseLoop_succ, if_pos (by omega)]
    obtain ⟨st2, g1, g2, g3, g4, g5, _⟩ := parseStep_eol st1 13 [] e5 (Or.inl rfl) (by omega)
    rw [g1]
    simp only []
    unfold parseOut
    have hr : st2.repeatFlag = false := by rw [g4, e6]; rfl
    rw [if_pos hr]
    obtain ⟨h1, f1, _⟩ := setHistoryCmd_inv st2.history st2.cmd (by
      rw [g5, e4]; exact init_inv)
    rw [f1]
    refine ⟨_, rfl, ?_⟩
    simp only [Option.map_some']
    rw [g2, e2]
    simp [parseInit]

theorem typed_ascii (s : List Nat) (h : ∀ b ∈ s, b < 128) : typed s = s := by
  induction s with
  | nil => rfl
  | cons a t ih =>
    have ha := h a (List.mem_cons_self _ _)
    simp only [typed, stringOfByte]
    rw [if_pos ha, ih (fun b hb => h b (List.mem_cons_of_mem _ hb))]
    rfl

/-- Fewer than 1000 ordinary bytes followed by CR or LF: every byte is echoed
once, then CR LF; the line returned holds `string(ch)` for each byte `ch`,
which is the byte itself below 128. -/
theorem parseInput_typed_line (h : cmdHistory) (s : List Nat) (t : Nat) (short : List Bool)
    (hi : HistInv h) (hs : s.length < 1000) (ho : ∀ b ∈ s, ordinary b)
    (ht : t = 13 ∨ t = 10) :
    ∃ r, parseInput h (s ++ [t]) short = some r ∧ r.cmd = typed s ∧ r.err = false ∧
      r.out = s ++ [13, 10] := by
  unfold parseInput
  have e : (s ++ [t]).length + 1 = (0 + 1 + 1) + s.length := by simp; omega
  rw [e]
  obtain ⟨st1, e1, e2, e3, e4, e5, e6, e7, _⟩ := parseLoop_typed s (0 + 1 + 1)
    (parseInit h (s ++ [t]) short) [t] rfl ho (by simp only [parseInit]; omega)
  rw [e1]
  have hb1 : st1.buflen < 1000 := by rw [e4]; simp only [parseInit]; omega
  obtain ⟨st3, g1, g2, g3, g4, g5, g6⟩ := parseStep_eol st1 t [] e7 ht hb1
  rw [parseLoop_succ, if_pos hb1, g1]
  simp only []
  have hr : st3.repeatFlag = false := by
    rw [g4, e3]; split_ifs <;> rfl
  unfold parseOut
  rw [if_pos hr]
  obtain ⟨h1, f1, _⟩ := setHistoryCmd_inv st3.history st3.cmd (by rw [g5, e5]; exact hi)
  rw [f1]
  refine ⟨_, rfl, ?_, rfl, ?_⟩
  · simp only [Option.map_some']; rw [g2, e2]; rfl
  · simp only [Option.map_some']; rw [g6, e6]; simp [parseInit]

theorem escCaseCap_safe (cap : Nat) (hcap : 1002 ≤ cap) (st : ParseState)
    (hi : HistInv st.history) (hl : st.buflen < 1000) :
    ∃ st1, escCaseCap cap st = .next st1 ∧ HistInv st1.history ∧
      st1.history.cmds = st.history.cmds ∧ st1.history.index = st.history.index ∧
      st1.input.length ≤ st.input.length ∧ st1.buflen ≤ st.buflen + 4 := by
  unfold escCaseCap
  simp only []
  rw [if_neg (by omega)]
  obtain ⟨a1, a2, a3, a4, a5, a6, a7⟩ :=
    readInto_fields { st with buflen := st.buflen + 1 } (st.buflen + 1)
  generalize readInto { st with buflen := st.buflen + 1 } (st.buflen + 1) = sA at *
  simp only [] at a1 a2 a3 a4 a5 a6 a7
  by_cases hk : sA.buf sA.buflen ≠ TELKEYBOARD
  · rw [if_pos hk]
    refine ⟨_, rfl, ?_, ?_, ?_, a6, ?_⟩
    · simp only []; rw [a4]; exact hi
    · simp only []; rw [a4]
    · simp only []; rw [a4]
    · simp only []; omega
  · rw [if_neg hk, if_neg (by rw [a3]; omega)]
    obtain ⟨b1, b2, b3, b4, b5, b6, b7⟩ :=
      readInto_fields { sA with buflen := sA.buflen + 1 } (sA.buflen + 1)
    generalize readInto { sA with buflen := sA.buflen + 1 } (sA.buflen + 1) = sB at *
    simp only [] at b1 b2 b3 b4 b5 b6 b7
    by_cases hud : sB.buf sB.buflen = TELKEY_UP ∨ sB.buf sB.buflen = TELKEY_DOWN
    · rw [if_pos hud]
      have hiB : HistInv sB.history := by rw [b4, a4]; exact hi
      obtain ⟨s, h1, e, hi1, hcm, hix⟩ := getHistoryCmd_inv sB.history (sB.buf sB.buflen) hiB
      rw [e]
      simp only []
      refine ⟨_, rfl, hi1, ?_, ?_, by simp only []; omega, by simp only []; omega⟩
      · simp only []; rw [hcm, b4, a4]
      · simp only []; rw [hix, b4, a4]
    · rw [if_neg hud]
      refine ⟨_, rfl, ?_, ?_, ?_, by simp only []; omega, by simp only []; omega⟩
      · simp only []; rw [b4, a4]; exact hi
      · simp only []; rw [b4, a4]
      · simp only []; rw [b4, a4]

/-- An iteration entered with `buflen < 1000` on a history satisfying the
invariant does not panic, even with a scratch buffer of only 1002 bytes. -/
theorem parseStepCap_safe (cap : Nat) (hcap : 1002 ≤ cap) (st : ParseState)
    (hi : HistInv st.history) (hl : st.buflen < 1000) :
    stepSafe st (parseStepCap cap st) := by
  unfold parseStepCap
  cases hin : st.input with
  | nil => simp [stepSafe]
  | cons b rest =>
    simp only []
    rw [if_neg (by omega)]
    have e1 : readInto st st.buflen =
        { st with buf := Function.update st.buf st.buflen b, input := rest } := by
      unfold readInto; rw [hin]
    rw [e1]
    simp only [Function.update_same]
    by_cases h255 : b = TELCODE_IAC
    · rw [if_pos h255, if_neg (by omega)]
      obtain ⟨a1, a2, a3, a4, a5, a6, a7⟩ := readTwo_fields
        { st with buf := Function.update st.buf st.buflen b, input := rest } (st.buflen + 1)
      generalize readTwo
        { st with buf := Function.update st.buf st.buflen b, input := rest } (st.buflen + 1) = sA at *
      simp only [] at a4 a6
      simp only [stepSafe, hin, List.length_cons]
      refine ⟨?_, ?_, ?_, by omega, by omega⟩
      · rw [a4]; exact hi
      · rw [a4]
      · rw [a4]
    rw [if_neg h255]
    by_cases h0 : b = 0
    · rw [if_pos h0]
      simp only [stepSafe, hin, List.length_cons]
      exact ⟨hi, trivial, trivial, by omega, by omega⟩
    rw [if_neg h0]
    by_cases h27 : b = TELANSI_ESC
    · rw [if_pos h27]
      obtain ⟨st1, e, g1, g2, g3, g4, g5⟩ := escCaseCap_safe cap hcap
        { st with buf := Function.update st.buf st.buflen b, input := rest } hi hl
      rw [e]
      simp only [stepSafe, hin, List.length_cons]
      simp only [] at g2 g3 g4 g5
      exact ⟨g1, g2, g3, by omega, g5⟩
    rw [if_neg h27]
    by_cases hcr : b = CR ∨ b = LF
    · rw [if_pos hcr]
      simp only [stepSafe, hin, List.length_cons]
      exact ⟨trivial, trivial, trivial, by omega⟩
    rw [if_neg hcr]
    by_cases h8 : b = TELCODE_BACKSPACE
    · rw [if_pos h8]
      by_cases hlen : st.cmd.length > 0
      · rw [if_pos hlen]
        simp only [stepSafe, hin, List.length_cons]
        refine ⟨hi, trivial, trivial, by omega, ?_⟩
        split_ifs <;> omega
      · rw [if_neg hlen]
        simp only [stepSafe, hin, List.length_cons]
        exact ⟨hi, trivial, trivial, by omega, by omega⟩
    rw [if_neg h8]
    by_cases h9 : b = TELCODE_TAB
    · rw [if_pos h9]
      simp only [stepSafe, hin, List.length_cons]
      exact ⟨hi, trivial, trivial, by omega, by omega⟩
    rw [if_neg h9]
    simp only [stepSafe, hin, List.length_cons]
    exact ⟨hi, trivial, trivial, by omega, by omega⟩

theorem parseStep_safe (st : ParseState) (hi : HistInv st.history) (hl : st.buflen < 1000) :
    stepSafe st (parseStep st) :=
  parseStepCap_safe 1024 (by omega) st hi hl

/-- The code at `out` returns a result when the history satisfies the
invariant. -/
theorem parseOut_total (st : ParseState) (hi : HistInv st.history) :
    ∃ r, parseOut st = some r ∧ r.cmd = st.cmd ∧ r.err = false ∧
      (st.repeatFlag = true ∨ TrimSpace st.cmd ≠ [] → r.history.cusor = r.history.index) ∧
      (st.repeatFlag = false → TrimSpace st.cmd = [] → r.history = st.history) ∧
      (st.repeatFlag = true → r.history = resetCusor st.history) := by
  unfold parseOut
  by_cases hr : st.repeatFlag = false
  · rw [if_pos hr]
    unfold setHistoryCmd
    by_cases hb : TrimSpace st.cmd = []
    · rw [if_pos hb]
      refine ⟨_, rfl, rfl, rfl, ?_, fun _ _ => rfl, fun h => ?_⟩
      · rintro (h | h)
        · rw [hr] at h; exact absurd h (by simp)
        · exact absurd hb h
      · rw [hr] at h; exact absurd h (by simp)
    · rw [if_neg hb]
      obtain ⟨h1, h2, h3⟩ := hi
      generalize hidx : (if st.history.index ≥ (MaxHistroyCmds : Int) then 0
        else st.history.index) = idx
      have hb2 : 0 ≤ idx ∧ idx < 200 := by
        rw [← hidx]; unfold MaxHistroyCmds; split_ifs <;> omega
      unfold cmdHistory.store
      rw [dif_pos hb2]
      refine ⟨_, rfl, rfl, rfl, fun _ => rfl, fun _ h => absurd h hb, fun h => ?_⟩
      rw [hr] at h; exact absurd h (by simp)
  · rw [if_neg hr]
    have hr' : st.repeatFlag = true := by simpa using hr
    exact ⟨_, rfl, rfl, rfl, fun _ => rfl, fun h => absurd h hr, fun _ => rfl⟩

/-- With a history satisfying the invariant and enough fuel, the read loop
returns a result. -/
theorem parseLoop_total (fuel : Nat) (st : ParseState) (hi : HistInv st.history)
    (hf : st.input.length < fuel) : ∃ r, parseLoop fuel st = some r := by
  induction fuel generalizing st with
  | zero => omega
  | succ n ih =>
    rw [parseLoop_succ]
    by_cases hl : st.buflen < 1000
    · rw [if_pos hl]
      have hs := parseStep_safe st hi hl
      cases hstep : parseStep st with
      | next st1 =>
        rw [hstep] at hs
        simp only [stepSafe] at hs ⊢
        exact ih st1 hs.1 (by omega)
      | out st1 =>
        rw [hstep] at hs
        simp only [stepSafe] at hs ⊢
        obtain ⟨r, e, _⟩ := parseOut_total st1 (by rw [hs.1]; exact hi)
        exact ⟨r, e⟩
      | readErr st1 => exact ⟨_, rfl⟩
      | panic =>
        rw [hstep] at hs
        exact hs.elim
    · rw [if_neg hl]
      obtain ⟨r, e, _⟩ := parseOut_total st hi
      exact ⟨r, e⟩

/-- The states at the head of the read loop: the history keeps its slots and
write index and satisfies the invariant, `buflen` is at most 1003, and the
rest of the run of `parseInput` is the read loop from that state. -/
theorem loopState_safe (h : cmdHistory) (input : List Nat) (short : List Bool)
    (hi : HistInv h) (st : ParseState) (hs : LoopState h input short st) :
    HistInv st.history ∧ st.history.cmds = h.cmds ∧ st.history.index = h.index ∧
      st.buflen ≤ 1003 ∧
      ∃ fuel, st.input.length < fuel ∧ parseInput h input short = parseLoop fuel st := by
  induction hs with
  | init =>
    exact ⟨hi, rfl, rfl, by simp [parseInit], input.length + 1, by simp [parseInit], rfl⟩
  | step s s1 _ hl hstep ih =>
    obtain ⟨i1, i2, i3, i4, fuel, hf, e⟩ := ih
    have hs := parseStep_safe s i1 hl
    rw [hstep] at hs
    simp only [stepSafe] at hs
    obtain ⟨g1, g2, g3, g4, g5⟩ := hs
    refine ⟨g1, g2.trans i2, g3.trans i3, by omega, fuel - 1, by omega, ?_⟩
    obtain ⟨n, rfl⟩ : ∃ n, fuel = n + 1 := ⟨fuel - 1, by omega⟩
    rw [e, parseLoop_succ, if_pos hl, hstep]
    rfl

theorem backspace_one : backspace 1 = [27, 91, 49, 68, 32, 27, 91, 49, 68] := by decide

theorem parseStep_backspace_empty (st : ParseState) (rest : List Nat)
    (hin : st.input = 8 :: rest) (hc : st.cmd = []) (hl : st.buflen < 1000) :
    parseStep st = .next { st with
      buf := Function.update st.buf st.buflen 8, input := rest, repeatFlag := false } := by
  unfold parseStep parseStepCap
  rw [hin]
  simp only [readInto, hin, Function.update_same, TELCODE_IAC, TELANSI_ESC, CR, LF,
    TELCODE_BACKSPACE]
  rw [if_neg (by omega), if_neg (by omega), if_neg (by omega), if_neg (by omega),
    if_neg (by omega)]
  simp only [if_true]
  rw [if_neg (by rw [hc]; simp)]

/-- A run of `k` backspaces removes the last `min k len(cmd)` bytes of the
line; each one received on a non-empty line writes the erase sequence, the
others write nothing. -/
theorem parseLoop_backspaces (k fuel : Nat) (st : ParseState) (rest : List Nat)
    (hin : st.input = List.replicate k 8 ++ rest) (hl : st.buflen < 1000) :
    ∃ st1, parseLoop (fuel + k) st = parseLoop fuel st1 ∧
      st1.cmd = st.cmd.take (st.cmd.length - k) ∧
      st1.out = st.out ++ erased (min k st.cmd.length) ∧
      st1.buflen ≤ st.buflen ∧ st1.history = st.history ∧ st1.input = rest ∧
      st1.repeatFlag = (if k = 0 then st.repeatFlag else false) := by
  induction k generalizing st with
  | zero =>
    exact ⟨st, rfl, by simp, by simp [erased], le_refl _, rfl, by simpa using hin, by simp⟩
  | succ n ih =>
    have e : fuel + (n + 1) = (fuel + n) + 1 := by omega
    have hin' : st.input = 8 :: (List.replicate n 8 ++ rest) := by
      rw [hin, List.replicate_succ]; rfl
    rw [e, parseLoop_succ, if_pos hl]
    by_cases hc : st.cmd.length > 0
    · rw [parseStep_backspace st _ hin' hc hl]
      simp only []
      obtain ⟨st1, e1, e2, e3, e4, e5, e6, e7⟩ := ih
        { st with
          buf := Function.update st.buf st.buflen 8, input := List.replicate n 8 ++ rest,
          out := st.out ++ backspace 1, cmd := st.cmd.take (st.cmd.length - 1),
          buflen := if st.buflen > 0 then st.buflen - 1 else st.buflen,
          repeatFlag := false } rfl (by simp only []; split_ifs <;> omega)
      simp only [] at e2 e3 e4 e5
      refine ⟨st1, e1, ?_, ?_, ?_, e5, e6, ?_⟩
      · rw [e2, List.take_take, List.length_take]
        congr 1
        omega
      · rw [e3, backspace_one, List.length_take, List.append_assoc]
        congr 1
        have : min (n + 1) st.cmd.length = min n (min (st.cmd.length - 1) st.cmd.length) + 1 := by
          omega
        rw [this]
        rfl
      · have : (if st.buflen > 0 then st.buflen - 1 else st.buflen) ≤ st.buflen := by
          split_ifs <;> omega
        omega
      · rw [e7, if_neg (Nat.succ_ne_zero n)]; split_ifs <;> rfl
    · have hc0 : st.cmd = [] := List.length_eq_zero.mp (by omega)
      rw [parseStep_backspace_empty st _ hin' hc0 hl]
      simp only []
      obtain ⟨st1, e1, e2, e3, e4, e5, e6, e7⟩ := ih
        { st with
          buf := Function.update st.buf st.buflen 8, input := List.replicate n 8 ++ rest,
          repeatFlag := false } rfl hl
      simp only [] at e2 e3 e4 e5
      refine ⟨st1, e1, ?_, ?_, e4, e5, e6, ?_⟩
      · rw [e2, hc0]; simp
      · rw [e3, hc0]; simp
      · rw [e7, if_neg (Nat.succ_ne_zero n)]; split_ifs <;> rfl

/-- C11: for printable ASCII bytes `s` (fewer than 1000), `k` backspaces and a
terminator, `parseInput` returns `s` without its last `min k len(s)` bytes;
the bytes written are `s`, then one erase sequence ESC `[` `1` `D`, space,
ESC `[` `1` `D` for each backspace received on a non-empty line and nothing
for the others, then CR LF. -/
theorem parseInput_backspaces (h : cmdHistory) (hr : Reachable h) (s : List Nat) (k t : Nat)
    (short : List Bool) (hs : s.length < 1000) (hp : ∀ b ∈ s, 32 ≤ b ∧ b ≤ 126)
    (ht : t = 13 ∨ t = 10) :
    ∃ r, parseInput h (s ++ List.replicate k 8 ++ [t]) short = some r ∧
      r.cmd = s.take (s.length - min k s.length) ∧ r.err = false ∧
      r.out = s ++ erased (min k s.length) ++ [13, 10] := by
  have hi := reachable_inv h hr
  have ho : ∀ b ∈ s, ordinary b := by
    intro b hb; have := hp b hb; unfold ordinary; omega
  have hty : typed s = s := typed_ascii s (fun b hb => by have := hp b hb; omega)
  unfold parseInput
  have e : (s ++ List.replicate k 8 ++ [t]).length + 1 = (0 + 1 + 1) + k + s.length := by
    simp; omega
  rw [e]
  obtain ⟨st1, e1, e2, e3, e4, e5, e6, e7, _⟩ := parseLoop_typed s (0 + 1 + 1 + k)
    (parseInit h (s ++ List.replicate k 8 ++ [t]) short) (List.replicate k 8 ++ [t])
    (by simp [parseInit]) ho (by simp only [parseInit]; omega)
  rw [e1]
  have hb1 : st1.buflen < 1000 := by rw [e4]; simp only [parseInit]; omega
  obtain ⟨st2, f1, f2, f3, f4, f5, f6, f7⟩ := parseLoop_backspaces k (0 + 1 + 1) st1 [t] e7 hb1
  rw [f1]
  obtain ⟨st3, g1, g2, g3, g4, g5, g6⟩ := parseStep_eol st2 t [] f6 ht (by omega)
  rw [parseLoop_succ, if_pos (by omega), g1]
  simp only []
  have hrf : st3.repeatFlag = false := by
    rw [g4, f7, e3]; split_ifs <;> rfl
  obtain ⟨r, q1, q2, q3, _⟩ := parseOut_total st3 (by rw [g5, f5, e5]; exact hi)
  have hcmd : st1.cmd = s := by rw [e2, hty]; simp [parseInit]
  refine ⟨r, q1, ?_, q3, ?_⟩
  · rw [q2, g2, f2, hcmd]
    congr 1
    omega
  · have hout : r.out = st3.out := by
      unfold parseOut at q1
      rw [if_pos hrf] at q1
      cases hset : setHistoryCmd st3.history st3.cmd with
      | none => rw [hset] at q1; simp at q1
      | some h1 =>
        rw [hset] at q1
        simp only [Option.map_some', Option.some.injEq] at q1
        rw [← q1]
    rw [hout, g6, f3, e6, hcmd]
    simp [parseInit]

/-- C11 on `abc`, five backspaces and CR: the line returned is empty and three
erase sequences are written. -/
theorem parseInput_backspaces_witness :
    ∃ r, parseInput cmdHistory.init ([97, 98, 99] ++ List.replicate 5 8 ++ [13]) [] = some r ∧
      r.cmd = [97, 98, 99].take ([97, 98, 99].length - min 5 [97, 98, 99].length) ∧
      r.err = false ∧
      r.out = [97, 98, 99] ++ erased (min 5 [97, 98, 99].length) ++ [13, 10] :=
  parseInput_backspaces cmdHistory.init ⟨[], rfl⟩ [97, 98, 99] 5 13 [] (by decide) (by decide)
    (Or.inl rfl)

theorem historyA_stored : setHistoryCmd cmdHistory.init [97] = some historyA := by
  unfold setHistoryCmd
  rw [if_neg (by decide)]
  rfl

theorem historyA_reachable : Reachable historyA :=
  ⟨[HistOp.set [97]], by simp [runOps, HistOp.apply, historyA_stored]⟩

/-- The escape sequence ESC `[` `A` or ESC `[` `B`: the line is replaced by the
recalled entry and `repeat` is set. -/
theorem parseStep_recall (st : ParseState) (a : Nat) (rest : List Nat) (ccmd : GoString)
    (h1 : cmdHistory) (hin : st.input = 27 :: 91 :: a :: rest) (ha : a = 65 ∨ a = 66)
    (hl : st.buflen < 1000) (hg : getHistoryCmd st.history a = some (ccmd, h1)) :
    ∃ st1, parseStep st = .next st1 ∧ st1.cmd = ccmd ∧ st1.repeatFlag = true ∧
      st1.buflen = st.buflen + 4 ∧ st1.history = h1 ∧ st1.input = rest ∧
      st1.out = st.out ++ (if st.cmd.length > 0 then backspace st.cmd.length else []) ++ ccmd := by
  unfold parseStep parseStepCap
  rw [hin]
  simp only [readInto, hin, Function.update_same, TELCODE_IAC, TELANSI_ESC]
  rw [if_neg (by omega), if_neg (by omega), if_neg (by omega)]
  simp only [if_true]
  unfold escCaseCap
  simp only [readInto, Function.update_same, TELKEYBOARD, TELKEY_UP, TELKEY_DOWN]
  rw [if_neg (by omega), if_neg (by simp), if_neg (by omega), if_pos ha, hg]
  exact ⟨_, rfl, rfl, rfl, rfl, rfl, rfl, rfl⟩

/-- C12: on a reachable history, after at most 900 ordinary bytes, ESC `[` `A`
or ESC `[` `B` followed by a terminator makes `parseInput` return exactly the
entry that the history recall yields; no slot and not the write index of the
history changes, and the cursor ends on the write index. -/
theorem parseInput_recall (h : cmdHistory) (hr : Reachable h) (p : List Nat) (a t : Nat)
    (short : List Bool) (hp : p.length ≤ 900) (ho : ∀ b ∈ p, ordinary b)
    (ha : a = 65 ∨ a = 66) (ht : t = 13 ∨ t = 10) :
    ∃ r s h1, getHistoryCmd h a = some (s, h1) ∧
      parseInput h (p ++ [27, 91, a] ++ [t]) short = some r ∧ r.cmd = s ∧ r.err = false ∧
      r.history.cmds = h.cmds ∧ r.history.index = h.index ∧
      r.history.cusor = r.history.index := by
  have hi := reachable_inv h hr
  obtain ⟨s, h1, hg, hi1, hcm, hix⟩ := getHistoryCmd_inv h a hi
  unfold parseInput
  have e : (p ++ [27, 91, a] ++ [t]).length + 1 = (3 + 1 + 1) + p.length := by simp; omega
  rw [e]
  obtain ⟨st1, e1, e2, e3, e4, e5, e6, e7, _⟩ := parseLoop_typed p (3 + 1 + 1)
    (parseInit h (p ++ [27, 91, a] ++ [t]) short) [27, 91, a, t] (by simp [parseInit]) ho
    (by simp only [parseInit]; omega)
  rw [e1]
  have hb1 : st1.buflen < 1000 := by rw [e4]; simp only [parseInit]; omega
  have hh1 : st1.history = h := by rw [e5]; rfl
  obtain ⟨st2, f1, f2, f3, f4, f5, f6, _⟩ := parseStep_recall st1 a [t] s h1 e7 ha hb1
    (by rw [hh1]; exact hg)
  rw [parseLoop_succ, if_pos hb1, f1]
  simp only []
  have hb2 : st2.buflen < 1000 := by rw [f4, e4]; simp only [parseInit]; omega
  obtain ⟨st3, g1, g2, g3, g4, g5, _⟩ := parseStep_eol st2 t [] f6 ht hb2
  rw [parseLoop_succ, if_pos hb2, g1]
  simp only []
  have hrf : st3.repeatFlag = true := by rw [g4, f3]
  unfold parseOut
  rw [if_neg (by rw [hrf]; simp)]
  refine ⟨_, s, h1, hg, rfl, ?_, rfl, ?_, ?_, rfl⟩
  · simp only []; rw [g2, f2]
  · simp only [resetCusor]; rw [g5, f5, hcm]
  · simp only [resetCusor]; rw [g5, f5, hix]

/-- C12 on the history that holds the line `a`: typing `x` and then ESC `[`
`A` and CR returns the recalled line `a`; the slots are unchanged and the write
index is still 1, so the recalled line has not been stored a second time, and
the cursor ends on the write index. -/
theorem parseInput_recall_witness :
    ∃ r, parseInput historyA ([120] ++ [27, 91, 65] ++ [13]) [] = some r ∧ r.cmd = [97] ∧
      r.err = false ∧ r.history.cmds = historyA.cmds ∧ r.history.index = 1 ∧
      r.history.cusor = 1 := by
  obtain ⟨r, s, h1, hg, hp, hc, he, hcm, hix, hcu⟩ :=
    parseInput_recall historyA historyA_reachable [120] 65 13 [] (by decide)
      (by unfold ordinary; decide) (Or.inl rfl) (Or.inl rfl)
  have hs : s = [97] := by
    have k : (getHistoryCmd historyA 65).map Prod.fst = some [97] := by decide
    rw [hg] at k
    exact Option.some.inj k
  exact ⟨r, hp, hc.trans hs, he, hcm, hix, hcu.trans hix⟩

/-- C13 (amended): on a reachable history, when `parseInput` completes a line
by reading CR or LF it returns that line without error, and the browse cursor
equals the write index on return provided the line is a recalled one (`repeat`
is true) or is not blank; a blank line that is not a recalled one leaves the
history, cursor included, as the read loop left it. -/
theorem parseInput_cursor_reset (h : cmdHistory) (hr : Reachable h) (input : List Nat)
    (short : List Bool) (st st1 : ParseState) (hs : LoopState h input short st)
    (hl : st.buflen < 1000) (hstep : parseStep st = .out st1) :
    ∃ r, parseInput h input short = some r ∧ r.err = false ∧ r.cmd = st1.cmd ∧
      ((st1.repeatFlag = true ∨ TrimSpace st1.cmd ≠ []) →
        r.history.cusor = r.history.index) ∧
      (st1.repeatFlag = false → TrimSpace st1.cmd = [] → r.history = st1.history) := by
  have hi := reachable_inv h hr
  obtain ⟨i1, _, _, _, fuel, hf, e⟩ := loopState_safe h input short hi st hs
  have hsafe := parseStep_safe st i1 hl
  rw [hstep] at hsafe
  simp only [stepSafe] at hsafe
  obtain ⟨n, rfl⟩ : ∃ n, fuel = n + 1 := ⟨fuel - 1, by omega⟩
  obtain ⟨r, q1, q2, q3, q5, q6, _⟩ := parseOut_total st1 (by rw [hsafe.1]; exact i1)
  refine ⟨r, ?_, q3, q2, q5, q6⟩
  rw [e, parseLoop_succ, if_pos hl, hstep]
  exact q1

/-- C13 (amended) on the initial history and the input `a`, CR: the line is not
blank and the cursor ends on the write index. -/
theorem parseInput_cursor_reset_witness :
    ∃ r, parseInput cmdHistory.init [97, 13] [] = some r ∧ r.err = false ∧
      r.history.cusor = r.history.index := by
  have h1 := parseStep_ordinary (parseInit cmdHistory.init [97, 13] []) 97 [13] rfl
    (by unfold ordinary; decide) (by decide)
  obtain ⟨st3, g1, g2, _⟩ := parseStep_eol _ 13 [] rfl (Or.inl rfl)
    (show ({ parseInit cmdHistory.init [97, 13] [] with
      buf := Function.update (parseInit cmdHistory.init [97, 13] []).buf
        (parseInit cmdHistory.init [97, 13] []).buflen 97
      input := [13]
      cmd := (parseInit cmdHistory.init [97, 13] []).cmd ++ stringOfByte 97
      repeatFlag := false
      out := (parseInit cmdHistory.init [97, 13] []).out ++ [97]
      buflen := (parseInit cmdHistory.init [97, 13] []).buflen + 1 } : ParseState).buflen < 1000
      by decide)
  obtain ⟨r, e, q1, q2, q3, _⟩ := parseInput_cursor_reset cmdHistory.init ⟨[], rfl⟩ [97, 13] [] _ st3
    (LoopState.step _ _ LoopState.init (by decide) h1) (by decide) g1
  refine ⟨r, e, q1, q3 (Or.inr ?_)⟩
  rw [g2]
  decide

/-- C13 as stated fails: with the line `a` in the history, ESC `[` `A`, a
backspace and CR complete an empty line that is not a recalled one; the cursor
is left at 0 while the write index is 1. -/
theorem parseInput_cursor_reset_counterexample :
    ∃ h r, setHistoryCmd cmdHistory.init [97] = some h ∧
      parseInput h [27, 91, 65, 8, 13] [] = some r ∧ r.err = false ∧ r.cmd = [] ∧
      r.history.cusor = 0 ∧ r.history.index = 1 := by
  have key : ((setHistoryCmd cmdHistory.init [97]).bind fun h =>
      (parseInput h [27, 91, 65, 8, 13] []).map fun r =>
        (r.err, r.cmd, r.history.cusor, r.history.index)) = some (false, [], 0, 1) := by
    decide
  cases h1 : setHistoryCmd cmdHistory.init [97] with
  | none => rw [h1] at key; simp at key
  | some h =>
    rw [h1] at key
    simp only [Option.some_bind, Option.map_eq_some', Prod.mk.injEq] at key
    obtain ⟨r, hr, a1, a2, a3, a4⟩ := key
    exact ⟨h, r, rfl, hr, a1, a2, a3, a4⟩

/-- C17: in every reachable history state `0 ≤ cusor ≤ index ≤ 200`; the slot
that `setHistoryCmd` writes has an index from 0 to 199 and the call does not
panic, and `getHistoryCmd` reads a slot in range and does not panic. -/
theorem history_access_in_bounds (h : cmdHistory) (hr : Reachable h) :
    (0 ≤ h.cusor ∧ h.cusor ≤ h.index ∧ h.index ≤ 200) ∧
      (0 ≤ (if h.index ≥ (MaxHistroyCmds : Int) then 0 else h.index) ∧
        (if h.index ≥ (MaxHistroyCmds : Int) then 0 else h.index) < 200) ∧
      (∀ cmd, ∃ h1, setHistoryCmd h cmd = some h1) ∧
      (∀ key, ∃ s h1, getHistoryCmd h key = some (s, h1)) := by
  have hi := reachable_inv h hr
  refine ⟨hi, ?_, ?_, ?_⟩
  · obtain ⟨h1, h2, h3⟩ := hi
    unfold MaxHistroyCmds
    split_ifs <;> omega
  · intro cmd
    obtain ⟨h1, e, _⟩ := setHistoryCmd_inv h cmd hi
    exact ⟨h1, e⟩
  · intro key
    obtain ⟨s, h1, e, _⟩ := getHistoryCmd_inv h key hi
    exact ⟨s, h1, e⟩

/-- C17 on the initial history. -/
theorem history_access_in_bounds_witness :
    (0 ≤ cmdHistory.init.cusor ∧ cmdHistory.init.cusor ≤ cmdHistory.init.index ∧
        cmdHistory.init.index ≤ 200) ∧
      (0 ≤ (if cmdHistory.init.index ≥ (MaxHistroyCmds : Int) then 0
          else cmdHistory.init.index) ∧
        (if cmdHistory.init.index ≥ (MaxHistroyCmds : Int) then 0
          else cmdHistory.init.index) < 200) ∧
      (∀ cmd, ∃ h1, setHistoryCmd cmdHistory.init cmd = some h1) ∧
      (∀ key, ∃ s h1, getHistoryCmd cmdHistory.init key = some (s, h1)) :=
  history_access_in_bounds cmdHistory.init ⟨[], rfl⟩

/-- C18: on a reachable history and any input, `parseInput` returns (no slice
of its 1024-byte buffer is out of range); at the head of the loop `buflen`
never exceeds 1003, a read takes place there only with `buflen ≤ 999`, and
the iteration entered then does not fail even with a buffer of 1002 bytes,
so the reads of the ESC and IAC cases stay below index 1002. -/
theorem parseInput_buffer_bounds (h : cmdHistory) (hr : Reachable h) (input : List Nat)
    (short : List Bool) :
    (∃ r, parseInput h input short = some r) ∧
      ∀ st, LoopState h input short st → st.buflen ≤ 1003 ∧
        (st.buflen < 1000 → st.buflen ≤ 999 ∧ st.buflen + 3 ≤ 1002 ∧
          ∀ cap, 1002 ≤ cap → parseStepCap cap st ≠ Step.panic) := by
  have hi := reachable_inv h hr
  constructor
  · unfold parseInput
    exact parseLoop_total _ _ hi (by simp [parseInit])
  · intro st hs
    obtain ⟨i1, _, _, i4, _⟩ := loopState_safe h input short hi st hs
    refine ⟨i4, fun hl => ⟨by omega, by omega, fun cap hcap hp => ?_⟩⟩
    have := parseStepCap_safe cap hcap st i1 hl
    rw [hp] at this
    exact this

/-- C18 on the initial history and the input ESC `[` `A`, CR. -/
theorem parseInput_buffer_bounds_witness :
    (∃ r, parseInput cmdHistory.init [27, 91, 65, 13] [] = some r) ∧
      ∀ st, LoopState cmdHistory.init [27, 91, 65, 13] [] st → st.buflen ≤ 1003 ∧
        (st.buflen < 1000 → st.buflen ≤ 999 ∧ st.buflen + 3 ≤ 1002 ∧
          ∀ cap, 1002 ≤ cap → parseStepCap cap st ≠ Step.panic) :=
  parseInput_buffer_bounds cmdHistory.init ⟨[], rfl⟩ [27, 91, 65, 13] []

theorem read_cmds (h h1 : cmdHistory) (e : h1.cmds = h.cmds) (c : Int) : h1.read c = h.read c := by
  unfold cmdHistory.read
  rw [e]

/-- Consecutive `getHistoryCmd(TELKEY_UP)` calls cycle through the slots below
the write index `w`. -/
theorem recallUp_cycle (j : Nat) (h : cmdHistory) (c w : Nat) (hidx : h.index = w)
    (hc : h.cusor = c) (hcw : c ≤ w) (hw1 : 1 ≤ w) (hw2 : w ≤ 200) :
    recallUp h j = h.read ((w - 1 - (j + (w - c)) % w : Nat) : Int) := by
  have hup : ∀ (h : cmdHistory) (c : Nat), h.index = w → h.cusor = c → c ≤ w →
      getHistoryCmd h TELKEY_UP =
        (h.read ((if c = 0 then w - 1 else c - 1 : Nat) : Int)).map fun s =>
          (s, { h with cusor := ((if c = 0 then w - 1 else c - 1 : Nat) : Int) }) := by
    intro h c hidx hc hcw
    unfold getHistoryCmd
    rw [if_pos rfl]
    simp only []
    have e : (if h.cusor - 1 < 0 then (if h.index > 0 then h.index - 1 else 0)
        else h.cusor - 1) = ((if c = 0 then w - 1 else c - 1 : Nat) : Int) := by
      rw [hidx, hc]; split_ifs <;> omega
    rw [e]
  have hrd : ∀ (h : cmdHistory) (n : Nat), n < 200 →
      ∃ s, h.read (n : Int) = some s := by
    intro h n hn
    unfold cmdHistory.read
    rw [dif_pos ⟨by omega, by omega⟩]
    exact ⟨_, rfl⟩
  have hmod : ∀ x, x % w < w := fun x => Nat.mod_lt x (by omega)
  induction j generalizing h c with
  | zero =>
    unfold recallUp
    rw [hup h c hidx hc hcw]
    have e : (if c = 0 then w - 1 else c - 1) = w - 1 - (0 + (w - c)) % w := by
      by_cases h0 : c = 0
      · subst h0; simp
      · rw [if_neg h0, Nat.zero_add, Nat.mod_eq_of_lt (by omega)]; omega
    rw [e]
    cases h.read ((w - 1 - (0 + (w - c)) % w : Nat) : Int) <;> rfl
  | succ n ih =>
    unfold recallUp
    rw [hup h c hidx hc hcw]
    generalize hc' : (if c = 0 then w - 1 else c - 1) = c' at *
    have hc'w : c' < w := by rw [← hc']; split_ifs <;> omega
    obtain ⟨s, hs⟩ := hrd h c' (by omega)
    rw [hs]
    simp only [Option.map_some', Option.some_bind]
    rw [ih { h with cusor := (c' : Int) } c' hidx rfl (by omega)]
    have e : (n + (w - c')) % w = (n + 1 + (w - c)) % w := by
      by_cases h0 : c = 0
      · subst h0
        have : c' = w - 1 := by rw [← hc']; simp
        rw [this]
        have e1 : n + (w - (w - 1)) = n + 1 := by omega
        have e2 : n + 1 + (w - 0) = n + 1 + w := by omega
        rw [e1, e2, Nat.add_mod_right]
      · have : c' = c - 1 := by rw [← hc', if_neg h0]
        rw [this]
        have e3 : n + (w - (c - 1)) = n + 1 + (w - c) := by omega
        rw [e3]
    rw [e]
    exact read_cmds _ h rfl _

/-- C19: after pushing `k ≥ 1` non-blank lines onto the initial history, with
`w = ((k - 1) mod 200) + 1`, the `m`-th consecutive `getHistoryCmd(TELKEY_UP)`
returns the line number `k - ((m - 1) mod w)`: the recalls cycle through the
last `w` lines only. -/
theorem recallUp_cycles (ls : List GoString) (hne : ls ≠ [])
    (hnb : ∀ l ∈ ls, TrimSpace l ≠ []) (m : Nat) (h1 : 1 ≤ m) :
    ∃ h, pushAll cmdHistory.init ls = some h ∧
      recallUp h (m - 1) =
        some (ls.getD (ls.length - 1 - (m - 1) % ((ls.length - 1) % 200 + 1)) []) := by
  obtain ⟨h, e, hidx, hcus, hslots⟩ := pushAll_spec ls hnb
  have hk : ls.length ≠ 0 := by
    intro h0; exact hne (List.length_eq_zero.mp h0)
  have hm : m - 1 + 1 = m := by omega
  have hr : ringIndex ls.length = (ls.length - 1) % 200 + 1 := by
    unfold ringIndex; rw [if_neg hk]
  rw [← hr]
  have hr200 : ringIndex ls.length ≤ 200 := by rw [hr]; omega
  have hr1 : 1 ≤ ringIndex ls.length := by rw [hr]; omega
  have hlen : (ls.length - 1) % 200 ≤ ls.length - 1 := Nat.mod_le _ _
  have hrk : ringIndex ls.length ≤ ls.length := by rw [hr]; omega
  refine ⟨h, e, ?_⟩
  rw [recallUp_cycle (m - 1) h (ringIndex ls.length) (ringIndex ls.length) hidx hcus (le_refl _)
    hr1 hr200]
  have hmod : (m - 1) % ringIndex ls.length < ringIndex ls.length := Nat.mod_lt _ (by omega)
  rw [Nat.sub_self, Nat.add_zero]
  generalize (m - 1) % ringIndex ls.length = x at hmod
  unfold cmdHistory.read
  rw [dif_pos ⟨by omega, by omega⟩]
  have e4 : (⟨((ringIndex ls.length - 1 - x : Nat) : Int).toNat, by omega⟩ : Fin 200) =
      ⟨ringIndex ls.length - 1 - x, by omega⟩ := Fin.ext (by simp)
  rw [e4, hslots (ringIndex ls.length - 1 - x) (by omega) (by omega)]
  have e3 : ls.length - ringIndex ls.length + (ringIndex ls.length - 1 - x) =
      ls.length - 1 - x := by omega
  rw [e3]

/-- C19 on 205 lines: the 6th consecutive UP recall returns the 205th line
again. -/
theorem recallUp_cycles_witness :
    ∃ h, pushAll cmdHistory.init sampleLines = some h ∧
      recallUp h 5 = some [50, 48, 53] := by
  obtain ⟨h, e, r⟩ := recallUp_cycles sampleLines sampleLines_ne sampleLines_nonblank 6
    (by decide)
  rw [sampleLines_length] at r
  exact ⟨h, e, r.trans (congrArg some sampleLines_last.1)⟩

theorem trimLeftAux_asciiSpace (s : GoString) (h : ∀ b ∈ s, asciiSpace b) (fuel : Nat) :
    TrimLeftFuncAux IsSpace fuel s = [] := by
  induction s generalizing fuel with
  | nil => cases fuel <;> simp [TrimLeftFuncAux]
  | cons b t ih =>
    cases fuel with
    | zero => rfl
    | succ n =>
      have hb := h b (List.mem_cons_self _ _)
      unfold TrimLeftFuncAux
      rw [if_neg (by simp), decode_ascii b t (asciiSpace_lt b hb)]
      simp only []
      rw [if_pos (asciiSpace_isSpace b hb)]
      exact ih (fun x hx => h x (List.mem_cons_of_mem _ hx)) n

theorem trimSpace_asciiSpace (s : GoString) (h : ∀ b ∈ s, asciiSpace b) : TrimSpace s = [] := by
  unfold TrimSpace TrimLeftFunc
  rw [trimLeftAux_asciiSpace s h]
  decide

/-- C14: on a line that is empty or consists of ASCII white space only,
`splitBuff` returns exactly one token, the empty string. -/
theorem splitBuff_whitespace (line : GoString) (h : ∀ b ∈ line, asciiSpace b) :
    splitBuff line = some [[]] := by
  rw [splitBuff_lex, trimLine_eq, trimSpace_asciiSpace line h]
  rfl

/-- C14 on the line of a space, a tab, CR and LF. -/
theorem splitBuff_whitespace_witness : splitBuff [32, 9, 13, 10] = some [[]] :=
  splitBuff_whitespace [32, 9, 13, 10] (by
    intro b hb
    simp only [List.mem_cons, List.mem_singleton, List.not_mem_nil, or_false] at hb
    unfold asciiSpace
    omega)

theorem decodeLast_ascii_last (front : GoString) (b : Nat) (hb : b < 0x80) :
    DecodeLastRuneInString (front ++ [b]) = (b, 1) := by
  have hne : front ++ [b] ≠ [] := by simp
  have hl : (front ++ [b]).getD ((front ++ [b]).length - 1) 0 = b := by
    simp [List.getD_eq_getElem?_getD]
  obtain ⟨_, _, h3⟩ := decodeLast_shape (front ++ [b]) hne
  rw [hl] at h3
  rcases h3 with ⟨_, h3⟩ | ⟨h3, h4, _⟩
  · exact h3
  · exfalso
    generalize hd : DecodeLastRuneInString (front ++ [b]) = d at *
    have hsz := (decodeLast_shape (front ++ [b]) hne)
    rw [hd] at hsz
    obtain ⟨s1, s2, _⟩ := hsz
    by_cases h1 : d.2 = 1
    · rw [h1, hl] at h3; omega
    · have hdrop : (front ++ [b]).length - d.2 < (front ++ [b]).length := by omega
      have hcons := drop_eq_getD_cons (front ++ [b]) _ hdrop
      have hc := decode_cont ((front ++ [b]).getD ((front ++ [b]).length - d.2) 0)
        ((front ++ [b]).drop ((front ++ [b]).length - d.2 + 1)) (d.2 - 1) (by omega)
        (by rw [← hcons, h4]; omega)
      rw [← hcons, List.getD_eq_getElem?_getD, List.getElem?_drop,
        ← List.getD_eq_getElem?_getD] at hc
      have e : (front ++ [b]).length - d.2 + (d.2 - 1) = (front ++ [b]).length - 1 := by omega
      rw [e, hl] at hc
      omega

/-- A string without white space followed by an ASCII byte does not start with
a white space rune. -/
theorem decode_noWhitespace_ascii (pre rest : GoString) (b : Nat) (hb : b < 0x80)
    (hne : pre ≠ []) (h : noWhitespace pre) :
    IsSpace (DecodeRuneInString (pre ++ b :: rest)).1 = false := by
  by_contra hc
  have hc : IsSpace (DecodeRuneInString (pre ++ b :: rest)).1 = true := by simpa using hc
  have hw := decode_space _ hc
  generalize (DecodeRuneInString (pre ++ b :: rest)).2 = k at hw
  have hsplit := (List.take_append_drop k (pre ++ b :: rest)).symm
  generalize (pre ++ b :: rest).take k = w at hw hsplit
  generalize (pre ++ b :: rest).drop k = d at hsplit
  obtain ⟨hwne, hsh⟩ := enc_shape w hw
  rcases List.append_eq_append_iff.mp hsplit with ⟨c, hc1, hc2⟩ | ⟨c, hc1, hc2⟩
  · cases c with
    | nil => exact h w hw ⟨[], [], by simpa using hc1⟩
    | cons x c' =>
      have hx : x = b := by
        have := congrArg List.head? hc2
        simpa using this.symm
      subst hx
      rcases hsh with ⟨y, hy, _⟩ | ⟨_, hall⟩
      · rw [hy] at hc1
        have := congrArg List.length hc1
        have hp : 0 < pre.length := List.length_pos.mpr hne
        simp at this
        omega
      · have := hall x (by rw [hc1]; simp)
        omega
  · exact h w hw ⟨[], c, by simpa using hc1.symm⟩

/-- A string that does not end in white space, preceded by an ASCII byte that
is not white space, does not end with a white space rune. -/
theorem decodeLast_noTrailingSpace (front post : GoString) (b : Nat) (hb : b < 0x80)
    (hbs : ¬ asciiSpace b) (h : noTrailingSpace post) :
    IsSpace (DecodeLastRuneInString (front ++ b :: post)).1 = false := by
  by_contra hc
  have hc : IsSpace (DecodeLastRuneInString (front ++ b :: post)).1 = true := by
    simpa using hc
  obtain ⟨a, w, hsplit, hw, _⟩ := decodeLast_space _ hc
  obtain ⟨hwne, hsh⟩ := enc_shape w hw
  have hsplit' : (front ++ [b]) ++ post = a ++ w := by simpa using hsplit
  rcases List.append_eq_append_iff.mp hsplit' with ⟨c, hc1, hc2⟩ | ⟨c, hc1, hc2⟩
  · exact h w hw ⟨c, hc2.symm⟩
  · cases hcl : c.reverse with
    | nil =>
      have : c = [] := by simpa using hcl
      subst this
      exact h w hw ⟨[], by rw [hc2]; simp⟩
    | cons x c' =>
      have hce : c = c'.reverse ++ [x] := by
        have := congrArg List.reverse hcl
        simpa using this
      subst hce
      have hx : x = b := by
        have := congrArg List.getLast? hc1
        simpa using this.symm
      subst hx
      rcases hsh with ⟨y, hy, hys⟩ | ⟨_, hall⟩
      · rw [hy] at hc2
        have hlen := congrArg List.length hc2
        simp only [List.length_singleton, List.length_append] at hlen
        have hc'0 : c' = [] := by
          apply List.length_eq_zero.mp
          have := List.length_reverse c'
          omega
        have hp0 : post = [] := List.length_eq_zero.mp (by omega)
        subst hc'0 hp0
        simp only [List.reverse_nil, List.nil_append, List.append_nil, List.cons.injEq,
          and_true] at hc2
        exact hbs (hc2 ▸ hys)
      · have := hall x (by rw [hc2]; simp)
        omega

theorem noWhitespace_noTrailing (s : GoString) (h : noWhitespace s) : noTrailingSpace s :=
  fun w hw hs => h w hw hs.isInfix

theorem lex_skip_append (w rest : GoString) (h : ∀ b ∈ w, b ≠ bspace ∧ b ≠ bcomma) :
    lex .skip (w ++ rest) = lex .skip rest := by
  induction w with
  | nil => rfl
  | cons a t ih =>
    have ha := h a (List.mem_cons_self _ _)
    rw [List.cons_append]
    conv_lhs => unfold lex
    rw [if_neg ha.1, if_neg ha.2, ih (fun b hb => h b (List.mem_cons_of_mem _ hb))]

/-- C15: `splitBuff` never slices out of range: on every line it returns a
token list (a slice expression out of range would make it `none`), also on a
line that ends on an opening double quote or has an unterminated quote; and
for a non-empty `s` without a double quote that does not end in white space,
the line of a double quote followed by `s` has the single token `s`. -/
theorem splitBuff_in_range :
    (∀ line, ∃ argv, splitBuff line = some argv) ∧
      ∀ s : GoString, s ≠ [] → bcomma ∉ s → noTrailingSpace s →
        splitBuff (bcomma :: s) = some [s] := by
  refine ⟨fun line => ⟨_, splitBuff_lex line⟩, ?_⟩
  intro s hne hq hs
  have ht : trimLine (bcomma :: s) = bcomma :: s := by
    apply trimLine_id
    · rw [decode_ascii _ _ (by decide)]; decide
    · exact decodeLast_noTrailingSpace [] s bcomma (by decide)
        (by unfold asciiSpace bcomma; omega) hs
  rw [splitBuff_lex, ht]
  conv_lhs => unfold lex
  rw [if_neg (by decide), if_pos rfl]
  have := lex_quoted_append s [] [] hq
  rw [List.append_nil, List.nil_append] at this
  rw [this]
  simp [lex, hne]

/-- C15 on the lines `"abc` (unterminated quote) and `a"` (ending on an
opening quote). -/
theorem splitBuff_in_range_witness :
    splitBuff (bcomma :: [97, 98, 99]) = some [[97, 98, 99]] ∧
      ∃ argv, splitBuff [97, 34] = some argv :=
  ⟨splitBuff_in_range.2 [97, 98, 99] (by decide) (by decide)
      (by unfold noTrailingSpace; decide),
    splitBuff_in_range.1 [97, 34]⟩

/-- C16: when the first token of the line is `exit`, `quit` or `bye`,
`handleTermCmd` closes the connection, writes nothing and invokes no handler,
whatever the further tokens and the registry. -/
theorem handleTermCmd_exit (st : TermState) (conn : Conn) (line : GoString)
    (argv : List GoString) (c : GoString) (hargv : splitBuff line = some argv)
    (h0 : argv.head? = some c) (hc : c = strExit ∨ c = strQuit ∨ c = strBye) :
    ∃ r, handleTermCmd st conn line = some r ∧ r.conn.closed = true ∧
      r.conn.written = conn.written ∧ r.calls = [] ∧ r.st = st := by
  cases argv with
  | nil => simp at h0
  | cons a0 rest =>
    have ha : a0 = c := by simpa using h0
    subst ha
    have hne : a0 ≠ [] := by
      rcases hc with h | h | h <;> rw [h] <;> decide
    unfold handleTermCmd
    rw [hargv]
    simp only []
    rw [if_neg hne, if_pos hc]
    exact ⟨_, rfl, rfl, rfl, rfl, rfl⟩

/-- C16 on the line `exit now` with a command named `exit` registered. -/
theorem handleTermCmd_exit_witness :
    ∃ r, handleTermCmd exitState freshConn [101, 120, 105, 116, 32, 110, 111, 119] = some r ∧
      r.conn.closed = true ∧ r.conn.written = freshConn.written ∧ r.calls = [] ∧
      r.st = exitState :=
  handleTermCmd_exit exitState freshConn [101, 120, 105, 116, 32, 110, 111, 119]
    [[101, 120, 105, 116], [110, 111, 119]] strExit (by decide) rfl (Or.inl rfl)

/-- C20: unquoted text that touches a quoted span is discarded: for non-empty
`w` and `q` free of double quotes, `w` free of white space (and `q` free of
white space or not), both `w"q"` and `"q"w` have the single token `q`. -/
theorem splitBuff_adjacent (w q : GoString) (hw : w ≠ []) (hq : q ≠ [])
    (h1 : noWhitespace w) (h3 : bcomma ∉ w) (h4 : bcomma ∉ q) :
    splitBuff (w ++ [bcomma] ++ q ++ [bcomma]) = some [q] ∧
      splitBuff ([bcomma] ++ q ++ [bcomma] ++ w) = some [q] := by
  have hp : ∀ s : GoString, noWhitespace s → bcomma ∉ s → ∀ b ∈ s, b ≠ bspace ∧ b ≠ bcomma := by
    intro s hs hc b hb
    refine ⟨fun e => noWhitespace_byte s hs b hb ?_, fun e => hc (e ▸ hb)⟩
    rw [e]; unfold asciiSpace bspace; simp
  constructor
  · have e1 : w ++ [bcomma] ++ q ++ [bcomma] = w ++ bcomma :: (q ++ [bcomma]) := by simp
    have e2 : w ++ [bcomma] ++ q ++ [bcomma] = (w ++ [bcomma] ++ q) ++ [bcomma] := rfl
    have ht : trimLine (w ++ [bcomma] ++ q ++ [bcomma]) = w ++ [bcomma] ++ q ++ [bcomma] := by
      apply trimLine_id
      · rw [e1]; exact decode_noWhitespace_ascii w _ bcomma (by decide) hw h1
      · rw [e2, decodeLast_ascii_last _ bcomma (by decide)]; decide
    rw [splitBuff_lex, ht, e1, lex_word_append w [] _ (hp w h1 h3), List.nil_append]
    conv_lhs => unfold lex
    rw [if_neg (by decide), if_pos rfl, lex_quoted_append q [] _ h4, List.nil_append]
    conv_lhs => unfold lex
    rw [if_pos rfl, if_pos hq]
    rfl
  · have e1 : [bcomma] ++ q ++ [bcomma] ++ w = bcomma :: (q ++ bcomma :: w) := by simp
    have e2 : [bcomma] ++ q ++ [bcomma] ++ w = ([bcomma] ++ q) ++ bcomma :: w := by simp
    have ht : trimLine ([bcomma] ++ q ++ [bcomma] ++ w) = [bcomma] ++ q ++ [bcomma] ++ w := by
      apply trimLine_id
      · rw [e1, decode_ascii _ _ (by decide)]; decide
      · rw [e2]
        exact decodeLast_noTrailingSpace _ w bcomma (by decide)
          (by unfold asciiSpace bcomma; omega) (noWhitespace_noTrailing w h1)
    rw [splitBuff_lex, ht, e1]
    conv_lhs => unfold lex
    rw [if_neg (by decide), if_pos rfl, lex_quoted_append q [] _ h4, List.nil_append]
    conv_lhs => unfold lex
    rw [if_pos rfl, if_pos hq]
    have := lex_skip_append w [] (hp w h1 h3)
    rw [List.append_nil] at this
    rw [this]
    rfl

/-- C20 on `ab"cd"` and `"cd"ab`: the only token is `cd`. -/
theorem splitBuff_adjacent_witness :
    splitBuff ([97, 98] ++ [bcomma] ++ [99, 100] ++ [bcomma]) = some [[99, 100]] ∧
      splitBuff ([bcomma] ++ [99, 100] ++ [bcomma] ++ [97, 98]) = some [[99, 100]] :=
  splitBuff_adjacent [97, 98] [99, 100] (by decide) (by decide)
    (by unfold noWhitespace; decide) (by decide) (by decide)

end Console
